import Mathlib

/-!
# HyperLogLog++ sketch (`pkg/estimator/hll/hll.go`)

A shallow embedding of the `Plus` sketch: machine integers are natural
numbers reduced modulo `2^w` wherever the Go code can wrap, run-time panics
(nil dereference, index out of range) are `none`, and methods with a pointer
receiver return the receiver's new state.
-/

set_option maxRecDepth 8000

namespace hll

/-! ## Machine arithmetic -/

/-- Truncation to `uint8`. -/
def u8 (n : Nat) : Nat := n % 2 ^ 8

/-- Truncation to `uint32`. -/
def u32 (n : Nat) : Nat := n % 2 ^ 32

/-- Truncation to `uint64`. -/
def u64 (n : Nat) : Nat := n % 2 ^ 64

/-- Subtraction on `uint8` operands, wrapping modulo `2^8`. -/
def sub8 (a b : Nat) : Nat := (a + 2 ^ 8 - b) % 2 ^ 8

/-- Subtraction on `uint32` operands, wrapping modulo `2^32`. -/
def sub32 (a b : Nat) : Nat := (a + 2 ^ 32 - b) % 2 ^ 32

/-- Subtraction on `uint64` operands, wrapping modulo `2^64`. -/
def sub64 (a b : Nat) : Nat := (a + 2 ^ 64 - b) % 2 ^ 64

/-- Left shift on `uint32`: bits shifted past bit 31 are lost. -/
def shl32 (a s : Nat) : Nat := (a <<< s) % 2 ^ 32

/-- Left shift on `uint64`: bits shifted past bit 63 are lost. -/
def shl64 (a s : Nat) : Nat := (a <<< s) % 2 ^ 64

/-- Leading zero bits among the low `n` bit positions of `x`, scanning from
bit `n - 1` downwards (for `x < 2 ^ n`). -/
def clzAux : Nat → Nat → Nat
  | 0, _ => 0
  | n + 1, x => if 2 ^ n ≤ x then 0 else clzAux n x + 1

/-- Count of leading zero bits of a 64-bit word (`bits.Clz` of the external
package `github.com/dgryski/go-bits`, which returns a `uint64`); 64 at 0. -/
def clz (x : Nat) : Nat := clzAux 64 x

/-- Go `eb32(bits, hi, lo)`: the mask is built in `uint32`, the shift counts
`hi - lo` and `lo` are `uint8`. -/
def eb32 (bits hi lo : Nat) : Nat :=
  let m := shl32 (sub32 (shl32 1 (sub8 hi lo)) 1) lo
  (bits &&& m) >>> lo

/-- Go `bextr(v, start, length)` on a `uint64`. -/
def bextr (v start length : Nat) : Nat :=
  (v >>> start) &&& (sub64 (shl64 1 length) 1)

/-! ## Sparse containers -/

/-- Go `type set map[uint32]struct{}`: the keys, without repetition.  A
`range` over the map visits the keys in the order of this list; Go leaves the
order open, and `mergeSparse_order` and `Merge_order` show that the two loops
over `tmpSet` do not depend on it. -/
abbrev set := List Nat

/-- Go `set.add`: `s[v] = struct{}{}`. -/
def set.add (s : set) (v : Nat) : set := if v ∈ s then s else s ++ [v]

/-- Go `set.has`. -/
def set.has (s : set) (v : Nat) : Bool := decide (v ∈ s)

/-- Modelled from the spec: the `compressedList` type (its file is not among
the sources).  An append-only container of 32-bit values stored as varint
gaps whose iterator reconstructs the appended values in order; it is held
here as that sequence of values. -/
structure compressedList where
  vals : List Nat
deriving DecidableEq, Repr

/-- Modelled from the spec: `newCompressedList(size)`, an empty list; the
argument is only a capacity hint. -/
def newCompressedList (_size : Nat) : compressedList := ⟨[]⟩

/-- Modelled from the spec: `Append(x)` stores `x` after the values already
appended. -/
def compressedList.Append (v : compressedList) (x : Nat) : compressedList :=
  ⟨v.vals ++ [x]⟩

/-- Modelled from the spec: `Count`, the number of values appended. -/
def compressedList.Count (v : compressedList) : Nat := v.vals.length

/-- Modelled from the spec: `Len()`, the same as `Count`. -/
def compressedList.Len (v : compressedList) : Nat := v.Count

/-- Modelled from the spec: `Iter()`, a forward iterator over the appended
values, held as the values still to be returned (`HasNext` is "non-empty",
`Peek` the head, `Next` the head with the iterator advanced to the tail). -/
def compressedList.Iter (v : compressedList) : List Nat := v.vals

/-! ## The sketch -/

/-- Go `errors.New` values returned by `NewPlus` and `Merge`. -/
inductive Err where
  | invalidPrecision
  | precisionMismatch
deriving DecidableEq, Repr

/-- Go `type Plus struct`.  The `hash` field is left out: `Add` takes the
64-bit hash of its argument.  The floating-point `alpha` is left out too.
`tmpSet` and `sparseList` are `none` when the Go field is `nil`; a `nil`
`denseList` slice is the empty list. -/
structure Plus where
  p : Nat
  pp : Nat
  m : Nat
  mp : Nat
  sparse : Bool
  tmpSet : Option set
  denseList : List Nat
  sparseList : Option compressedList
deriving DecidableEq, Repr

/-- Go `NewPlus(p uint8)`. -/
def NewPlus (p : Nat) : Except Err Plus :=
  if p > 18 ∨ p < 4 then .error .invalidPrecision
  else
    let pp := 25
    let m := shl32 1 p
    .ok { p := p, pp := pp, m := m, mp := shl32 1 pp, sparse := true,
          tmpSet := some [], denseList := [],
          sparseList := some (newCompressedList m) }

/-- Go `Plus.encodeHash`. -/
def encodeHash (h : Plus) (x : Nat) : Nat :=
  let idx := u32 (bextr x (sub8 64 h.pp) h.pp)
  if bextr x (sub8 64 h.pp) (sub8 h.pp h.p) = 0 then
    let zeros := u64 (clz (shl64 (bextr x 0 h.pp) h.pp ||| sub64 (shl64 1 h.pp) 1) + 1)
    shl32 idx 7 ||| u32 (shl64 zeros 1) ||| 1
  else shl32 idx 1

/-- Go `Plus.getIndex`. -/
def getIndex (h : Plus) (k : Nat) : Nat :=
  if k &&& 1 = 1 then eb32 k 32 (sub8 32 h.p)
  else eb32 k (u8 (h.pp + 1)) (u8 (sub8 h.pp h.p + 1))

/-- Go `Plus.decodeHash`. -/
def decodeHash (h : Plus) (k : Nat) : Nat × Nat :=
  let r :=
    if k &&& 1 = 1 then sub8 (u8 (u8 (eb32 k 7 1) + h.pp)) h.p
    else u8 (sub64 (clz (shl32 k (sub8 (u8 (sub8 32 h.pp + h.p)) 1))) 31)
  (getIndex h k, r)

/-- The index and rank that the dense branch of `Plus.Add` computes from a
hash `x`: `i := bextr(x, 64-p, p)`, `w := x<<p | 1<<(p-1)`,
`rho := uint8(bits.Clz(w)) + 1`. -/
def denseIndex (h : Plus) (x : Nat) : Nat := bextr x (sub8 64 h.p) h.p

/-- The rank `rho` of the dense branch of `Plus.Add`. -/
def denseRho (h : Plus) (x : Nat) : Nat :=
  let w := shl64 x h.p ||| shl64 1 (sub8 h.p 1)
  u8 (u8 (clz w) + 1)

/-! ## Sparse to dense -/

/-- The register update shared by `Add`, `toNormal` and `Merge`:
`if h.denseList[i] < r { h.denseList[i] = r }`.  `none` is the
index-out-of-range panic. -/
def regMax (d : List Nat) (ir : Nat × Nat) : Option (List Nat) :=
  match d[ir.1]? with
  | none => none
  | some v => if v < ir.2 then some (d.set ir.1 ir.2) else some d

/-- The `for` loop of `Plus.mergeSparse`.  `it` holds what the iterator over
the old `sparseList` has yet to return, `ks` is `keys[i:]` and `newList` the
list under construction.  Every turn of the loop consumes from `it` or `ks`;
the first argument bounds the number of turns (`none` when it is used up
before both are exhausted). -/
def mergeSparseLoop : Nat → List Nat → List Nat → compressedList → Option compressedList
  | _, [], [], newList => some newList
  | 0, _, _, _ => none
  | fuel + 1, [], x2 :: ks, newList => mergeSparseLoop fuel [] ks (newList.Append x2)
  | fuel + 1, x1 :: it, [], newList => mergeSparseLoop fuel it [] (newList.Append x1)
  | fuel + 1, x1 :: it, x2 :: ks, newList =>
    if x1 = x2 then mergeSparseLoop fuel it ks (newList.Append x1)
    else if x1 > x2 then mergeSparseLoop fuel (x1 :: it) ks (newList.Append x2)
    else mergeSparseLoop fuel it (x2 :: ks) (newList.Append x1)

/-- Go `Plus.mergeSparse`.  The keys of `tmpSet` are collected and sorted
(`sort.Sort(keys)`); a `nil` `tmpSet` has no keys, a `nil` `sparseList`
cannot be iterated. -/
def mergeSparse (h : Plus) : Option Plus :=
  let keys := (h.tmpSet.getD []).insertionSort (· ≤ ·)
  match h.sparseList with
  | none => none
  | some sl =>
    match mergeSparseLoop (sl.Count + keys.length) sl.Iter keys (newCompressedList h.m) with
    | none => none
    | some newList => some { h with sparseList := some newList, tmpSet := some [] }

/-- Go `Plus.toNormal`. -/
def toNormal (h : Plus) : Option Plus :=
  match (if (h.tmpSet.getD []).length > 0 then mergeSparse h else some h) with
  | none => none
  | some h1 =>
    match h1.sparseList with
    | none => none
    | some sl =>
      match (sl.Iter.map (decodeHash h1)).foldlM regMax (List.replicate h1.m 0) with
      | none => none
      | some d =>
        some { h1 with denseList := d, sparse := false, tmpSet := none, sparseList := none }

/-! ## Public operations -/

/-- Go `Plus.Add`, from `x := h.hash(v)` on.  In the sparse branch a `nil`
`tmpSet` cannot be assigned to. -/
def Add (h : Plus) (x : Nat) : Option Plus :=
  if h.sparse then
    match h.tmpSet with
    | none => none
    | some ts =>
      let ts1 := set.add ts (encodeHash h x)
      let h1 := { h with tmpSet := some ts1 }
      if u32 (u32 ts1.length * 100) > h1.m then
        match mergeSparse h1 with
        | none => none
        | some h2 =>
          match h2.sparseList with
          | none => none
          | some sl => if u32 sl.Len > h2.m then toNormal h2 else some h2
      else some h1
  else
    match regMax h.denseList (denseIndex h x, denseRho h x) with
    | none => none
    | some d => some { h with denseList := d }

/-- Go `Plus.Count`, as the state it leaves the sketch in: the sparse branch
runs `mergeSparse`, the dense branch only reads.  The estimate returned is a
floating-point computation; `CountValue` below adds it. -/
def Count (h : Plus) : Option Plus :=
  if h.sparse then mergeSparse h else some h

/-- Go `Plus.Merge` for an argument `s` that is a `*Plus` distinct from the
receiver.  The result holds the receiver after the call, the argument after
the call and the error returned (`none` for `nil`). -/
def Merge (h other : Plus) : Option (Plus × Plus × Option Err) :=
  if h.p ≠ other.p then some (h, other, some .precisionMismatch)
  else
    match (if h.sparse then toNormal h else some h) with
    | none => none
    | some h1 =>
      if other.sparse then
        match ((other.tmpSet.getD []).map (decodeHash other)).foldlM regMax h1.denseList with
        | none => none
        | some d1 =>
          match other.sparseList with
          | none => none
          | some sl =>
            match (sl.Iter.map (decodeHash other)).foldlM regMax d1 with
            | none => none
            | some d2 => some ({ h1 with denseList := d2 }, other, none)
      else
        match (other.denseList.enum).foldlM regMax h1.denseList with
        | none => none
        | some d => some ({ h1 with denseList := d }, other, none)

/-- A run of `Add` calls, one per hash. -/
def addAll (h : Plus) (xs : List Nat) : Option Plus := xs.foldlM Add h

/-! ## Specification-side notions -/

/-- The top `p` bits of a 64-bit hash. -/
def topBits (p x : Nat) : Nat := x / 2 ^ (64 - p)

/-- The rank of a hash: `clz((x << p) | (1 << (p-1))) + 1` on 64-bit words. -/
def rank (p x : Nat) : Nat := clz ((x <<< p) % 2 ^ 64 ||| 1 <<< (p - 1)) + 1

/-- The maximum of `rank` over the hashes of `xs` whose top `p` bits are `i`,
0 when there is none. -/
def maxRank (p : Nat) (xs : List Nat) (i : Nat) : Nat :=
  ((xs.filter (fun x => topBits p x = i)).map (rank p)).foldr max 0

/-- The largest rank that a list of `(index, rank)` updates holds for
register `j`, 0 when it holds none. -/
def regOf (us : List (Nat × Nat)) (j : Nat) : Nat :=
  ((us.filter (fun ir => ir.1 = j)).map Prod.snd).foldr max 0

/-- The `(index, rank)` updates that `Merge` applies to the receiver's
registers, in order, for an argument `o`. -/
def mergeUpdates (o : Plus) : List (Nat × Nat) :=
  if o.sparse then
    (o.tmpSet.getD []).map (decodeHash o) ++
      ((o.sparseList.getD ⟨[]⟩).Iter.map (decodeHash o))
  else o.denseList.enum

/-- A dense sketch of a valid precision with one register per index. -/
def DenseShape (h : Plus) : Prop :=
  h.sparse = false ∧ 4 ≤ h.p ∧ h.p ≤ 18 ∧ h.denseList.length = 2 ^ h.p

/-- The shape of a sketch that the public operations maintain. -/
def Inv (h : Plus) : Prop :=
  4 ≤ h.p ∧ h.p ≤ 18 ∧ h.pp = 25 ∧ h.m = 2 ^ h.p ∧
  (h.sparse = true →
    (∃ ts, h.tmpSet = some ts) ∧ (∃ sl, h.sparseList = some sl) ∧ h.denseList = []) ∧
  (h.sparse = false →
    h.tmpSet = none ∧ h.sparseList = none ∧ h.denseList.length = h.m)

/-- The states of a sketch reachable from `NewPlus` by `Add` (of any 64-bit
hash), `Count` and `Merge` (of a reachable sketch; the call may fail). -/
inductive Reachable : Plus → Prop where
  | new (p : Nat) (h : Plus) : NewPlus p = .ok h → Reachable h
  | add (h : Plus) (x : Nat) (h' : Plus) :
      Reachable h → x < 2 ^ 64 → Add h x = some h' → Reachable h'
  | count (h h' : Plus) : Reachable h → Count h = some h' → Reachable h'
  | merge (h o h' o' : Plus) (e : Option Err) :
      Reachable h → Reachable o → Merge h o = some (h', o', e) → Reachable h'

/-- The states that a sketch in state `h0` can be brought to by later `Add`,
`Count` and `Merge` calls. -/
inductive ReachFrom (h0 : Plus) : Plus → Prop where
  | refl : ReachFrom h0 h0
  | add (h : Plus) (x : Nat) (h' : Plus) :
      ReachFrom h0 h → x < 2 ^ 64 → Add h x = some h' → ReachFrom h0 h'
  | count (h h' : Plus) : ReachFrom h0 h → Count h = some h' → ReachFrom h0 h'
  | merge (h o h' o' : Plus) (e : Option Err) :
      ReachFrom h0 h → Reachable o → Merge h o = some (h', o', e) → ReachFrom h0 h'

/-! ## Sample sketches -/

/-- The sketch `NewPlus(4)` returns. -/
def new4 : Plus :=
  { p := 4, pp := 25, m := 16, mp := 33554432, sparse := true,
    tmpSet := some [], denseList := [], sparseList := some ⟨[]⟩ }

/-- The sketch `NewPlus(4)` after `Add` of the hash `0xf000004000000000`: the
encoded hash has gone through `mergeSparse` into `sparseList`. -/
def one4 : Plus :=
  { p := 4, pp := 25, m := 16, mp := 33554432, sparse := true,
    tmpSet := some [], denseList := [], sparseList := some ⟨[4026531921]⟩ }

/-- The sketch `NewPlus(8)` returns. -/
def new8 : Plus :=
  { p := 8, pp := 25, m := 256, mp := 33554432, sparse := true,
    tmpSet := some [], denseList := [], sparseList := some ⟨[]⟩ }

/-- The sketch `NewPlus(4)` made dense while empty (`toNormal`). -/
def dense4 : Plus :=
  { p := 4, pp := 25, m := 16, mp := 33554432, sparse := false,
    tmpSet := none, denseList := List.replicate 16 0, sparseList := none }

/-- The sketch `NewPlus(p)` made dense while empty, for a valid `p`. -/
def denseNew (p : Nat) : Plus :=
  { p := p, pp := 25, m := 2 ^ p, mp := 2 ^ 25, sparse := false,
    tmpSet := none, denseList := List.replicate (2 ^ p) 0, sparseList := none }

/-- The sketch `NewPlus(7)` returns. -/
def new7 : Plus :=
  { p := 7, pp := 25, m := 128, mp := 33554432, sparse := true,
    tmpSet := some [], denseList := [], sparseList := some ⟨[]⟩ }

/-- The sketch `NewPlus(7)` after `Add` of the hash `0xfe00004000000000`: the
encoded hash is pending in `tmpSet`. -/
def pending7 : Plus :=
  { p := 7, pp := 25, m := 128, mp := 33554432, sparse := true,
    tmpSet := some [4261412945], denseList := [], sparseList := some ⟨[]⟩ }

/-! ## Bit-level facts -/

/-- The sketch `NewPlus(16)` returns. -/
def new16 : Plus :=
  { p := 16, pp := 25, m := 65536, mp := 33554432, sparse := true,
    tmpSet := some [], denseList := [], sparseList := some ⟨[]⟩ }

/-- The sketch `NewPlus(16)` after `Add` of the six hashes of `TestHLLPPCount`
(five distinct ones and a repeat): five encoded hashes are pending. -/
def six16 : Plus :=
  { p := 16, pp := 25, m := 65536, mp := 33554432, sparse := true,
    tmpSet := some [1086, 2110, 3134, 4158, 5182], denseList := [],
    sparseList := some ⟨[]⟩ }

/-- Sixteen hashes `j << 39`, `j = 1 .. 16`: their top four bits are 0 and
their encoded hashes `2 * j` are distinct. -/
def run16 : List Nat := (List.range 16).map (fun j => (j + 1) <<< 39)

/-- The sketch `NewPlus(4)` after `Add` of the hashes `run16`: still sparse,
with sixteen entries. -/
def sparse16 : Plus :=
  { p := 4, pp := 25, m := 16, mp := 33554432, sparse := true, tmpSet := some [],
    denseList := [],
    sparseList := some ⟨[2, 4, 6, 8, 10, 12, 14, 16, 18, 20, 22, 24, 26, 28, 30, 32]⟩ }

/-- The sketch `sparse16` after `Add` of the hash `17 << 39`: the seventeenth
entry makes it dense, with all hashes in register 0. -/
def dense17 : Plus :=
  { p := 4, pp := 25, m := 16, mp := 33554432, sparse := false, tmpSet := none,
    denseList := [21, 0, 0, 0, 0, 0, 0, 0, 0, 0, 0, 0, 0, 0, 0, 0], sparseList := none }

/-- The sketch `six16` after `Count`: the five pending entries are merged. -/
def counted16 : Plus :=
  { p := 16, pp := 25, m := 65536, mp := 33554432, sparse := true, tmpSet := some [],
    denseList := [], sparseList := some ⟨[1086, 2110, 3134, 4158, 5182]⟩ }

/-- The sketch `counted16` after `Add` of the hash `0x00060fffffffffff`: one
entry is pending. -/
def pending16 : Plus :=
  { p := 16, pp := 25, m := 65536, mp := 33554432, sparse := true, tmpSet := some [6206],
    denseList := [], sparseList := some ⟨[1086, 2110, 3134, 4158, 5182]⟩ }

/-- The sketch `dense17` after `Add` of the hash `0x1000000000000000`, which
sets register 1. -/
def dense18 : Plus :=
  { p := 4, pp := 25, m := 16, mp := 33554432, sparse := false, tmpSet := none,
    denseList := [21, 61, 0, 0, 0, 0, 0, 0, 0, 0, 0, 0, 0, 0, 0, 0], sparseList := none }

/-- The dense sketch that `new4.Merge(one4)` leaves in the receiver. -/
def merged4 : Plus :=
  { p := 4, pp := 25, m := 16, mp := 33554432, sparse := false, tmpSet := none,
    denseList := [0, 0, 0, 0, 0, 0, 0, 0, 0, 0, 0, 0, 0, 0, 0, 61], sparseList := none }

/-- The sketch `dense4` after the dense `Add` of the hash
`0x3000000000000000`: register 3 holds the rank 61. -/
def rank61 : Plus :=
  { p := 4, pp := 25, m := 16, mp := 33554432, sparse := false, tmpSet := none,
    denseList := [0, 0, 0, 61, 0, 0, 0, 0, 0, 0, 0, 0, 0, 0, 0, 0], sparseList := none }

/-! ## The raw estimate and the bias -/

/-- The loop of Go `Plus.e`, integer part: for each register `val` the
denominator `uint32(1)<<val` of the term `1.0 / float64(uint32(1)<<val)`
added to `sum`. -/
def eDenominators (h : Plus) : List Nat := h.denseList.map (fun val => shl32 1 val)

/-- The loop of Go `Plus.e`, second result: `count`, a `uint32` incremented
for each register equal to 0. -/
def eCount (h : Plus) : Nat :=
  h.denseList.foldl (fun count val => if val = 0 then u32 (count + 1) else count) 0

/-- The loop `for i = 0; i < len(estTable) && estTable[i] < est; i++ {}` of Go
`Plus.estimateBias`: the value of `i` after it. -/
def biasIndex : List ℚ → ℚ → Nat
  | [], _ => 0
  | e :: es, est => if e < est then biasIndex es est + 1 else 0

/-- Go `Plus.estimateBias`, with the two tables `rawEstimateData[h.p-4]` and
`biasData[h.p-4]` as parameters and exact rational arithmetic in the place of
`float64`.  `none` is the index-out-of-range panic; `estTable[i-1]` with
`i = 0` is such an access. -/
def estimateBias (estTable biasTable : List ℚ) (est : ℚ) : Option ℚ :=
  match estTable[0]? with
  | none => none
  | some e0 =>
    if e0 > est then
      match biasTable[0]? with
      | none => none
      | some b0 => some (e0 - b0)
    else
      match estTable[estTable.length - 1]? with
      | none => none
      | some lastEstimate =>
        if lastEstimate < est then
          match (if biasTable.length = 0 then none else biasTable[biasTable.length - 1]?) with
          | none => none
          | some bLast => some (lastEstimate - bLast)
        else
          let i := biasIndex estTable est
          if i = 0 then none
          else
            match estTable[i - 1]?, biasTable[i - 1]?, estTable[i]?, biasTable[i]? with
            | some e1, some b1, some e2, some b2 =>
              let c := (est - e1) / (e2 - e1)
              some (b1 * (1 - c) + b2 * c)
            | _, _, _, _ => none

/-! ## The value of `Count` -/

/-- The `float64` operations that `linearCount` and the conversion of its
result use (`float64(m)`, `/`, `*`, `math.Log`, `uint64(f)`).  They are
parameters of the model. -/
structure Float64Ops where
  F : Type
  ofUInt32 : Nat → F
  div : F → F → F
  mul : F → F → F
  log : F → F
  toUInt64 : F → Nat

/-- Go `Plus.linearCount`: `fm := float64(m); return fm * math.Log(fm/float64(v))`. -/
def linearCount (fl : Float64Ops) (m v : Nat) : fl.F :=
  fl.mul (fl.ofUInt32 m) (fl.log (fl.div (fl.ofUInt32 m) (fl.ofUInt32 v)))

/-- The sparse branch of Go `Plus.Count`, with the value it returns:
`h.mergeSparse()` and then
`uint64(h.linearCount(h.mp, h.mp-uint32(h.sparseList.Count)))`. -/
def CountSparse (fl : Float64Ops) (h : Plus) : Option (Plus × Nat) :=
  match mergeSparse h with
  | none => none
  | some h1 =>
    match h1.sparseList with
    | none => none
    | some sl => some (h1, fl.toUInt64 (linearCount fl h1.mp (sub32 h1.mp (u32 sl.Count))))

/-- Facts of IEEE-754 arithmetic and of `math.Log` that make a new sketch
count 0: `x/x` is one for a non-zero 32-bit `x`, the logarithm of one is
zero, a 32-bit value times zero is zero, and zero converts to 0. -/
def Float64Ops.LogOneLaws (fl : Float64Ops) : Prop :=
  ∃ one zero : fl.F,
    (∀ n, 0 < n → n < 2 ^ 32 → fl.div (fl.ofUInt32 n) (fl.ofUInt32 n) = one) ∧
    fl.log one = zero ∧ (∀ n, n < 2 ^ 32 → fl.mul (fl.ofUInt32 n) zero = zero) ∧
    fl.toUInt64 zero = 0

/-- The value `uint64(m * ln(m / v))` that the spec gives for the linear
count, written with the `float64` operations themselves. -/
def linearFormula (fl : Float64Ops) (m v : Nat) : Nat :=
  fl.toUInt64 (fl.mul (fl.ofUInt32 m) (fl.log (fl.div (fl.ofUInt32 m) (fl.ofUInt32 v))))

/-- The value the spec gives for the sparse count of `n` distinct encoded
hashes: `mp * ln(mp / (mp - n))` truncated to an integer, with `mp = 2^25`. -/
def countFormula (fl : Float64Ops) (n : Nat) : Nat := linearFormula fl (2 ^ 25) (2 ^ 25 - n)

/-- The linear count `uint64(m * ln(m / v))` does not decrease when `v`, the
number of unused slots, decreases (for `0 < v ≤ m`): a property of `/`,
`math.Log`, `*` and the conversion to `uint64`. -/
def Float64Ops.LinearMonotone (fl : Float64Ops) : Prop :=
  ∀ m v w, 0 < w → w ≤ v → v ≤ m → m < 2 ^ 32 → linearFormula fl m v ≤ linearFormula fl m w

/-- An instance of `Float64Ops` in exact rational arithmetic, with `x - 1`,
the first-order value of the logarithm near 1, in the place of `math.Log` and
the floor as conversion to `uint64`. -/
def ratOps : Float64Ops :=
  { F := ℚ, ofUInt32 := fun n => (n : ℚ), div := fun a b => a / b, mul := fun a b => a * b,
    log := fun a => a - 1, toUInt64 := fun a => ⌊a⌋.toNat }

/-- The comparison `<=` for `ratOps`. -/
def ratLe (a b : ℚ) : Bool := decide (a ≤ b)

/-- Go `Plus.Count` with the value it returns.  The sparse branch is
`CountSparse`.  In the dense branch `est h` stands for the variable `est`
after `h.e()` and the bias correction `est -= h.estimateBias(est)`, a
`float64` computation over the tables (`none` when `estimateBias` panics);
it is a parameter, as are the comparison `<=` and the entry
`threshold[h.p-4]`.  `zeros` is the second result of `e()`. -/
def CountValue (fl : Float64Ops) (le : fl.F → fl.F → Bool) (threshold : fl.F)
    (est : Plus → Option fl.F) (h : Plus) : Option (Plus × Nat) :=
  if h.sparse then CountSparse fl h
  else
    match est h with
    | none => none
    | some e =>
      let zeros := eCount h
      if zeros > 0 then
        let lc := linearCount fl h.m zeros
        if le lc threshold then some (h, fl.toUInt64 lc) else some (h, fl.toUInt64 e)
      else some (h, fl.toUInt64 e)

/-- The number of distinct encoded hashes of a run of hashes. -/
def distinctEncoded (h : Plus) (xs : List Nat) : Nat := ((xs.map (encodeHash h)).dedup).length

/-- A sparse sketch that holds exactly the encoded hashes `S`, with at most
`m` of them in `sparseList`, and `mp = 2^25`. -/
def SparseHolds (h : Plus) (S : List Nat) : Prop :=
  ∃ ts sl, h.tmpSet = some ts ∧ h.sparseList = some sl ∧ sl.vals.length ≤ h.m ∧
    h.mp = 2 ^ 25 ∧ ∀ v, (v ∈ sl.vals ∨ v ∈ ts) ↔ v ∈ S

/-! ## Words passed to `clz` -/

/-- The word `w := x<<h.p | 1<<(h.p-1)` of the dense branch of `Plus.Add`. -/
def denseWord (h : Plus) (x : Nat) : Nat := shl64 x h.p ||| shl64 1 (sub8 h.p 1)

/-- The word `(bextr(x, 0, h.pp)<<h.pp)|(1<<h.pp-1)` of the long-form branch of
`Plus.encodeHash`. -/
def encodeWord (h : Plus) (x : Nat) : Nat :=
  shl64 (bextr x 0 h.pp) h.pp ||| sub64 (shl64 1 h.pp) 1

/-- The word `uint64(k<<(32-h.pp+h.p-1))` of the short-form branch of
`Plus.decodeHash`. -/
def decodeWord (h : Plus) (k : Nat) : Nat := shl32 k (sub8 (u8 (sub8 32 h.pp + h.p)) 1)

/-- The rank of `Plus.decodeHash` computed over the integers, without the
truncations to `uint8` and `uint64`. -/
def decodeRankExact (h : Plus) (k : Nat) : Int :=
  if k &&& 1 = 1 then (eb32 k 7 1 : Int) + h.pp - h.p
  else (clz (decodeWord h k) : Int) - 31

/-! ## Invariants of the reachable states -/

/-- The encoded form of some 64-bit hash at the precision of `h`. -/
def IsEncoded (h : Plus) (k : Nat) : Prop := ∃ x, x < 2 ^ 64 ∧ k = encodeHash h x

/-- The shape of the sparse containers that the public operations maintain:
`tmpSet` holds at most `m/100` keys, `sparseList` is strictly ascending and
both hold encoded hashes only. -/
def SparseInv (h : Plus) : Prop :=
  h.sparse = true → ∃ ts sl, h.tmpSet = some ts ∧ h.sparseList = some sl ∧ ts.Nodup ∧
    ts.length * 100 ≤ h.m ∧ sl.vals.Sorted (· < ·) ∧
    (∀ k ∈ ts, IsEncoded h k) ∧ (∀ k ∈ sl.vals, IsEncoded h k)

/-- Every register is at most `64 - p + 1`. -/
def RegInv (h : Plus) : Prop := ∀ r ∈ h.denseList, r ≤ 64 - h.p + 1

/-- The three invariants together. -/
def Good (h : Plus) : Prop := Inv h ∧ SparseInv h ∧ RegInv h

theorem clzAux_le (n x : Nat) : clzAux n x ≤ n := by
  induction n with
  | zero => simp [clzAux]
  | succ n ih =>
    simp only [clzAux]
    split <;> omega

theorem clz_le (x : Nat) : clz x ≤ 64 := clzAux_le 64 x

theorem bextr_eq (v s l : Nat) (hl : l < 64) : bextr v s l = (v / 2 ^ s) % 2 ^ l := by
  unfold bextr sub64 shl64
  rw [Nat.one_shiftLeft, Nat.shiftRight_eq_div_pow]
  have h1 : 2 ^ l < 2 ^ 64 := Nat.pow_lt_pow_right (by norm_num) hl
  have h2 : 0 < 2 ^ l := Nat.pos_pow_of_pos l (by norm_num)
  rw [Nat.mod_eq_of_lt h1]
  have h3 : (2 ^ l + 2 ^ 64 - 1) % 2 ^ 64 = 2 ^ l - 1 := by omega
  rw [h3, Nat.and_pow_two_sub_one_eq_mod]

theorem sub8_eq (a b : Nat) (hb : b ≤ a) (ha : a < 256) : sub8 a b = a - b := by
  unfold sub8
  omega

theorem topBits_lt (p x : Nat) (hp : p ≤ 64) (hx : x < 2 ^ 64) : topBits p x < 2 ^ p := by
  unfold topBits
  apply Nat.div_lt_of_lt_mul
  rw [← Nat.pow_add]
  have h1 : 64 - p + p = 64 := by omega
  rw [h1]
  exact hx

theorem denseIndex_eq (h : Plus) (x : Nat) (hp : h.p < 64) (hx : x < 2 ^ 64) :
    denseIndex h x = topBits h.p x := by
  unfold denseIndex
  rw [sub8_eq 64 h.p (by omega) (by norm_num), bextr_eq _ _ _ hp]
  exact Nat.mod_eq_of_lt (topBits_lt h.p x (by omega) hx)

theorem denseRho_eq (h : Plus) (x : Nat) (hp0 : 0 < h.p) (hp : h.p < 64) :
    denseRho h x = rank h.p x := by
  unfold denseRho rank u8
  simp only []
  have h1 := clz_le (shl64 x h.p ||| shl64 1 (sub8 h.p 1))
  have h2 : shl64 1 (sub8 h.p 1) = 1 <<< (h.p - 1) := by
    rw [sub8_eq h.p 1 (by omega) (by omega)]
    unfold shl64
    apply Nat.mod_eq_of_lt
    rw [Nat.one_shiftLeft]
    exact Nat.pow_lt_pow_right (by norm_num) (by omega)
  rw [h2] at h1 ⊢
  unfold shl64 at h1 ⊢
  omega

/-! ## Register updates -/

theorem set_same (d : List Nat) (i : Nat) (hi : i < d.length) : d.set i d[i] = d := by
  apply List.ext_getElem?
  intro j
  rw [List.getElem?_set]
  by_cases hij : i = j
  · subst hij
    simp [hi]
  · simp [hij]

theorem regMax_eq (d : List Nat) (i r : Nat) (hi : i < d.length) :
    regMax d (i, r) = some (d.set i (max d[i] r)) := by
  unfold regMax
  simp only [List.getElem?_eq_getElem hi]
  by_cases hv : d[i] < r
  · rw [if_pos hv, max_eq_right (Nat.le_of_lt hv)]
  · rw [if_neg hv, max_eq_left (Nat.le_of_not_lt hv), set_same d i hi]

theorem regMax_none (d : List Nat) (i r : Nat) (hi : d.length ≤ i) :
    regMax d (i, r) = none := by
  unfold regMax
  simp only [List.getElem?_eq_none hi]

/-- The dense branch of `Add` on a dense sketch: one register is raised to the
maximum of its value and the rank. -/
theorem Add_dense (h : Plus) (x : Nat) (hd : DenseShape h) (hx : x < 2 ^ 64) :
    ∃ v, h.denseList[topBits h.p x]? = some v ∧
      Add h x =
        some { h with denseList := h.denseList.set (topBits h.p x) (max v (rank h.p x)) } := by
  obtain ⟨hs, hp4, hp18, hlen⟩ := hd
  have hi : topBits h.p x < h.denseList.length := by
    rw [hlen]
    exact topBits_lt h.p x (by omega) hx
  refine ⟨h.denseList[topBits h.p x], List.getElem?_eq_getElem hi, ?_⟩
  unfold Add
  simp only [hs, Bool.false_eq_true, if_false]
  rw [denseIndex_eq h x (by omega) hx, denseRho_eq h x (by omega) (by omega), regMax_eq _ _ _ hi]

theorem maxRank_nil (p i : Nat) : maxRank p [] i = 0 := rfl

theorem maxRank_cons (p x : Nat) (xs : List Nat) (i : Nat) :
    maxRank p (x :: xs) i =
      if topBits p x = i then max (rank p x) (maxRank p xs i) else maxRank p xs i := by
  unfold maxRank
  by_cases hxi : topBits p x = i
  · simp [List.filter_cons, hxi]
  · simp [List.filter_cons, hxi]

/-- A run of dense `Add`s raises register `i` to the maximum of its value and
the ranks of the hashes that index it. -/
theorem addAll_dense (xs : List Nat) : ∀ (h : Plus), DenseShape h → (∀ x ∈ xs, x < 2 ^ 64) →
    ∃ h', addAll h xs = some h' ∧ DenseShape h' ∧ h'.p = h.p ∧
      ∀ i, i < 2 ^ h.p →
        h'.denseList[i]? = some (max (h.denseList[i]?.getD 0) (maxRank h.p xs i)) := by
  induction xs with
  | nil =>
    intro h hd _
    refine ⟨h, rfl, hd, rfl, ?_⟩
    intro i hi
    have hil : i < h.denseList.length := by rw [hd.2.2.2]; exact hi
    simp [maxRank_nil, List.getElem?_eq_getElem hil]
  | cons x xs ih =>
    intro h hd hxs
    have hx : x < 2 ^ 64 := hxs x (List.mem_cons_self x xs)
    obtain ⟨v, hv, hadd⟩ := Add_dense h x hd hx
    have hi : topBits h.p x < h.denseList.length := (List.getElem?_eq_some.mp hv).1
    have hd1 : DenseShape
        { h with denseList := h.denseList.set (topBits h.p x) (max v (rank h.p x)) } := by
      obtain ⟨hs, hp4, hp18, hlen⟩ := hd
      exact ⟨hs, hp4, hp18, by simpa using hlen⟩
    obtain ⟨h', hrun, hd', hp', hreg⟩ := ih _ hd1 (fun y hy => hxs y (List.mem_cons_of_mem x hy))
    refine ⟨h', ?_, hd', hp', ?_⟩
    · unfold addAll at hrun ⊢
      rw [List.foldlM_cons, hadd]
      exact hrun
    · intro i hil
      have hil2 : i < h.denseList.length := by rw [hd.2.2.2]; exact hil
      rw [hreg i hil, maxRank_cons]
      simp only [List.getElem?_set]
      by_cases hxi : topBits h.p x = i
      · subst hxi
        simp only [if_true, if_pos hi, Option.getD_some, max_assoc, hv]
      · simp only [if_neg hxi]

theorem shl32_one (p : Nat) (hp : p < 32) : shl32 1 p = 2 ^ p := by
  unfold shl32
  rw [Nat.one_shiftLeft]
  exact Nat.mod_eq_of_lt (Nat.pow_lt_pow_right (by norm_num) hp)

theorem NewPlus_ok (p : Nat) (hp4 : 4 ≤ p) (hp18 : p ≤ 18) :
    NewPlus p = .ok { p := p, pp := 25, m := 2 ^ p, mp := 2 ^ 25, sparse := true,
                      tmpSet := some [], denseList := [], sparseList := some ⟨[]⟩ } := by
  unfold NewPlus
  rw [if_neg (by omega)]
  simp only [shl32_one p (by omega), shl32_one 25 (by norm_num), newCompressedList]

theorem NewPlus_inv (p : Nat) (h : Plus) (hnew : NewPlus p = .ok h) :
    Inv h ∧ h.p = p ∧ h.sparse = true ∧ h.tmpSet = some [] ∧ h.sparseList = some ⟨[]⟩ := by
  by_cases hp : p > 18 ∨ p < 4
  · unfold NewPlus at hnew
    rw [if_pos hp] at hnew
    cases hnew
  · rw [NewPlus_ok p (by omega) (by omega)] at hnew
    cases hnew
    refine ⟨⟨by simp only; omega, by simp only; omega, rfl, rfl, ?_, ?_⟩, rfl, rfl, rfl, rfl⟩
    · intro _
      exact ⟨⟨_, rfl⟩, ⟨_, rfl⟩, rfl⟩
    · intro hc
      cases hc

theorem eb32_lt (k hi lo : Nat) : eb32 k hi lo < 2 ^ (sub8 hi lo) := by
  unfold eb32
  simp only []
  generalize sub8 hi lo = q
  rw [Nat.shiftRight_eq_div_pow]
  have hpos : 0 < 2 ^ lo := Nat.pos_pow_of_pos lo (by norm_num)
  have hq : 0 < 2 ^ q := Nat.pos_pow_of_pos q (by norm_num)
  have h1 : k &&& shl32 (sub32 (shl32 1 q) 1) lo ≤ shl32 (sub32 (shl32 1 q) 1) lo :=
    Nat.and_le_right
  have h2 : sub32 (shl32 1 q) 1 < 2 ^ q := by
    unfold sub32 shl32
    rw [Nat.one_shiftLeft]
    by_cases hq32 : q < 32
    · have h3 : 2 ^ q < 2 ^ 32 := Nat.pow_lt_pow_right (by norm_num) hq32
      rw [Nat.mod_eq_of_lt h3]
      omega
    · have h3 : 2 ^ 32 ≤ 2 ^ q := Nat.pow_le_pow_right (by norm_num) (by omega)
      have h4 := Nat.mod_lt (2 ^ q % 2 ^ 32 + 2 ^ 32 - 1) (show 0 < 2 ^ 32 by norm_num)
      omega
  have h5 : shl32 (sub32 (shl32 1 q) 1) lo ≤ sub32 (shl32 1 q) 1 * 2 ^ lo := by
    unfold shl32
    rw [Nat.shiftLeft_eq]
    exact Nat.mod_le _ _
  apply Nat.div_lt_of_lt_mul
  calc k &&& shl32 (sub32 (shl32 1 q) 1) lo ≤ sub32 (shl32 1 q) 1 * 2 ^ lo := le_trans h1 h5
    _ < 2 ^ q * 2 ^ lo := Nat.mul_lt_mul_of_pos_right h2 hpos
    _ = 2 ^ lo * 2 ^ q := Nat.mul_comm _ _

theorem getIndex_lt (h : Plus) (k : Nat) (hp4 : 4 ≤ h.p) (hp18 : h.p ≤ 18) (hpp : h.pp = 25) :
    getIndex h k < 2 ^ h.p := by
  unfold getIndex
  split
  · have h1 := eb32_lt k 32 (sub8 32 h.p)
    have h2 : sub8 32 (sub8 32 h.p) = h.p := by unfold sub8; omega
    rw [h2] at h1
    exact h1
  · have h1 := eb32_lt k (u8 (h.pp + 1)) (u8 (sub8 h.pp h.p + 1))
    have h2 : sub8 (u8 (h.pp + 1)) (u8 (sub8 h.pp h.p + 1)) = h.p := by
      rw [hpp]
      unfold sub8 u8
      omega
    rw [h2] at h1
    exact h1

theorem regOf_nil (j : Nat) : regOf [] j = 0 := rfl

theorem regOf_cons (i r : Nat) (us : List (Nat × Nat)) (j : Nat) :
    regOf ((i, r) :: us) j = if i = j then max r (regOf us j) else regOf us j := by
  unfold regOf
  by_cases hij : i = j
  · simp [List.filter_cons, hij]
  · simp [List.filter_cons, hij]

theorem regOf_append (us vs : List (Nat × Nat)) (j : Nat) :
    regOf (us ++ vs) j = max (regOf us j) (regOf vs j) := by
  induction us with
  | nil => simp [regOf_nil]
  | cons u us ih =>
    obtain ⟨i, r⟩ := u
    rw [List.cons_append, regOf_cons, regOf_cons, ih]
    split
    · rw [max_assoc]
    · rfl

/-- A run of register updates with all indices in range succeeds and raises
each register to the maximum of its value and the ranks aimed at it. -/
theorem foldlM_regMax (us : List (Nat × Nat)) : ∀ (d : List Nat),
    (∀ ir ∈ us, ir.1 < d.length) →
    ∃ d', us.foldlM regMax d = some d' ∧ d'.length = d.length ∧
      ∀ j, j < d.length → d'[j]? = some (max (d[j]?.getD 0) (regOf us j)) := by
  induction us with
  | nil =>
    intro d _
    refine ⟨d, rfl, rfl, ?_⟩
    intro j hj
    simp [regOf_nil, List.getElem?_eq_getElem hj]
  | cons u us ih =>
    intro d hin
    obtain ⟨i, r⟩ := u
    have hi : i < d.length := hin (i, r) (List.mem_cons_self _ _)
    have hlen : (d.set i (max d[i] r)).length = d.length := List.length_set _ _ _
    obtain ⟨d', hrun, hlen', hreg⟩ := ih (d.set i (max d[i] r)) (by
      intro ir hir
      rw [hlen]
      exact hin ir (List.mem_cons_of_mem _ hir))
    refine ⟨d', ?_, by rw [hlen', hlen], ?_⟩
    · rw [List.foldlM_cons, regMax_eq d i r hi]
      exact hrun
    · intro j hj
      rw [hreg j (by rw [hlen]; exact hj), regOf_cons, List.getElem?_set]
      by_cases hij : i = j
      · subst hij
        simp only [if_true, if_pos hi, Option.getD_some, max_assoc,
          List.getElem?_eq_getElem hi]
      · simp only [if_neg hij]

/-! ## The sparse merge loop -/

theorem Append_vals (nl : compressedList) (x : Nat) (r : List Nat) :
    (nl.Append x).vals ++ r = nl.vals ++ x :: r := by
  simp [compressedList.Append]

/-- With enough turns the loop of `mergeSparse` ends, having appended the
union of its two inputs; ascending inputs give an ascending result. -/
theorem mergeSparseLoop_spec : ∀ (fuel : Nat) (it ks : List Nat) (nl : compressedList),
    it.length + ks.length ≤ fuel →
    ∃ r, mergeSparseLoop fuel it ks nl = some ⟨nl.vals ++ r⟩ ∧
      (∀ v, v ∈ r ↔ v ∈ it ∨ v ∈ ks) ∧
      (it.Sorted (· < ·) → ks.Sorted (· < ·) → r.Sorted (· < ·)) := by
  intro fuel
  induction fuel with
  | zero =>
    intro it ks nl hlen
    have h1 : it = [] := List.eq_nil_of_length_eq_zero (by omega)
    have h2 : ks = [] := List.eq_nil_of_length_eq_zero (by omega)
    subst h1 h2
    exact ⟨[], by simp [mergeSparseLoop], by simp, fun _ _ => List.sorted_nil⟩
  | succ fuel ih =>
    intro it ks nl hlen
    cases it with
    | nil =>
      cases ks with
      | nil => exact ⟨[], by simp [mergeSparseLoop], by simp, fun _ _ => List.sorted_nil⟩
      | cons x2 ks =>
        obtain ⟨r, hr, hmem, hsort⟩ := ih [] ks (nl.Append x2) (by simp at hlen ⊢; omega)
        refine ⟨x2 :: r, ?_, ?_, ?_⟩
        · rw [mergeSparseLoop, hr, Append_vals]
        · intro v
          simp [hmem v]
        · intro _ hks
          rw [List.sorted_cons] at hks ⊢
          refine ⟨?_, hsort List.sorted_nil hks.2⟩
          intro b hb
          rcases (hmem b).mp hb with hb1 | hb1
          · cases hb1
          · exact hks.1 b hb1
    | cons x1 it =>
      cases ks with
      | nil =>
        obtain ⟨r, hr, hmem, hsort⟩ := ih it [] (nl.Append x1) (by simp at hlen ⊢; omega)
        refine ⟨x1 :: r, ?_, ?_, ?_⟩
        · rw [mergeSparseLoop, hr, Append_vals]
        · intro v
          simp [hmem v]
        · intro hit _
          rw [List.sorted_cons] at hit ⊢
          refine ⟨?_, hsort hit.2 List.sorted_nil⟩
          intro b hb
          rcases (hmem b).mp hb with hb1 | hb1
          · exact hit.1 b hb1
          · cases hb1
      | cons x2 ks =>
        simp only [List.length_cons] at hlen
        rw [mergeSparseLoop]
        by_cases h12 : x1 = x2
        · rw [if_pos h12]
          obtain ⟨r, hr, hmem, hsort⟩ := ih it ks (nl.Append x1) (by omega)
          refine ⟨x1 :: r, ?_, ?_, ?_⟩
          · rw [hr, Append_vals]
          · intro v
            simp only [List.mem_cons, hmem v, ← h12]
            tauto
          · intro hit hks
            rw [List.sorted_cons] at hit hks ⊢
            refine ⟨?_, hsort hit.2 hks.2⟩
            intro b hb
            rcases (hmem b).mp hb with hb1 | hb1
            · exact hit.1 b hb1
            · rw [h12]
              exact hks.1 b hb1
        · rw [if_neg h12]
          by_cases hgt : x1 > x2
          · rw [if_pos hgt]
            obtain ⟨r, hr, hmem, hsort⟩ := ih (x1 :: it) ks (nl.Append x2)
              (by simp only [List.length_cons]; omega)
            refine ⟨x2 :: r, ?_, ?_, ?_⟩
            · rw [hr, Append_vals]
            · intro v
              simp only [List.mem_cons, hmem v]
              tauto
            · intro hit hks
              have hit' := hit
              rw [List.sorted_cons] at hit' hks ⊢
              refine ⟨?_, hsort hit hks.2⟩
              intro b hb
              rcases (hmem b).mp hb with hb1 | hb1
              · rcases List.mem_cons.mp hb1 with hb2 | hb2
                · rw [hb2]
                  exact hgt
                · exact lt_trans hgt (hit'.1 b hb2)
              · exact hks.1 b hb1
          · rw [if_neg hgt]
            have hlt : x1 < x2 := by omega
            obtain ⟨r, hr, hmem, hsort⟩ := ih it (x2 :: ks) (nl.Append x1)
              (by simp only [List.length_cons]; omega)
            refine ⟨x1 :: r, ?_, ?_, ?_⟩
            · rw [hr, Append_vals]
            · intro v
              simp only [List.mem_cons, hmem v]
              tauto
            · intro hit hks
              have hks' := hks
              rw [List.sorted_cons] at hit hks' ⊢
              refine ⟨?_, hsort hit.2 hks⟩
              intro b hb
              rcases (hmem b).mp hb with hb1 | hb1
              · exact hit.1 b hb1
              · rcases List.mem_cons.mp hb1 with hb2 | hb2
                · rw [hb2]
                  exact hlt
                · exact lt_trans hlt (hks'.1 b hb2)

/-- On a sketch whose `sparseList` is not `nil`, `mergeSparse` returns: the
new list holds the values of the old list and of `tmpSet`, `tmpSet` is
emptied and no other field changes. -/
theorem mergeSparse_spec (h : Plus) (sl : compressedList) (hsl : h.sparseList = some sl) :
    ∃ r, mergeSparse h = some { h with sparseList := some ⟨r⟩, tmpSet := some [] } ∧
      (∀ v, v ∈ r ↔ v ∈ sl.vals ∨ v ∈ h.tmpSet.getD []) ∧
      (sl.vals.Sorted (· < ·) → (h.tmpSet.getD []).Nodup → r.Sorted (· < ·)) := by
  obtain ⟨r, hr, hmem, hsort⟩ := mergeSparseLoop_spec
    (sl.Count + ((h.tmpSet.getD []).insertionSort (· ≤ ·)).length) sl.Iter
    ((h.tmpSet.getD []).insertionSort (· ≤ ·)) (newCompressedList h.m) (le_refl _)
  refine ⟨r, ?_, ?_, ?_⟩
  · unfold mergeSparse
    simp only [newCompressedList, List.nil_append] at hr
    simp only [hsl, newCompressedList, hr]
  · intro v
    rw [hmem v, (List.perm_insertionSort (· ≤ ·) (h.tmpSet.getD [])).mem_iff]
    rfl
  · intro hs hn
    apply hsort hs
    apply List.Sorted.lt_of_le (List.sorted_insertionSort (· ≤ ·) _)
    exact (List.perm_insertionSort (· ≤ ·) (h.tmpSet.getD [])).nodup_iff.mpr hn

/-! ## The operations on well-shaped sketches -/

theorem decodeHash_fst_lt (h : Plus) (k : Nat) (hp4 : 4 ≤ h.p) (hp18 : h.p ≤ 18)
    (hpp : h.pp = 25) : (decodeHash h k).1 < 2 ^ h.p :=
  getIndex_lt h k hp4 hp18 hpp

/-- On a sparse sketch `toNormal` returns a dense sketch with `m` registers
and `nil` sparse containers. -/
theorem toNormal_spec (h : Plus) (hinv : Inv h) (hs : h.sparse = true) :
    ∃ h', toNormal h = some h' ∧ h'.p = h.p ∧ h'.pp = h.pp ∧ h'.m = h.m ∧ h'.mp = h.mp ∧
      h'.sparse = false ∧ h'.tmpSet = none ∧ h'.sparseList = none ∧
      h'.denseList.length = h.m := by
  obtain ⟨hp4, hp18, hpp, hm, hsp, _⟩ := hinv
  obtain ⟨_, ⟨sl, hsl⟩, _⟩ := hsp hs
  have hpre : ∃ h1 sl1, (if (h.tmpSet.getD []).length > 0 then mergeSparse h else some h)
      = some h1 ∧ h1.sparseList = some sl1 ∧ h1.p = h.p ∧ h1.pp = h.pp ∧ h1.m = h.m ∧
      h1.mp = h.mp := by
    by_cases hlen : (h.tmpSet.getD []).length > 0
    · rw [if_pos hlen]
      obtain ⟨r, hr, _⟩ := mergeSparse_spec h sl hsl
      exact ⟨_, ⟨r⟩, hr, rfl, rfl, rfl, rfl, rfl⟩
    · rw [if_neg hlen]
      exact ⟨h, sl, rfl, hsl, rfl, rfl, rfl, rfl⟩
  obtain ⟨h1, sl1, hh1, hsl1, hp1, hpp1, hm1, hmp1⟩ := hpre
  obtain ⟨d, hd, hdlen, _⟩ := foldlM_regMax (sl1.Iter.map (decodeHash h1))
    (List.replicate h1.m 0) (by
      intro ir hir
      obtain ⟨k, _, hk⟩ := List.mem_map.mp hir
      rw [← hk, List.length_replicate, hm1, hm, ← hp1]
      exact decodeHash_fst_lt h1 k (by omega) (by omega) (by rw [hpp1]; exact hpp))
  refine ⟨{ h1 with denseList := d, sparse := false, tmpSet := none, sparseList := none },
    ?_, hp1, hpp1, hm1, hmp1, rfl, rfl, rfl, ?_⟩
  · unfold toNormal
    simp only [hh1, hsl1, hd]
  · simp only [hdlen, List.length_replicate, hm1]

theorem toNormal_inv (h : Plus) (hinv : Inv h) (hs : h.sparse = true) :
    ∃ h', toNormal h = some h' ∧ Inv h' ∧ h'.p = h.p ∧ h'.sparse = false := by
  obtain ⟨h', hh', hp, hpp, hm, _, hs', hts, hsl, hlen⟩ := toNormal_spec h hinv hs
  obtain ⟨hp4, hp18, hpp25, hm2, _, _⟩ := hinv
  refine ⟨h', hh', ⟨by omega, by omega, by rw [hpp]; exact hpp25, by rw [hm, hp]; exact hm2,
    ?_, ?_⟩, hp, hs'⟩
  · intro hc
    rw [hs'] at hc
    cases hc
  · intro _
    exact ⟨hts, hsl, by rw [hlen, hm]⟩

theorem mergeSparse_inv (h : Plus) (hinv : Inv h) (hs : h.sparse = true) :
    ∃ h', mergeSparse h = some h' ∧ Inv h' ∧ h'.p = h.p ∧ h'.sparse = true := by
  obtain ⟨hp4, hp18, hpp, hm, hsp, _⟩ := hinv
  obtain ⟨_, ⟨sl, hsl⟩, hdl⟩ := hsp hs
  obtain ⟨r, hr, _⟩ := mergeSparse_spec h sl hsl
  refine ⟨_, hr, ⟨hp4, hp18, hpp, hm, ?_, ?_⟩, rfl, hs⟩
  · intro _
    exact ⟨⟨_, rfl⟩, ⟨_, rfl⟩, hdl⟩
  · intro hc
    rw [hs] at hc
    cases hc

theorem inv_denseShape (h : Plus) (hinv : Inv h) (hs : h.sparse = false) : DenseShape h := by
  obtain ⟨hp4, hp18, _, hm, _, hd⟩ := hinv
  exact ⟨hs, hp4, hp18, by rw [(hd hs).2.2, hm]⟩

/-- On a well-shaped sketch `Add` of a 64-bit hash returns, and the sketch
stays well-shaped; a dense sketch stays dense. -/
theorem Add_inv (h : Plus) (x : Nat) (hinv : Inv h) (hx : x < 2 ^ 64) :
    ∃ h', Add h x = some h' ∧ Inv h' ∧ h'.p = h.p ∧ (h.sparse = false → h'.sparse = false) := by
  by_cases hs : h.sparse = true
  · obtain ⟨hp4, hp18, hpp, hm, hsp, hdn⟩ := hinv
    obtain ⟨⟨ts, hts⟩, ⟨sl, hsl⟩, hdl⟩ := hsp hs
    have hinv1 : Inv { h with tmpSet := some (set.add ts (encodeHash h x)) } :=
      ⟨hp4, hp18, hpp, hm, fun _ => ⟨⟨_, rfl⟩, ⟨sl, hsl⟩, hdl⟩,
        fun hc => by rw [hs] at hc; cases hc⟩
    unfold Add
    rw [if_pos hs]
    simp only [hts]
    split
    · obtain ⟨h2, hh2, hinv2, hp2, hs2⟩ := mergeSparse_inv _ hinv1 hs
      obtain ⟨_, ⟨sl2, hsl2⟩, _⟩ := hinv2.2.2.2.2.1 hs2
      rw [hh2]
      simp only [hsl2]
      split
      · obtain ⟨h3, hh3, hinv3, hp3, _⟩ := toNormal_inv h2 hinv2 hs2
        exact ⟨h3, hh3, hinv3, by rw [hp3, hp2], fun hc => by rw [hs] at hc; cases hc⟩
      · exact ⟨h2, rfl, hinv2, hp2, fun hc => by rw [hs] at hc; cases hc⟩
    · exact ⟨_, rfl, hinv1, rfl, fun hc => by rw [hs] at hc; cases hc⟩
  · have hs' : h.sparse = false := by simpa using hs
    obtain ⟨v, _, hadd⟩ := Add_dense h x (inv_denseShape h hinv hs') hx
    obtain ⟨hp4, hp18, hpp, hm, _, hdn⟩ := hinv
    refine ⟨_, hadd, ⟨hp4, hp18, hpp, hm, ?_, ?_⟩, rfl, fun _ => hs'⟩
    · intro hc
      exact absurd hc hs
    · intro _
      obtain ⟨h1, h2, h3⟩ := hdn hs'
      exact ⟨h1, h2, by simpa using h3⟩

/-- On a well-shaped sketch `Count` returns and leaves the representation
as it was. -/
theorem Count_inv (h : Plus) (hinv : Inv h) :
    ∃ h', Count h = some h' ∧ Inv h' ∧ h'.p = h.p ∧ h'.sparse = h.sparse := by
  unfold Count
  by_cases hs : h.sparse = true
  · rw [if_pos hs]
    obtain ⟨h', hh', hinv', hp', hs'⟩ := mergeSparse_inv h hinv hs
    exact ⟨h', hh', hinv', hp', by rw [hs', hs]⟩
  · rw [if_neg hs]
    exact ⟨h, rfl, hinv, rfl, rfl⟩

/-! ## Merge -/

theorem Merge_mismatch (h o : Plus) (hp : h.p ≠ o.p) :
    Merge h o = some (h, o, some Err.precisionMismatch) := by
  unfold Merge
  rw [if_pos hp]

theorem mergeUpdates_lt (o : Plus) (hinv : Inv o) :
    ∀ ir ∈ mergeUpdates o, ir.1 < 2 ^ o.p := by
  obtain ⟨hp4, hp18, hpp, hm, hsp, hdn⟩ := hinv
  intro ir hir
  unfold mergeUpdates at hir
  by_cases hs : o.sparse = true
  · rw [if_pos hs] at hir
    rcases List.mem_append.mp hir with h1 | h1
    · obtain ⟨k, _, hk⟩ := List.mem_map.mp h1
      rw [← hk]
      exact decodeHash_fst_lt o k hp4 hp18 hpp
    · obtain ⟨k, _, hk⟩ := List.mem_map.mp h1
      rw [← hk]
      exact decodeHash_fst_lt o k hp4 hp18 hpp
  · rw [if_neg hs] at hir
    have h1 := List.fst_lt_of_mem_enum hir
    have hs' : o.sparse = false := by simpa using hs
    rw [(hdn hs').2.2, hm] at h1
    exact h1

/-- The call `Merge h o` on a dense receiver and an argument of the same
precision returns without error, changes only the receiver's registers and
raises each to the maximum of its value and the ranks `o` holds for it. -/
theorem Merge_dense (h o : Plus) (hd : DenseShape h) (hinvo : Inv o) (hp : h.p = o.p) :
    ∃ d, Merge h o = some ({ h with denseList := d }, o, none) ∧
      d.length = h.denseList.length ∧
      ∀ j, j < h.denseList.length →
        d[j]? = some (max (h.denseList[j]?.getD 0) (regOf (mergeUpdates o) j)) := by
  obtain ⟨hs, hp4, hp18, hlen⟩ := hd
  have hlt := mergeUpdates_lt o hinvo
  obtain ⟨_, _, _, hmo, hspo, hdno⟩ := hinvo
  unfold Merge
  rw [if_neg (not_not.mpr hp), if_neg (by rw [hs]; simp)]
  simp only []
  by_cases hso : o.sparse = true
  · rw [if_pos hso]
    obtain ⟨⟨ts, hts⟩, ⟨sl, hsl⟩, _⟩ := hspo hso
    unfold mergeUpdates at hlt ⊢
    rw [if_pos hso] at hlt
    simp only [if_pos hso]
    rw [hts, hsl] at hlt ⊢
    simp only [Option.getD_some] at hlt ⊢
    obtain ⟨d1, hd1, hlen1, hreg1⟩ := foldlM_regMax (ts.map (decodeHash o)) h.denseList (by
      intro ir hir
      rw [hlen, hp]
      exact hlt ir (List.mem_append_left _ hir))
    obtain ⟨d2, hd2, hlen2, hreg2⟩ := foldlM_regMax (sl.Iter.map (decodeHash o)) d1 (by
      intro ir hir
      rw [hlen1, hlen, hp]
      exact hlt ir (List.mem_append_right _ hir))
    refine ⟨d2, ?_, by rw [hlen2, hlen1], ?_⟩
    · rw [hd1]
      simp only [hd2]
    · intro j hj
      rw [hreg2 j (by rw [hlen1]; exact hj), hreg1 j hj, regOf_append]
      simp only [Option.getD_some, max_assoc]
  · rw [if_neg hso]
    unfold mergeUpdates at hlt ⊢
    rw [if_neg hso] at hlt
    simp only [if_neg hso]
    obtain ⟨d, hd, hlend, hreg⟩ := foldlM_regMax o.denseList.enum h.denseList (by
      intro ir hir
      rw [hlen, hp]
      exact hlt ir hir)
    refine ⟨d, ?_, hlend, hreg⟩
    rw [hd]

theorem Merge_sparse (h o h1 : Plus) (hs : h.sparse = true) (hp : h.p = o.p)
    (hn : toNormal h = some h1) (hs1 : h1.sparse = false) (hp1 : h1.p = h.p) :
    Merge h o = Merge h1 o := by
  unfold Merge
  rw [if_neg (not_not.mpr hp), if_neg (not_not.mpr (hp1.trans hp)), if_pos hs, hn,
    if_neg (by rw [hs1]; simp)]

/-- The call `Merge h o` on well-shaped sketches of one precision returns
without error: the receiver, made dense first if it was sparse (`h1`), has
each register raised to the maximum of its value and the ranks `o` holds. -/
theorem Merge_spec (h o : Plus) (hinv : Inv h) (hinvo : Inv o) (hp : h.p = o.p) :
    ∃ h1 d, DenseShape h1 ∧ Inv h1 ∧ h1.p = h.p ∧
      Merge h o = some ({ h1 with denseList := d }, o, none) ∧
      d.length = h1.denseList.length ∧
      ∀ j, j < h1.denseList.length →
        d[j]? = some (max (h1.denseList[j]?.getD 0) (regOf (mergeUpdates o) j)) := by
  by_cases hs : h.sparse = true
  · obtain ⟨h1, hn, hinv1, hp1, hs1⟩ := toNormal_inv h hinv hs
    obtain ⟨d, hm, hlen, hreg⟩ :=
      Merge_dense h1 o (inv_denseShape h1 hinv1 hs1) hinvo (hp1.trans hp)
    refine ⟨h1, d, inv_denseShape h1 hinv1 hs1, hinv1, hp1, ?_, hlen, hreg⟩
    rw [Merge_sparse h o h1 hs hp hn hs1 hp1]
    exact hm
  · have hs' : h.sparse = false := by simpa using hs
    obtain ⟨d, hm, hlen, hreg⟩ := Merge_dense h o (inv_denseShape h hinv hs') hinvo hp
    exact ⟨h, d, inv_denseShape h hinv hs', hinv, rfl, hm, hlen, hreg⟩

theorem inv_setDense (h : Plus) (d : List Nat) (hinv : Inv h) (hs : h.sparse = false)
    (hlen : d.length = h.denseList.length) : Inv { h with denseList := d } := by
  obtain ⟨hp4, hp18, hpp, hm, _, hdn⟩ := hinv
  refine ⟨hp4, hp18, hpp, hm, ?_, ?_⟩
  · intro hc
    rw [hs] at hc
    cases hc
  · intro _
    obtain ⟨h1, h2, h3⟩ := hdn hs
    exact ⟨h1, h2, by rw [← h3]; exact hlen⟩

theorem Merge_inv (h o : Plus) (hinv : Inv h) (hinvo : Inv o) :
    ∃ h' e, Merge h o = some (h', o, e) ∧ Inv h' ∧ h'.p = h.p ∧
      (h.sparse = false → h'.sparse = false) ∧
      (h.p = o.p → e = none ∧ h'.sparse = false ∧ h'.denseList.length = 2 ^ h.p) ∧
      (h.p ≠ o.p → e = some Err.precisionMismatch ∧ h' = h) := by
  by_cases hp : h.p = o.p
  · obtain ⟨h1, d, hd1, hinv1, hp1, hm, hlen, _⟩ := Merge_spec h o hinv hinvo hp
    refine ⟨_, none, hm, inv_setDense h1 d hinv1 hd1.1 hlen, hp1, fun _ => hd1.1, ?_, ?_⟩
    · intro _
      refine ⟨rfl, hd1.1, ?_⟩
      rw [← hp1, ← hd1.2.2.2]
      exact hlen
    · intro hc
      exact absurd hp hc
  · exact ⟨h, _, Merge_mismatch h o hp, hinv, rfl, fun hs => hs, fun hc => absurd hc hp,
      fun _ => ⟨rfl, rfl⟩⟩

/-! ## Reachable states -/

theorem reachable_inv (h : Plus) (hr : Reachable h) : Inv h := by
  induction hr with
  | new p h hnew => exact (NewPlus_inv p h hnew).1
  | add h x h' _ hx hadd ih =>
    obtain ⟨h'', hadd', hinv', _⟩ := Add_inv h x ih hx
    rw [hadd] at hadd'
    cases hadd'
    exact hinv'
  | count h h' _ hc ih =>
    obtain ⟨h'', hc', hinv', _⟩ := Count_inv h ih
    rw [hc] at hc'
    cases hc'
    exact hinv'
  | merge h o h' o' e _ _ hm ih iho =>
    obtain ⟨h'', e', hm', hinv', _⟩ := Merge_inv h o ih iho
    rw [hm] at hm'
    cases hm'
    exact hinv'

theorem reachFrom_reachable (h0 h : Plus) (hr0 : Reachable h0) (hr : ReachFrom h0 h) :
    Reachable h := by
  induction hr with
  | refl => exact hr0
  | add h x h' _ hx hadd ih => exact Reachable.add h x h' ih hx hadd
  | count h h' _ hc ih => exact Reachable.count h h' ih hc
  | merge h o h' o' e _ ho hm ih => exact Reachable.merge h o h' o' e ih ho hm

theorem reachFrom_stays_dense (h0 h : Plus) (hr0 : Reachable h0) (hs0 : h0.sparse = false)
    (hr : ReachFrom h0 h) : h.sparse = false := by
  induction hr with
  | refl => exact hs0
  | add h x h' hprev hx hadd ih =>
    have hinv := reachable_inv h (reachFrom_reachable h0 h hr0 hprev)
    obtain ⟨h'', hadd', _, _, hkeep⟩ := Add_inv h x hinv hx
    rw [hadd] at hadd'
    cases hadd'
    exact hkeep ih
  | count h h' hprev hc ih =>
    have hinv := reachable_inv h (reachFrom_reachable h0 h hr0 hprev)
    obtain ⟨h'', hc', _, _, hkeep⟩ := Count_inv h hinv
    rw [hc] at hc'
    cases hc'
    rw [hkeep]
    exact ih
  | merge h o h' o' e hprev ho hm ih =>
    have hinv := reachable_inv h (reachFrom_reachable h0 h hr0 hprev)
    obtain ⟨h'', e', hm', _, _, hkeep, _⟩ := Merge_inv h o hinv (reachable_inv o ho)
    rw [hm] at hm'
    cases hm'
    exact hkeep ih

/-! ## Sample sketches are reachable -/

theorem new4_reachable : Reachable new4 := Reachable.new 4 new4 rfl

theorem one4_reachable : Reachable one4 :=
  Reachable.add new4 0xf000004000000000 one4 new4_reachable (by decide) (by decide)

theorem new7_reachable : Reachable new7 := Reachable.new 7 new7 rfl

theorem pending7_reachable : Reachable pending7 :=
  Reachable.add new7 0xfe00004000000000 pending7 new7_reachable (by decide) (by decide)

theorem toNormal_new (p : Nat) :
    toNormal { p := p, pp := 25, m := 2 ^ p, mp := 2 ^ 25, sparse := true,
               tmpSet := some [], denseList := [], sparseList := some ⟨[]⟩ } =
      some (denseNew p) :=
  rfl

theorem foldlM_regMax_length (us : List (Nat × Nat)) : ∀ (d d' : List Nat),
    us.foldlM regMax d = some d' → d'.length = d.length := by
  induction us with
  | nil =>
    intro d d' h
    cases h
    rfl
  | cons u us ih =>
    intro d d' h
    rw [List.foldlM_cons] at h
    unfold regMax at h
    cases hget : d[u.1]? with
    | none =>
      rw [hget] at h
      cases h
    | some v =>
      rw [hget] at h
      by_cases hv : v < u.2
      · simp only [hv, if_true, Option.bind_eq_bind, Option.some_bind] at h
        rw [ih _ _ h, List.length_set]
      · simp only [hv, if_false, Option.bind_eq_bind, Option.some_bind] at h
        exact ih _ _ h

/-! ## What a returning `Merge` or `toNormal` did -/

theorem mergeSparse_m (h h' : Plus) (hm : mergeSparse h = some h') : h'.m = h.m := by
  unfold mergeSparse at hm
  split at hm
  · cases hm
  · dsimp only at hm
    split at hm
    · cases hm
    · cases hm
      rfl

theorem toNormal_cases (h h' : Plus) (hn : toNormal h = some h') :
    h'.sparse = false ∧ h'.denseList.length = h.m := by
  unfold toNormal at hn
  split at hn
  · cases hn
  · rename_i h1 hpre
    have hm1 : h1.m = h.m := by
      by_cases hlen : (h.tmpSet.getD []).length > 0
      · rw [if_pos hlen] at hpre
        exact mergeSparse_m h h1 hpre
      · rw [if_neg hlen] at hpre
        cases hpre
        rfl
    split at hn
    · cases hn
    · split at hn
      · cases hn
      · rename_i d hd
        cases hn
        refine ⟨rfl, ?_⟩
        simp only [foldlM_regMax_length _ _ _ hd, List.length_replicate, hm1]

theorem Merge_cases (h o h' o' : Plus) (e : Option Err) (hm : Merge h o = some (h', o', e)) :
    o' = o ∧
    ((h.p ≠ o.p ∧ e = some Err.precisionMismatch ∧ h' = h) ∨
     (h.p = o.p ∧ e = none ∧ ∃ h1 d,
        (if h.sparse = true then toNormal h else some h) = some h1 ∧
        h' = { h1 with denseList := d } ∧ d.length = h1.denseList.length)) := by
  unfold Merge at hm
  by_cases hp : h.p ≠ o.p
  · rw [if_pos hp] at hm
    simp only [Option.some.injEq, Prod.mk.injEq] at hm
    obtain ⟨h1, h2, h3⟩ := hm
    exact ⟨h2.symm, Or.inl ⟨hp, h3.symm, h1.symm⟩⟩
  · rw [if_neg hp] at hm
    split at hm
    · cases hm
    · rename_i h1 hpre
      by_cases hso : o.sparse = true
      · rw [if_pos hso] at hm
        split at hm
        · cases hm
        · rename_i d1 hd1
          split at hm
          · cases hm
          · split at hm
            · cases hm
            · rename_i d2 hd2
              simp only [Option.some.injEq, Prod.mk.injEq] at hm
              obtain ⟨e1, e2, e3⟩ := hm
              refine ⟨e2.symm, Or.inr ⟨not_not.mp hp, e3.symm, h1, d2, hpre, e1.symm, ?_⟩⟩
              rw [foldlM_regMax_length _ _ _ hd2, foldlM_regMax_length _ _ _ hd1]
      · rw [if_neg hso] at hm
        split at hm
        · cases hm
        · rename_i d hd
          simp only [Option.some.injEq, Prod.mk.injEq] at hm
          obtain ⟨e1, e2, e3⟩ := hm
          exact ⟨e2.symm, Or.inr ⟨not_not.mp hp, e3.symm, h1, d, hpre, e1.symm,
            foldlM_regMax_length _ _ _ hd⟩⟩

/-! ## The order in which `range` visits `tmpSet` is immaterial -/

theorem set_add_nodup (s : set) (v : Nat) (hs : s.Nodup) : (set.add s v).Nodup := by
  unfold set.add
  split
  · exact hs
  · rename_i hv
    apply List.Nodup.append hs (List.nodup_singleton v)
    intro a ha hav
    rw [List.mem_singleton] at hav
    rw [hav] at ha
    exact hv ha

theorem regOf_perm (us vs : List (Nat × Nat)) (hperm : us.Perm vs) (j : Nat) :
    regOf us j = regOf vs j := by
  unfold regOf
  have hl : LeftCommutative (max : Nat → Nat → Nat) := ⟨fun a b c => max_left_comm a b c⟩
  exact List.Perm.foldr_eq ((hperm.filter _).map _) 0

/-- The function `mergeSparse` sorts the keys it collects, so its result does
not depend on the order in which the map yields them. -/
theorem mergeSparse_order (h : Plus) (ts ts' : List Nat) (hts : h.tmpSet = some ts)
    (hperm : ts.Perm ts') :
    mergeSparse { h with tmpSet := some ts' } = mergeSparse h := by
  have hsort : ts'.insertionSort (· ≤ ·) = ts.insertionSort (· ≤ ·) := by
    apply List.eq_of_perm_of_sorted (r := (· ≤ ·))
    · exact ((List.perm_insertionSort _ ts').trans hperm.symm).trans
        (List.perm_insertionSort _ ts).symm
    · exact List.sorted_insertionSort _ _
    · exact List.sorted_insertionSort _ _
  unfold mergeSparse
  simp only [hts, Option.getD_some, hsort]

/-- The register updates of `Merge` are maxima, so the receiver it leaves does
not depend on the order in which the argument's `tmpSet` is visited. -/
theorem Merge_order (h o : Plus) (ts ts' : List Nat) (hinv : Inv h) (hinvo : Inv o)
    (hp : h.p = o.p) (hts : o.tmpSet = some ts) (hperm : ts.Perm ts') :
    ∃ h', Merge h o = some (h', o, none) ∧
      Merge h { o with tmpSet := some ts' } = some (h', { o with tmpSet := some ts' }, none) := by
  have hinvo' : Inv { o with tmpSet := some ts' } := by
    obtain ⟨a1, a2, a3, a4, a5, a6⟩ := hinvo
    refine ⟨a1, a2, a3, a4, ?_, ?_⟩
    · intro hs
      exact ⟨⟨_, rfl⟩, (a5 hs).2⟩
    · intro hs
      have hc := (a6 hs).1
      rw [hts] at hc
      cases hc
  have hup : ∀ j, regOf (mergeUpdates { o with tmpSet := some ts' }) j
      = regOf (mergeUpdates o) j := by
    intro j
    apply regOf_perm
    unfold mergeUpdates
    by_cases hs : o.sparse = true
    · simp only [hs, if_true, hts, Option.getD_some]
      exact List.Perm.append_right _ (hperm.symm.map _)
    · simp only [hs, if_false]
      exact List.Perm.refl _
  have hdense : ∀ h1 : Plus, DenseShape h1 → h1.p = h.p →
      ∃ h', Merge h1 o = some (h', o, none) ∧
        Merge h1 { o with tmpSet := some ts' }
          = some (h', { o with tmpSet := some ts' }, none) := by
    intro h1 hd1 hp1
    obtain ⟨d, hm, hlen, hreg⟩ := Merge_dense h1 o hd1 hinvo (hp1.trans hp)
    obtain ⟨d', hm', hlen', hreg'⟩ :=
      Merge_dense h1 { o with tmpSet := some ts' } hd1 hinvo' (hp1.trans hp)
    have hdd : d' = d := by
      apply List.ext_getElem?
      intro j
      by_cases hj : j < h1.denseList.length
      · rw [hreg' j hj, hreg j hj, hup j]
      · rw [List.getElem?_eq_none (by rw [hlen']; exact Nat.le_of_not_lt hj),
          List.getElem?_eq_none (by rw [hlen]; exact Nat.le_of_not_lt hj)]
    rw [hdd] at hm'
    exact ⟨_, hm, hm'⟩
  by_cases hs : h.sparse = true
  · obtain ⟨h1, hn, hinv1, hp1, hs1⟩ := toNormal_inv h hinv hs
    rw [Merge_sparse h o h1 hs hp hn hs1 hp1,
      Merge_sparse h { o with tmpSet := some ts' } h1 hs hp hn hs1 hp1]
    exact hdense h1 (inv_denseShape h1 hinv1 hs1) hp1
  · have hs' : h.sparse = false := by simpa using hs
    exact hdense h (inv_denseShape h hinv hs') rfl

/-! ## Claims -/

/-- C1: the encode/decode round trip, evaluated at precision 8 and the hash
`0xff00004000000000`.  The hash takes the long form (bits 39..55 are zero);
`decodeHash (encodeHash x)` is `(255, 57)` while the dense branch of `Add`
computes index 255 and rank 18, which is also `clz((x << p) | (1 << (p-1))) + 1`:
the round trip does not hold there. -/
theorem encode_decode_roundtrip_fails :
    NewPlus 8 = .ok new8 ∧
    decodeHash new8 (encodeHash new8 0xff00004000000000) = (255, 57) ∧
    (denseIndex new8 0xff00004000000000, denseRho new8 0xff00004000000000) = (255, 18) ∧
    (topBits 8 0xff00004000000000, rank 8 0xff00004000000000) = (255, 18) := by
  refine ⟨rfl, ?_, ?_, ?_⟩ <;> decide

/-- C2: `Merge` against the sketch of the union, evaluated at precision 4 with
`xs = [0xf000004000000000]` and `ys = []`.  The sketch `A` built by adding
`xs` to `NewPlus(4)` is `one4`, `B` is `new4`; after `A.Merge(B)` register 15
of `A` is 61, while the sketch made dense while empty that receives `xs ++ ys`
through the dense `Add` has 22 there. -/
theorem merge_union_fails :
    NewPlus 4 = .ok new4 ∧ addAll new4 [0xf000004000000000] = some one4 ∧
    addAll new4 [] = some new4 ∧
    Merge one4 new4 =
      some ({ dense4 with denseList := (List.replicate 16 0).set 15 61 }, new4, none) ∧
    toNormal new4 = some dense4 ∧
    addAll dense4 ([0xf000004000000000] ++ []) =
      some { dense4 with denseList := (List.replicate 16 0).set 15 22 } := by
  refine ⟨rfl, ?_, rfl, ?_, ?_, ?_⟩ <;> decide

/-- C3: dense `Add` keeps the maximum rank per register.  For a precision in
[4,18] and 64-bit hashes `xs` added to `NewPlus(p)` made dense while empty,
every `Add` returns, register `i` ends as the maximum of `rank` over the
hashes whose top `p` bits are `i` (0 when there is none), and one more `Add`
leaves every register other than the one indexed by the top `p` bits of its
hash as it was and lowers none. -/
theorem dense_add_keeps_max (p : Nat) (hp4 : 4 ≤ p) (hp18 : p ≤ 18) (xs : List Nat)
    (hxs : ∀ x ∈ xs, x < 2 ^ 64) :
    ∃ h0 d0 h : Plus, NewPlus p = .ok h0 ∧ toNormal h0 = some d0 ∧ addAll d0 xs = some h ∧
      h.denseList.length = 2 ^ p ∧
      (∀ i, i < 2 ^ p → h.denseList[i]? = some (maxRank p xs i)) ∧
      ∀ x, x < 2 ^ 64 → ∃ h', Add h x = some h' ∧
        h'.denseList.length = h.denseList.length ∧
        (∀ j, j ≠ topBits p x → h'.denseList[j]? = h.denseList[j]?) ∧
        (∀ j v : Nat, h.denseList[j]? = some v → ∃ v', h'.denseList[j]? = some v' ∧ v ≤ v') := by
  have hd0 : DenseShape (denseNew p) := ⟨rfl, hp4, hp18, List.length_replicate _ _⟩
  obtain ⟨h, hrun, hdh, hph, hreg⟩ := addAll_dense xs _ hd0 hxs
  refine ⟨_, _, h, NewPlus_ok p hp4 hp18, toNormal_new p, hrun, ?_, ?_, ?_⟩
  · rw [hdh.2.2.2, hph]
    rfl
  · intro i hi
    rw [hreg i hi]
    have hi' : i < 2 ^ (denseNew p).p := hi
    simp [denseNew, List.getElem?_replicate, hi]
  · intro x hx
    obtain ⟨v, hv, hadd⟩ := Add_dense h x hdh hx
    have hph' : h.p = p := hph
    rw [hph'] at hv hadd
    have hi : topBits p x < h.denseList.length := (List.getElem?_eq_some.mp hv).1
    refine ⟨_, hadd, List.length_set _ _ _, ?_, ?_⟩
    · intro j hj
      exact List.getElem?_set_ne (Ne.symm hj)
    · intro j w hw
      simp only [List.getElem?_set]
      by_cases hij : topBits p x = j
      · subst hij
        rw [hv] at hw
        cases hw
        exact ⟨max v (rank p x), by simp [hi], le_max_left _ _⟩
      · exact ⟨w, by simp [hij, hw], le_refl _⟩

/-- C3 at precision 4 with the single hash `0x00ffffffffffffff`. -/
theorem dense_add_keeps_max_witness :
    (4 ≤ 4 ∧ 4 ≤ 18 ∧ ∀ x ∈ [0x00ffffffffffffff], x < 2 ^ 64) ∧
    ∃ h0 d0 h : Plus, NewPlus 4 = .ok h0 ∧ toNormal h0 = some d0 ∧
      addAll d0 [0x00ffffffffffffff] = some h ∧
      h.denseList.length = 2 ^ 4 ∧
      (∀ i, i < 2 ^ 4 → h.denseList[i]? = some (maxRank 4 [0x00ffffffffffffff] i)) ∧
      ∀ x, x < 2 ^ 64 → ∃ h', Add h x = some h' ∧
        h'.denseList.length = h.denseList.length ∧
        (∀ j, j ≠ topBits 4 x → h'.denseList[j]? = h.denseList[j]?) ∧
        (∀ j v : Nat, h.denseList[j]? = some v → ∃ v', h'.denseList[j]? = some v' ∧ v ≤ v') :=
  ⟨⟨by decide, by decide, by decide⟩,
    dense_add_keeps_max 4 (by decide) (by decide) [0x00ffffffffffffff] (by decide)⟩

/-- C4: `mergeSparse` produces the sorted union.  For a strictly ascending
`sparseList` and a `tmpSet` (keys without repetition, `nil` counting as empty)
`mergeSparse` returns; the new `sparseList` is strictly ascending, so each
value appended was at least the one appended before it, it has no duplicates
and holds exactly the values of the old list and of `tmpSet`; `tmpSet` is
empty; and when every key of `tmpSet` was already in the list, the list and
its `Count` are unchanged. -/
theorem mergeSparse_sorted_union (h : Plus) (sl : compressedList)
    (hsl : h.sparseList = some sl) (hasc : sl.vals.Sorted (· < ·))
    (hset : (h.tmpSet.getD []).Nodup) :
    ∃ h' sl', mergeSparse h = some h' ∧ h'.sparseList = some sl' ∧ h'.tmpSet = some [] ∧
      sl'.vals.Sorted (· < ·) ∧ List.Chain (· ≤ ·) 0 sl'.vals ∧ sl'.vals.Nodup ∧
      (∀ v, v ∈ sl'.vals ↔ v ∈ sl.vals ∨ v ∈ h.tmpSet.getD []) ∧
      ((∀ v ∈ h.tmpSet.getD [], v ∈ sl.vals) → sl' = sl ∧ sl'.Count = sl.Count) := by
  obtain ⟨r, hr, hmem, hsort⟩ := mergeSparse_spec h sl hsl
  have hrs : r.Sorted (· < ·) := hsort hasc hset
  refine ⟨_, ⟨r⟩, hr, rfl, rfl, hrs, ?_, hrs.nodup, hmem, ?_⟩
  · rw [List.chain_iff_pairwise, List.pairwise_cons]
    exact ⟨fun a _ => Nat.zero_le a, hrs.imp (fun hab => Nat.le_of_lt hab)⟩
  · intro hsub
    have hperm : r.Perm sl.vals := by
      rw [List.perm_ext_iff_of_nodup hrs.nodup hasc.nodup]
      intro v
      rw [hmem v]
      constructor
      · rintro (hv | hv)
        · exact hv
        · exact hsub v hv
      · exact Or.inl
    have heq : r = sl.vals := List.eq_of_perm_of_sorted hperm hrs hasc
    subst heq
    exact ⟨rfl, rfl⟩

/-- C4 on the list `[2, 4, 8]` with `tmpSet = {9, 4, 7}`. -/
theorem mergeSparse_sorted_union_witness :
    (List.Sorted (· < ·) [2, 4, 8] ∧ List.Nodup [9, 4, 7]) ∧
    ∃ h' sl', mergeSparse { new4 with tmpSet := some [9, 4, 7], sparseList := some ⟨[2, 4, 8]⟩ }
        = some h' ∧ h'.sparseList = some sl' ∧ h'.tmpSet = some [] ∧
      sl'.vals.Sorted (· < ·) ∧ List.Chain (· ≤ ·) 0 sl'.vals ∧ sl'.vals.Nodup ∧
      (∀ v, v ∈ sl'.vals ↔ v ∈ [2, 4, 8] ∨ v ∈ [9, 4, 7]) ∧
      ((∀ v ∈ [9, 4, 7], v ∈ [2, 4, 8]) → sl' = ⟨[2, 4, 8]⟩ ∧ sl'.Count = 3) :=
  ⟨⟨by decide, by decide⟩,
    mergeSparse_sorted_union
      { new4 with tmpSet := some [9, 4, 7], sparseList := some ⟨[2, 4, 8]⟩ } ⟨[2, 4, 8]⟩ rfl
      (by decide) (by decide)⟩

/-- C5: `Merge` is idempotent.  For reachable sketches `A` and `B` of equal
precision both calls of `A.Merge(B); A.Merge(B)` return without error, and
the second leaves the register array of `A`, and with it the whole state that
`Count` reads, as the first left it. -/
theorem merge_idempotent (A B : Plus) (hA : Reachable A) (hB : Reachable B)
    (hp : A.p = B.p) :
    ∃ A1 A2 : Plus, Merge A B = some (A1, B, none) ∧ Merge A1 B = some (A2, B, none) ∧
      A2.denseList = A1.denseList ∧ A2 = A1 := by
  obtain ⟨h1, d, hd1, hinv1, hp1, hm, hlen, hreg⟩ :=
    Merge_spec A B (reachable_inv A hA) (reachable_inv B hB) hp
  have hdA1 : DenseShape { h1 with denseList := d } :=
    ⟨hd1.1, hd1.2.1, hd1.2.2.1, by rw [← hd1.2.2.2]; exact hlen⟩
  obtain ⟨d', hm', hlen', hreg'⟩ :=
    Merge_dense { h1 with denseList := d } B hdA1 (reachable_inv B hB) (hp1.trans hp)
  have hdd : d' = d := by
    apply List.ext_getElem?
    intro j
    by_cases hj : j < d.length
    · rw [hreg' j hj, hreg j (by rw [← hlen]; exact hj)]
      simp only [Option.getD_some, max_assoc, max_self]
    · rw [List.getElem?_eq_none (by rw [hlen']; exact Nat.le_of_not_lt hj),
        List.getElem?_eq_none (Nat.le_of_not_lt hj)]
  refine ⟨_, _, hm, hm', ?_, ?_⟩
  · exact hdd
  · rw [hdd]

/-- C5 on `one4` merged twice into `new4`. -/
theorem merge_idempotent_witness :
    (Reachable new4 ∧ Reachable one4 ∧ new4.p = one4.p) ∧
    ∃ A1 A2 : Plus, Merge new4 one4 = some (A1, one4, none) ∧
      Merge A1 one4 = some (A2, one4, none) ∧ A2.denseList = A1.denseList ∧ A2 = A1 :=
  ⟨⟨new4_reachable, one4_reachable, rfl⟩,
    merge_idempotent new4 one4 new4_reachable one4_reachable rfl⟩

/-- C6: the precision bounds of the constructor.  `NewPlus(p)` returns an
error, and then no sketch, exactly when `p < 4` or `p > 18`, and a sketch
exactly when `4 ≤ p ≤ 18`; `NewPlus(3)` and `NewPlus(19)` fail, `NewPlus(4)`
and `NewPlus(18)` succeed. -/
theorem NewPlus_error_iff (p : Nat) :
    ((∃ e, NewPlus p = .error e) ↔ (p < 4 ∨ p > 18)) ∧
    ((∃ h, NewPlus p = .ok h) ↔ (4 ≤ p ∧ p ≤ 18)) ∧
    NewPlus 3 = .error Err.invalidPrecision ∧ NewPlus 19 = .error Err.invalidPrecision ∧
    (∃ h, NewPlus 4 = .ok h) ∧ (∃ h, NewPlus 18 = .ok h) := by
  refine ⟨?_, ?_, rfl, rfl, ⟨_, rfl⟩, ⟨_, rfl⟩⟩
  · by_cases hp : p > 18 ∨ p < 4
    · constructor
      · intro _
        omega
      · intro _
        exact ⟨Err.invalidPrecision, by unfold NewPlus; rw [if_pos hp]⟩
    · constructor
      · rintro ⟨e, he⟩
        rw [NewPlus_ok p (by omega) (by omega)] at he
        cases he
      · intro hc
        omega
  · by_cases hp : p > 18 ∨ p < 4
    · constructor
      · rintro ⟨h, hh⟩
        unfold NewPlus at hh
        rw [if_pos hp] at hh
        cases hh
      · intro hc
        omega
    · constructor
      · intro _
        omega
      · intro _
        exact ⟨_, NewPlus_ok p (by omega) (by omega)⟩

/-- C7: a precision mismatch is rejected.  `A.Merge(B)` returns an error
exactly when `A.p` differs from `B.p`, the error being the precision one and
`A` staying as it was; for reachable sketches of equal precision the call
returns `nil`. -/
theorem merge_error_iff (A B : Plus) :
    ((∃ A' B' e, Merge A B = some (A', B', some e)) ↔ A.p ≠ B.p) ∧
    (A.p ≠ B.p → Merge A B = some (A, B, some Err.precisionMismatch)) ∧
    (Reachable A → Reachable B → A.p = B.p → ∃ A', Merge A B = some (A', B, none)) := by
  refine ⟨⟨?_, ?_⟩, Merge_mismatch A B, ?_⟩
  · rintro ⟨A', B', e, hm⟩
    rcases (Merge_cases A B A' B' (some e) hm).2 with h1 | h1
    · exact h1.1
    · cases h1.2.1
  · intro hp
    exact ⟨A, B, Err.precisionMismatch, Merge_mismatch A B hp⟩
  · intro hA hB hp
    obtain ⟨h1, d, _, _, _, hm, _⟩ :=
      Merge_spec A B (reachable_inv A hA) (reachable_inv B hB) hp
    exact ⟨_, hm⟩

/-- C7 on `new7` and `new4` (different precisions) and on `new7` and
`pending7` (equal precisions). -/
theorem merge_error_iff_witness :
    (new7.p ≠ new4.p ∧ Merge new7 new4 = some (new7, new4, some Err.precisionMismatch)) ∧
    (Reachable new7 ∧ Reachable pending7 ∧ new7.p = pending7.p) ∧
    ∃ A', Merge new7 pending7 = some (A', pending7, none) :=
  ⟨⟨by decide, (merge_error_iff new7 new4).2.1 (by decide)⟩,
    ⟨new7_reachable, pending7_reachable, rfl⟩,
    (merge_error_iff new7 pending7).2.2 new7_reachable pending7_reachable rfl⟩

/-- C8: `Merge` converts the receiver to dense.  For sketches of equal
precision, whenever `A.Merge(B)` returns without error `A` has its sparse flag
false, and a register array of length `m` if it was sparse before; for
reachable sketches the call does return and `A` ends dense with a register
array of length `m = 2^p`, whatever the representations of `A` and `B`. -/
theorem merge_makes_dense (A B : Plus) (hp : A.p = B.p) :
    (∀ A' B', Merge A B = some (A', B', none) →
      A'.sparse = false ∧ (A.sparse = true → A'.denseList.length = A.m)) ∧
    (Reachable A → Reachable B →
      ∃ A', Merge A B = some (A', B, none) ∧ A'.sparse = false ∧
        A'.denseList.length = A'.m ∧ A'.m = 2 ^ A.p) := by
  constructor
  · intro A' B' hm
    rcases (Merge_cases A B A' B' none hm).2 with h1 | h1
    · cases h1.2.1
    · obtain ⟨_, _, h1, d, hpre, hA', hlen⟩ := h1
      by_cases hs : A.sparse = true
      · rw [if_pos hs] at hpre
        obtain ⟨hs1, hlen1⟩ := toNormal_cases A h1 hpre
        rw [hA']
        exact ⟨hs1, fun _ => by rw [← hlen1]; exact hlen⟩
      · rw [if_neg hs] at hpre
        cases hpre
        rw [hA']
        exact ⟨by simpa using hs, fun hc => absurd hc hs⟩
  · intro hA hB
    obtain ⟨A', e, hm, hinv', hp', _, heq, _⟩ :=
      Merge_inv A B (reachable_inv A hA) (reachable_inv B hB)
    obtain ⟨he, hs', hlen'⟩ := heq hp
    subst he
    refine ⟨A', hm, hs', ?_, ?_⟩
    · rw [hlen', hinv'.2.2.2.1, hp']
    · rw [hinv'.2.2.2.1, hp']

/-- C8 on the sparse `new7` merged with the sparse `pending7`. -/
theorem merge_makes_dense_witness :
    (new7.p = pending7.p ∧ Reachable new7 ∧ Reachable pending7) ∧
    ∃ A', Merge new7 pending7 = some (A', pending7, none) ∧ A'.sparse = false ∧
      A'.denseList.length = A'.m ∧ A'.m = 2 ^ new7.p :=
  ⟨⟨rfl, new7_reachable, pending7_reachable⟩,
    (merge_makes_dense new7 pending7 rfl).2 new7_reachable pending7_reachable⟩

/-- C9: `Merge` does not mutate its argument.  Whenever `A.Merge(B)` returns,
with or without an error, `B` is left as it was: its sparse flag, `tmpSet`,
`sparseList` and register array are those before the call. -/
theorem merge_keeps_argument (A B A' B' : Plus) (e : Option Err)
    (hm : Merge A B = some (A', B', e)) :
    B' = B ∧ B'.sparse = B.sparse ∧ B'.tmpSet = B.tmpSet ∧
      B'.sparseList = B.sparseList ∧ B'.denseList = B.denseList := by
  have h := (Merge_cases A B A' B' e hm).1
  subst h
  exact ⟨rfl, rfl, rfl, rfl, rfl⟩

/-- C9 on `new7` merged with `pending7`, a sparse sketch with one pending
`tmpSet` entry: register 127 of the receiver becomes 58 and `pending7` keeps
its entry. -/
theorem merge_keeps_argument_witness :
    Merge new7 pending7 =
      some ({ denseNew 7 with denseList := (List.replicate 128 0).set 127 58 },
        pending7, none) ∧
    pending7.sparse = true ∧ pending7.tmpSet = some [4261412945] ∧
    (pending7 = pending7 ∧ pending7.sparse = pending7.sparse ∧
      pending7.tmpSet = pending7.tmpSet ∧ pending7.sparseList = pending7.sparseList ∧
      pending7.denseList = pending7.denseList) :=
  ⟨by decide, rfl, rfl,
    merge_keeps_argument new7 pending7
      { denseNew 7 with denseList := (List.replicate 128 0).set 127 58 } pending7 none
      (by decide)⟩

/-- C10: the representation tag invariant.  (a) A sketch returned by `NewPlus`
is sparse; (b) from a reachable state whose sparse flag is false, every state
reached by later `Add`, `Count` and `Merge` calls has the flag false; (c) a
reachable dense sketch has `nil` `tmpSet` and `sparseList`; (d) a reachable
sparse sketch has an empty `denseList`. -/
theorem representation_tag_invariant :
    (∀ p h, NewPlus p = .ok h → h.sparse = true) ∧
    (∀ h h', Reachable h → h.sparse = false → ReachFrom h h' → h'.sparse = false) ∧
    (∀ h, Reachable h → h.sparse = false → h.tmpSet = none ∧ h.sparseList = none) ∧
    (∀ h, Reachable h → h.sparse = true → h.denseList = []) := by
  refine ⟨?_, ?_, ?_, ?_⟩
  · intro p h hnew
    exact (NewPlus_inv p h hnew).2.2.1
  · intro h h' hr hs hfrom
    exact reachFrom_stays_dense h h' hr hs hfrom
  · intro h hr hs
    obtain ⟨h1, h2, _⟩ := (reachable_inv h hr).2.2.2.2.2 hs
    exact ⟨h1, h2⟩
  · intro h hr hs
    exact ((reachable_inv h hr).2.2.2.2.1 hs).2.2

/-- C10 on `NewPlus(4)`, on the dense sketch that `new4.Merge(one4)` leaves
and a later `Count`, and on the sparse `one4`. -/
theorem representation_tag_invariant_witness :
    new4.sparse = true ∧
    (Count { dense4 with denseList := (List.replicate 16 0).set 15 61 }
        = some { dense4 with denseList := (List.replicate 16 0).set 15 61 } ∧
      ({ dense4 with denseList := (List.replicate 16 0).set 15 61 } : Plus).sparse = false) ∧
    one4.denseList = [] :=
  have hm : Merge new4 one4 =
      some ({ dense4 with denseList := (List.replicate 16 0).set 15 61 }, one4, none) := by
    decide
  have hr := Reachable.merge new4 one4 _ _ _ new4_reachable one4_reachable hm
  ⟨representation_tag_invariant.1 4 new4 rfl,
    ⟨rfl, representation_tag_invariant.2.1 _ _ hr rfl
      (ReachFrom.count _ _ ReachFrom.refl rfl)⟩,
    representation_tag_invariant.2.2.2 one4 one4_reachable rfl⟩

/-! ## Leading zeros -/

theorem clzAux_bounds : ∀ (n x : Nat), 0 < x → x < 2 ^ n →
    clzAux n x < n ∧ 2 ^ (n - 1 - clzAux n x) ≤ x ∧ x < 2 ^ (n - clzAux n x) := by
  intro n
  induction n with
  | zero =>
    intro x h0 h1
    simp at h1
    omega
  | succ n ih =>
    intro x h0 h1
    simp only [clzAux]
    by_cases hx : 2 ^ n ≤ x
    · rw [if_pos hx]
      exact ⟨Nat.succ_pos n, by simpa using hx, by simpa using h1⟩
    · rw [if_neg hx]
      obtain ⟨a1, a2, a3⟩ := ih x h0 (Nat.lt_of_not_le hx)
      refine ⟨by omega, ?_, ?_⟩
      · have e : n + 1 - 1 - (clzAux n x + 1) = n - 1 - clzAux n x := by omega
        rw [e]
        exact a2
      · have e : n + 1 - (clzAux n x + 1) = n - clzAux n x := by omega
        rw [e]
        exact a3

theorem clz_bounds (x : Nat) (h0 : 0 < x) (h1 : x < 2 ^ 64) :
    clz x < 64 ∧ 2 ^ (63 - clz x) ≤ x ∧ x < 2 ^ (64 - clz x) :=
  clzAux_bounds 64 x h0 h1

/-- A word with `2^a ≤ x < 2^(a+1)` has `63 - a` leading zeros. -/
theorem clz_eq_of_bounds (x a : Nat) (ha : a < 64) (h1 : 2 ^ a ≤ x) (h2 : x < 2 ^ (a + 1)) :
    clz x = 63 - a := by
  have h0 : 0 < x := Nat.lt_of_lt_of_le (Nat.pos_pow_of_pos a (by norm_num)) h1
  have h64 : x < 2 ^ 64 :=
    Nat.lt_of_lt_of_le h2 (Nat.pow_le_pow_right (by norm_num) (by omega))
  obtain ⟨c1, c2, c3⟩ := clz_bounds x h0 h64
  have e1 : a < 64 - clz x := by
    have := Nat.lt_of_le_of_lt h1 c3
    exact (Nat.pow_lt_pow_iff_right (by norm_num)).mp this
  have e2 : 63 - clz x < a + 1 := by
    have := Nat.lt_of_le_of_lt c2 h2
    exact (Nat.pow_lt_pow_iff_right (by norm_num)).mp this
  omega

theorem clz_le_of_le (x a : Nat) (h1 : 2 ^ a ≤ x) (h64 : x < 2 ^ 64) : clz x ≤ 63 - a := by
  have h0 : 0 < x := Nat.lt_of_lt_of_le (Nat.pos_pow_of_pos a (by norm_num)) h1
  obtain ⟨c1, c2, c3⟩ := clz_bounds x h0 h64
  have e1 : a < 64 - clz x := by
    have := Nat.lt_of_le_of_lt h1 c3
    exact (Nat.pow_lt_pow_iff_right (by norm_num)).mp this
  omega

theorem clz_ge_of_lt (x a : Nat) (h0 : 0 < x) (h2 : x < 2 ^ a) (ha : a ≤ 64) :
    64 - a ≤ clz x := by
  have h64 : x < 2 ^ 64 := Nat.lt_of_lt_of_le h2 (Nat.pow_le_pow_right (by norm_num) ha)
  obtain ⟨c1, c2, c3⟩ := clz_bounds x h0 h64
  have e2 : 63 - clz x < a := by
    have := Nat.lt_of_le_of_lt c2 h2
    exact (Nat.pow_lt_pow_iff_right (by norm_num)).mp this
  omega

/-- Shifting a non-zero word left by `s` and filling the low `s` bits removes
`s` leading zeros. -/
theorem clz_mul_add (x s l : Nat) (hx : 0 < x) (hl : l < 2 ^ s) (hb : x * 2 ^ s + l < 2 ^ 64) :
    clz (x * 2 ^ s + l) + s = clz x := by
  have hs : 0 < 2 ^ s := Nat.pos_pow_of_pos s (by norm_num)
  have hx64 : x < 2 ^ 64 := by
    have : x ≤ x * 2 ^ s := Nat.le_mul_of_pos_right x hs
    omega
  obtain ⟨c1, c2, c3⟩ := clz_bounds x hx hx64
  have lo : 2 ^ (63 - clz x + s) ≤ x * 2 ^ s + l := by
    rw [Nat.pow_add]
    have := Nat.mul_le_mul_right (2 ^ s) c2
    omega
  have hi : x * 2 ^ s + l < 2 ^ (63 - clz x + s + 1) := by
    have e : 63 - clz x + s + 1 = 64 - clz x + s := by omega
    rw [e, Nat.pow_add]
    have h1 : x + 1 ≤ 2 ^ (64 - clz x) := c3
    have h2 := Nat.mul_le_mul_right (2 ^ s) h1
    rw [Nat.add_mul] at h2
    omega
  have hlt : 63 - clz x + s < 64 := by
    have := Nat.lt_of_le_of_lt lo hb
    exact (Nat.pow_lt_pow_iff_right (by norm_num)).mp this
  rw [clz_eq_of_bounds _ _ hlt lo hi]
  omega

/-! ## Bit fields -/

theorem and_shiftLeft_shiftRight (k M lo : Nat) : (k &&& M <<< lo) >>> lo = k >>> lo &&& M := by
  apply Nat.eq_of_testBit_eq
  intro i
  simp [Nat.testBit_shiftRight, Nat.testBit_and, Nat.testBit_shiftLeft]

/-- The function `eb32` returns bits `lo .. hi-1` of its argument when the
field lies within a 32-bit word. -/
theorem eb32_eq (k hi lo : Nat) (hlo : lo ≤ hi) (hhi : hi ≤ 32) (hq : hi - lo < 32) :
    eb32 k hi lo = (k / 2 ^ lo) % 2 ^ (hi - lo) := by
  unfold eb32
  simp only []
  rw [sub8_eq hi lo hlo (by omega), shl32_one _ hq]
  have hpos : 0 < 2 ^ (hi - lo) := Nat.pos_pow_of_pos _ (by norm_num)
  have h32 : 2 ^ (hi - lo) < 2 ^ 32 := Nat.pow_lt_pow_right (by norm_num) hq
  have h1 : sub32 (2 ^ (hi - lo)) 1 = 2 ^ (hi - lo) - 1 := by
    unfold sub32
    omega
  have h2 : shl32 (2 ^ (hi - lo) - 1) lo = (2 ^ (hi - lo) - 1) <<< lo := by
    unfold shl32
    apply Nat.mod_eq_of_lt
    rw [Nat.shiftLeft_eq]
    have h3 : 2 ^ (hi - lo) * 2 ^ lo ≤ 2 ^ 32 := by
      rw [← Nat.pow_add]
      exact Nat.pow_le_pow_right (by norm_num) (by omega)
    have h4 : 0 < 2 ^ lo := Nat.pos_pow_of_pos _ (by norm_num)
    have h5 : (2 ^ (hi - lo) - 1) * 2 ^ lo < 2 ^ (hi - lo) * 2 ^ lo :=
      Nat.mul_lt_mul_of_pos_right (by omega) h4
    omega
  rw [h1, h2, and_shiftLeft_shiftRight, Nat.and_pow_two_sub_one_eq_mod,
    Nat.shiftRight_eq_div_pow]

theorem shl64_eq (x s : Nat) (hs : s ≤ 64) : shl64 x s = 2 ^ s * (x % 2 ^ (64 - s)) := by
  unfold shl64
  rw [Nat.shiftLeft_eq]
  have e : (2 : Nat) ^ 64 = 2 ^ (64 - s) * 2 ^ s := by
    rw [← Nat.pow_add]
    congr 1
    omega
  rw [e, Nat.mul_mod_mul_right, Nat.mul_comm]

theorem shl32_eq (x s : Nat) (hs : s ≤ 32) : shl32 x s = 2 ^ s * (x % 2 ^ (32 - s)) := by
  unfold shl32
  rw [Nat.shiftLeft_eq]
  have e : (2 : Nat) ^ 32 = 2 ^ (32 - s) * 2 ^ s := by
    rw [← Nat.pow_add]
    congr 1
    omega
  rw [e, Nat.mul_mod_mul_right, Nat.mul_comm]

theorem div39_lt (x : Nat) (hx : x < 2 ^ 64) : x / 2 ^ 39 < 2 ^ 25 := by
  apply Nat.div_lt_of_lt_mul
  have e : (2 : Nat) ^ 39 * 2 ^ 25 = 2 ^ 64 := by norm_num
  rw [e]
  exact hx

/-- The word that the dense branch of `Add` passes to `clz`, in arithmetic
form: the low `64 - p` bits of the hash above a sentinel bit. -/
theorem denseWord_eq (p x : Nat) (hp0 : 0 < p) (hp : p < 64) :
    shl64 x p ||| shl64 1 (sub8 p 1) = 2 ^ p * (x % 2 ^ (64 - p)) + 2 ^ (p - 1) := by
  have h2 : shl64 1 (sub8 p 1) = 2 ^ (p - 1) := by
    rw [sub8_eq p 1 (by omega) (by omega)]
    unfold shl64
    rw [Nat.one_shiftLeft]
    exact Nat.mod_eq_of_lt (Nat.pow_lt_pow_right (by norm_num) (by omega))
  rw [h2, shl64_eq x p (by omega)]
  exact (Nat.mul_add_lt_is_or (Nat.pow_lt_pow_right (by norm_num) (by omega)) _).symm

theorem denseWord_lt (p x : Nat) (hp0 : 0 < p) (hp : p < 64) :
    2 ^ p * (x % 2 ^ (64 - p)) + 2 ^ (p - 1) < 2 ^ 64 := by
  have h1 : x % 2 ^ (64 - p) + 1 ≤ 2 ^ (64 - p) :=
    Nat.mod_lt _ (Nat.pos_pow_of_pos _ (by norm_num))
  have h2 := Nat.mul_le_mul_left (2 ^ p) h1
  rw [← Nat.pow_add] at h2
  have e : p + (64 - p) = 64 := by omega
  rw [e, Nat.mul_add] at h2
  have h3 : 2 ^ (p - 1) < 2 ^ p := Nat.pow_lt_pow_right (by norm_num) (by omega)
  omega

theorem rank_eq_denseWord (p x : Nat) (hp0 : 0 < p) (hp : p < 64) :
    rank p x = clz (2 ^ p * (x % 2 ^ (64 - p)) + 2 ^ (p - 1)) + 1 := by
  unfold rank
  have h := denseWord_eq p x hp0 hp
  rw [sub8_eq p 1 (by omega) (by omega)] at h
  unfold shl64 at h
  have h2 : (1 <<< (p - 1)) % 2 ^ 64 = 1 <<< (p - 1) := by
    rw [Nat.one_shiftLeft]
    exact Nat.mod_eq_of_lt (Nat.pow_lt_pow_right (by norm_num) (by omega))
  rw [h2] at h
  rw [h]

/-! ## The two forms of an encoded hash -/

theorem between_eq (h : Plus) (x : Nat) (hp4 : 4 ≤ h.p) (hp18 : h.p ≤ 18) (hpp : h.pp = 25) :
    bextr x (sub8 64 h.pp) (sub8 h.pp h.p) = (x / 2 ^ 39) % 2 ^ (25 - h.p) := by
  rw [hpp, sub8_eq 64 25 (by norm_num) (by norm_num), sub8_eq 25 h.p (by omega) (by norm_num),
    bextr_eq _ _ _ (by omega)]

theorem idx_eq (h : Plus) (x : Nat) (hpp : h.pp = 25) (hx : x < 2 ^ 64) :
    u32 (bextr x (sub8 64 h.pp) h.pp) = x / 2 ^ 39 := by
  rw [hpp, sub8_eq 64 25 (by norm_num) (by norm_num), bextr_eq _ _ _ (by norm_num)]
  have h1 := div39_lt x hx
  unfold u32
  rw [Nat.mod_eq_of_lt h1]
  exact Nat.mod_eq_of_lt (Nat.lt_of_lt_of_le h1 (by norm_num))

/-- Short form: when the bits between the index and the sparse prefix are not
all zero, the encoded hash is the top 25 bits of the hash shifted left once. -/
theorem encodeHash_short (h : Plus) (x : Nat) (hp4 : 4 ≤ h.p) (hp18 : h.p ≤ 18)
    (hpp : h.pp = 25) (hx : x < 2 ^ 64) (hb : (x / 2 ^ 39) % 2 ^ (25 - h.p) ≠ 0) :
    encodeHash h x = 2 * (x / 2 ^ 39) := by
  unfold encodeHash
  simp only []
  rw [between_eq h x hp4 hp18 hpp, if_neg hb, idx_eq h x hpp hx, shl32_eq _ 1 (by norm_num)]
  have h1 := div39_lt x hx
  rw [Nat.mod_eq_of_lt (Nat.lt_of_lt_of_le h1 (by norm_num))]
  norm_num

/-- The word that the long-form branch of `encodeHash` passes to `clz`, in
arithmetic form: the low 25 bits of the hash above 25 one bits. -/
theorem encodeWord_eq (x : Nat) :
    shl64 (bextr x 0 25) 25 ||| sub64 (shl64 1 25) 1 = 2 ^ 25 * (x % 2 ^ 25) + (2 ^ 25 - 1) := by
  rw [bextr_eq _ _ _ (by norm_num), shl64_eq _ 25 (by norm_num)]
  have h1 : x / 2 ^ 0 % 2 ^ 25 % 2 ^ (64 - 25) = x % 2 ^ 25 := by
    simp only [Nat.pow_zero, Nat.div_one]
    exact Nat.mod_eq_of_lt (Nat.lt_of_lt_of_le (Nat.mod_lt _ (by norm_num)) (by norm_num))
  have h2 : sub64 (shl64 1 25) 1 = 2 ^ 25 - 1 := by decide
  rw [h1, h2]
  exact (Nat.mul_add_lt_is_or (by norm_num) _).symm

theorem encodeWord_bounds (x : Nat) :
    2 ^ 24 ≤ 2 ^ 25 * (x % 2 ^ 25) + (2 ^ 25 - 1) ∧
      2 ^ 25 * (x % 2 ^ 25) + (2 ^ 25 - 1) < 2 ^ 50 := by
  have h1 : x % 2 ^ 25 < 2 ^ 25 := Nat.mod_lt _ (by norm_num)
  constructor
  · omega
  · omega

/-- Long form: when the bits between the index and the sparse prefix are all
zero, the encoded hash packs the top 25 bits, a run length `zeros` between 15
and 40 and a set low bit. -/
theorem encodeHash_long (h : Plus) (x : Nat) (hp4 : 4 ≤ h.p) (hp18 : h.p ≤ 18)
    (hpp : h.pp = 25) (hx : x < 2 ^ 64) (hb : (x / 2 ^ 39) % 2 ^ (25 - h.p) = 0) :
    ∃ zeros, zeros = clz (2 ^ 25 * (x % 2 ^ 25) + (2 ^ 25 - 1)) + 1 ∧
      15 ≤ zeros ∧ zeros ≤ 40 ∧
      encodeHash h x = 2 ^ 7 * (x / 2 ^ 39) + (2 * zeros + 1) := by
  obtain ⟨b1, b2⟩ := encodeWord_bounds x
  have c1 := clz_le_of_le _ 24 b1 (Nat.lt_of_lt_of_le b2 (by norm_num))
  have c2 := clz_ge_of_lt _ 50 (by omega) b2 (by norm_num)
  refine ⟨_, rfl, by omega, by omega, ?_⟩
  unfold encodeHash
  simp only []
  rw [between_eq h x hp4 hp18 hpp, if_pos hb, idx_eq h x hpp hx, hpp, encodeWord_eq,
    shl32_eq _ 7 (by norm_num)]
  have h1 := div39_lt x hx
  rw [Nat.mod_eq_of_lt (Nat.lt_of_lt_of_le h1 (by norm_num))]
  generalize clz (2 ^ 25 * (x % 2 ^ 25) + (2 ^ 25 - 1)) = c at c1 c2 ⊢
  have h2 : u32 (shl64 (u64 (c + 1)) 1) = 2 ^ 1 * (c + 1) := by
    unfold u32 u64 shl64
    rw [Nat.shiftLeft_eq]
    omega
  rw [h2, Nat.lor_assoc, ← Nat.mul_add_lt_is_or (by norm_num) (c + 1),
    ← Nat.mul_add_lt_is_or (by omega) (x / 2 ^ 39)]

/-! ## Decoding an encoded hash -/

theorem topBits_eq_div (p x : Nat) (hp : p ≤ 25) :
    x / 2 ^ 39 / 2 ^ (25 - p) = topBits p x := by
  unfold topBits
  rw [Nat.div_div_eq_div_mul, ← Nat.pow_add]
  congr 2
  omega

/-- Decoding a short-form hash: the index is the top `p` bits and the rank is
the dense rank, between 1 and `25 - p`. -/
theorem decodeHash_short (h : Plus) (x : Nat) (hp4 : 4 ≤ h.p) (hp18 : h.p ≤ 18)
    (hpp : h.pp = 25) (hx : x < 2 ^ 64) (hb : (x / 2 ^ 39) % 2 ^ (25 - h.p) ≠ 0) :
    decodeHash h (2 * (x / 2 ^ 39)) = (topBits h.p x, rank h.p x) ∧
      shl32 (2 * (x / 2 ^ 39)) (sub8 (u8 (sub8 32 h.pp + h.p)) 1) ≠ 0 ∧
      1 ≤ rank h.p x ∧ rank h.p x ≤ 25 - h.p := by
  have hidx := div39_lt x hx
  have hbpos : 0 < (x / 2 ^ 39) % 2 ^ (25 - h.p) := Nat.pos_of_ne_zero hb
  have hblt : (x / 2 ^ 39) % 2 ^ (25 - h.p) < 2 ^ (25 - h.p) :=
    Nat.mod_lt _ (Nat.pos_pow_of_pos _ (by norm_num))
  -- the word of the sparse path
  have hsh : sub8 (u8 (sub8 32 h.pp + h.p)) 1 = 6 + h.p := by
    rw [hpp]
    unfold sub8 u8
    omega
  have hword : shl32 (2 * (x / 2 ^ 39)) (6 + h.p)
      = (x / 2 ^ 39 % 2 ^ (25 - h.p)) * 2 ^ (7 + h.p) + 0 := by
    rw [shl32_eq _ _ (by omega)]
    have e1 : 32 - (6 + h.p) = (25 - h.p) + 1 := by omega
    have e0 : (2 : Nat) ^ (25 - h.p + 1) = 2 * 2 ^ (25 - h.p) := by
      rw [Nat.mul_comm]
      rfl
    have e2 : 2 * (x / 2 ^ 39) % 2 ^ (25 - h.p + 1) = 2 * (x / 2 ^ 39 % 2 ^ (25 - h.p)) := by
      rw [e0, Nat.mul_mod_mul_left]
    have e3 : (2 : Nat) ^ (7 + h.p) = 2 ^ (6 + h.p) * 2 := by
      rw [← Nat.pow_succ]
      congr 1
      omega
    rw [e1, e2, e3]
    ring
  have hwlt : (x / 2 ^ 39 % 2 ^ (25 - h.p)) * 2 ^ (7 + h.p) + 0 < 2 ^ 32 := by
    have e : (2 : Nat) ^ 32 = 2 ^ (25 - h.p) * 2 ^ (7 + h.p) := by
      rw [← Nat.pow_add]
      congr 1
      omega
    rw [e, Nat.add_zero]
    exact Nat.mul_lt_mul_of_pos_right hblt (Nat.pos_pow_of_pos _ (by norm_num))
  have hcs := clz_mul_add (x / 2 ^ 39 % 2 ^ (25 - h.p)) (7 + h.p) 0 hbpos
    (Nat.pos_pow_of_pos _ (by norm_num)) (Nat.lt_of_lt_of_le hwlt (by norm_num))
  have hcs32 := clz_ge_of_lt _ 32 (by
    have := Nat.mul_pos hbpos (Nat.pos_pow_of_pos (7 + h.p) (by norm_num : 0 < 2))
    omega) hwlt (by norm_num)
  -- the word of the dense path
  have hy : x % 2 ^ (64 - h.p) = (x / 2 ^ 39 % 2 ^ (25 - h.p)) * 2 ^ 39 + x % 2 ^ 39 := by
    have e : (2 : Nat) ^ (64 - h.p) = 2 ^ 39 * 2 ^ (25 - h.p) := by
      rw [← Nat.pow_add]
      congr 1
      omega
    have h1 := Nat.mod_mul_right_div_self x (2 ^ 39) (2 ^ (25 - h.p))
    have h2 := Nat.div_add_mod (x % (2 ^ 39 * 2 ^ (25 - h.p))) (2 ^ 39)
    have h3 : x % (2 ^ 39 * 2 ^ (25 - h.p)) % 2 ^ 39 = x % 2 ^ 39 :=
      Nat.mod_mul_right_mod x (2 ^ 39) (2 ^ (25 - h.p))
    rw [e]
    rw [h1, h3] at h2
    rw [← h2, Nat.mul_comm]
  have hl39 : x % 2 ^ 39 < 2 ^ 39 := Nat.mod_lt _ (by norm_num)
  have hp1 : 2 ^ (h.p - 1) < 2 ^ h.p := Nat.pow_lt_pow_right (by norm_num) (by omega)
  have hdw : 2 ^ h.p * (x % 2 ^ (64 - h.p)) + 2 ^ (h.p - 1)
      = (x / 2 ^ 39 % 2 ^ (25 - h.p)) * 2 ^ (39 + h.p)
        + (2 ^ h.p * (x % 2 ^ 39) + 2 ^ (h.p - 1)) := by
    rw [hy, Nat.pow_add]
    ring
  have hdl : 2 ^ h.p * (x % 2 ^ 39) + 2 ^ (h.p - 1) < 2 ^ (39 + h.p) := by
    have h1 : x % 2 ^ 39 + 1 ≤ 2 ^ 39 := hl39
    have h2 := Nat.mul_le_mul_left (2 ^ h.p) h1
    rw [Nat.mul_add, ← Nat.pow_add, Nat.add_comm h.p 39] at h2
    omega
  have hcd := clz_mul_add (x / 2 ^ 39 % 2 ^ (25 - h.p)) (39 + h.p) _ hbpos hdl (by
    rw [← hdw]
    exact denseWord_lt h.p x (by omega) (by omega))
  rw [← hdw] at hcd
  have hcb := clz_ge_of_lt _ (25 - h.p) hbpos hblt (by omega)
  have hcb2 := (clz_bounds _ hbpos (Nat.lt_of_lt_of_le hblt
    (Nat.pow_le_pow_right (by norm_num) (by omega)))).1
  have hrank := rank_eq_denseWord h.p x (by omega) (by omega)
  refine ⟨?_, ?_, by omega, by omega⟩
  · unfold decodeHash getIndex
    simp only []
    have hk : 2 * (x / 2 ^ 39) &&& 1 = 0 := by
      rw [Nat.and_one_is_mod]
      omega
    have hk' : ¬ (2 * (x / 2 ^ 39) &&& 1 = 1) := by omega
    rw [if_neg hk', if_neg hk', hsh, hword]
    have hi1 : u8 (h.pp + 1) = 26 := by rw [hpp]; rfl
    have hi2 : u8 (sub8 h.pp h.p + 1) = 26 - h.p := by
      rw [hpp]
      unfold sub8 u8
      omega
    rw [hi1, hi2, eb32_eq _ _ _ (by omega) (by norm_num) (by omega)]
    have e1 : 26 - (26 - h.p) = h.p := by omega
    have e2 : 2 * (x / 2 ^ 39) / 2 ^ (26 - h.p) = topBits h.p x := by
      have e3 : (2 : Nat) ^ (26 - h.p) = 2 * 2 ^ (25 - h.p) := by
        rw [Nat.mul_comm, ← Nat.pow_succ]
        congr 1
        omega
      rw [e3, Nat.mul_div_mul_left _ _ (by norm_num : 0 < 2), topBits_eq_div h.p x (by omega)]
    rw [e1, e2, Nat.mod_eq_of_lt (topBits_lt h.p x (by omega) hx)]
    refine congrArg (Prod.mk (topBits h.p x)) ?_
    unfold u8 sub64
    omega
  · rw [hsh, hword]
    have := Nat.mul_pos hbpos (Nat.pos_pow_of_pos (7 + h.p) (by norm_num : 0 < 2))
    omega

/-- Decoding a long-form hash: the index is the top `p` bits and the rank is
the stored run length plus `25 - p`, computed without 8-bit wrap-around. -/
theorem decodeHash_long (h : Plus) (x zeros : Nat) (hp4 : 4 ≤ h.p) (hp18 : h.p ≤ 18)
    (hpp : h.pp = 25) (hx : x < 2 ^ 64) (hz : zeros < 64) :
    decodeHash h (2 ^ 7 * (x / 2 ^ 39) + (2 * zeros + 1)) = (topBits h.p x, zeros + 25 - h.p) := by
  have hidx := div39_lt x hx
  unfold decodeHash getIndex
  simp only []
  have hk : (2 ^ 7 * (x / 2 ^ 39) + (2 * zeros + 1)) &&& 1 = 1 := by
    rw [Nat.and_one_is_mod]
    omega
  rw [if_pos hk, if_pos hk, sub8_eq 32 h.p (by omega) (by norm_num),
    eb32_eq _ 7 1 (by norm_num) (by norm_num) (by norm_num),
    eb32_eq _ 32 (32 - h.p) (by omega) (by norm_num) (by omega)]
  have e1 : (2 ^ 7 * (x / 2 ^ 39) + (2 * zeros + 1)) / 2 ^ 1 % 2 ^ (7 - 1) = zeros := by
    omega
  have e2 : (2 ^ 7 * (x / 2 ^ 39) + (2 * zeros + 1)) / 2 ^ (32 - h.p) = topBits h.p x := by
    have e3 : (2 : Nat) ^ (32 - h.p) = 2 ^ 7 * 2 ^ (25 - h.p) := by
      rw [← Nat.pow_add]
      congr 1
      omega
    rw [e3, ← Nat.div_div_eq_div_mul]
    have e4 : (2 ^ 7 * (x / 2 ^ 39) + (2 * zeros + 1)) / 2 ^ 7 = x / 2 ^ 39 := by omega
    rw [e4, topBits_eq_div h.p x (by omega)]
  have e5 : 32 - (32 - h.p) = h.p := by omega
  rw [e1, e2, e5, Nat.mod_eq_of_lt (topBits_lt h.p x (by omega) hx), hpp]
  refine congrArg (Prod.mk (topBits h.p x)) ?_
  unfold sub8 u8
  omega

/-- Every encoded hash fits 32 bits and decodes to the top `p` bits of the
hash and a rank between 1 and `64 - p + 1`; no 8-bit step of the decoding
wraps around. -/
theorem decodeHash_encodeHash (h : Plus) (x : Nat) (hp4 : 4 ≤ h.p) (hp18 : h.p ≤ 18)
    (hpp : h.pp = 25) (hx : x < 2 ^ 64) :
    encodeHash h x < 2 ^ 32 ∧ (decodeHash h (encodeHash h x)).1 = topBits h.p x ∧
      1 ≤ (decodeHash h (encodeHash h x)).2 ∧
      (decodeHash h (encodeHash h x)).2 ≤ 64 - h.p + 1 := by
  have hidx := div39_lt x hx
  by_cases hb : (x / 2 ^ 39) % 2 ^ (25 - h.p) = 0
  · obtain ⟨zeros, _, hz1, hz2, henc⟩ := encodeHash_long h x hp4 hp18 hpp hx hb
    rw [henc, decodeHash_long h x zeros hp4 hp18 hpp hx (by omega)]
    refine ⟨by omega, rfl, ?_, ?_⟩
    · show 1 ≤ zeros + 25 - h.p
      omega
    · show zeros + 25 - h.p ≤ 64 - h.p + 1
      omega
  · obtain ⟨hdec, _, hr1, hr2⟩ := decodeHash_short h x hp4 hp18 hpp hx hb
    rw [encodeHash_short h x hp4 hp18 hpp hx hb, hdec]
    refine ⟨by omega, rfl, hr1, ?_⟩
    show rank h.p x ≤ 64 - h.p + 1
    omega

theorem denseRho_bounds (h : Plus) (x : Nat) (hp4 : 4 ≤ h.p) (hp18 : h.p ≤ 18) :
    denseRho h x = clz (shl64 x h.p ||| shl64 1 (sub8 h.p 1)) + 1 ∧
      shl64 x h.p ||| shl64 1 (sub8 h.p 1) ≠ 0 ∧
      clz (shl64 x h.p ||| shl64 1 (sub8 h.p 1)) ≤ 64 - h.p ∧
      1 ≤ denseRho h x ∧ denseRho h x ≤ 64 - h.p + 1 := by
  have hw := denseWord_eq h.p x (by omega) (by omega)
  have hlt := denseWord_lt h.p x (by omega) (by omega)
  have hpos : 2 ^ (h.p - 1) ≤ 2 ^ h.p * (x % 2 ^ (64 - h.p)) + 2 ^ (h.p - 1) :=
    Nat.le_add_left _ _
  have hc := clz_le_of_le _ (h.p - 1) hpos hlt
  have h0 : 0 < 2 ^ (h.p - 1) := Nat.pos_pow_of_pos _ (by norm_num)
  have hrho : denseRho h x = clz (shl64 x h.p ||| shl64 1 (sub8 h.p 1)) + 1 := by
    unfold denseRho u8
    simp only []
    have := clz_le (shl64 x h.p ||| shl64 1 (sub8 h.p 1))
    omega
  rw [hrho, hw]
  refine ⟨rfl, by omega, by omega, by omega, by omega⟩

/-! ## Rank bounds through the register updates -/

theorem encodeHash_congr (h h' : Plus) (x : Nat) (hp : h'.p = h.p) (hpp : h'.pp = h.pp) :
    encodeHash h' x = encodeHash h x := by
  unfold encodeHash
  rw [hp, hpp]

theorem decodeHash_congr (h h' : Plus) (k : Nat) (hp : h'.p = h.p) (hpp : h'.pp = h.pp) :
    decodeHash h' k = decodeHash h k := by
  unfold decodeHash getIndex
  rw [hp, hpp]

theorem IsEncoded_congr (h h' : Plus) (k : Nat) (hp : h'.p = h.p) (hpp : h'.pp = h.pp)
    (hk : IsEncoded h k) : IsEncoded h' k := by
  obtain ⟨x, hx, hkx⟩ := hk
  exact ⟨x, hx, by rw [hkx, encodeHash_congr h h' x hp hpp]⟩

theorem IsEncoded_rank_le (h : Plus) (k : Nat) (hp4 : 4 ≤ h.p) (hp18 : h.p ≤ 18)
    (hpp : h.pp = 25) (hk : IsEncoded h k) :
    k < 2 ^ 32 ∧ 1 ≤ (decodeHash h k).2 ∧ (decodeHash h k).2 ≤ 64 - h.p + 1 := by
  obtain ⟨x, hx, hkx⟩ := hk
  rw [hkx]
  obtain ⟨a, _, b, c⟩ := decodeHash_encodeHash h x hp4 hp18 hpp hx
  exact ⟨a, b, c⟩

theorem regMax_le (B : Nat) (d d' : List Nat) (ir : Nat × Nat) (hd : ∀ r ∈ d, r ≤ B)
    (hir : ir.2 ≤ B) (hstep : regMax d ir = some d') : ∀ r ∈ d', r ≤ B := by
  unfold regMax at hstep
  split at hstep
  · cases hstep
  · split at hstep
    · cases hstep
      intro r hr
      rcases List.mem_or_eq_of_mem_set hr with h1 | h1
      · exact hd r h1
      · rw [h1]
        exact hir
    · cases hstep
      exact hd

/-- A run of register updates whose ranks are at most `B` keeps registers that
are at most `B` that way. -/
theorem foldlM_regMax_le (B : Nat) (us : List (Nat × Nat)) : ∀ (d d' : List Nat),
    (∀ r ∈ d, r ≤ B) → (∀ ir ∈ us, ir.2 ≤ B) → us.foldlM regMax d = some d' →
    ∀ r ∈ d', r ≤ B := by
  induction us with
  | nil =>
    intro d d' hd _ hrun
    cases hrun
    exact hd
  | cons u us ih =>
    intro d d' hd hus hrun
    rw [List.foldlM_cons] at hrun
    cases hstep : regMax d u with
    | none =>
      rw [hstep] at hrun
      cases hrun
    | some d1 =>
      rw [hstep] at hrun
      exact ih d1 d' (regMax_le B d d1 u hd (hus u (List.mem_cons_self _ _)) hstep)
        (fun ir hir => hus ir (List.mem_cons_of_mem _ hir)) hrun

theorem mergeSparse_eq (h h' : Plus) (sl : compressedList) (hsl : h.sparseList = some sl)
    (hm : mergeSparse h = some h') :
    ∃ r, h' = { h with sparseList := some ⟨r⟩, tmpSet := some [] } ∧
      (∀ v, v ∈ r ↔ v ∈ sl.vals ∨ v ∈ h.tmpSet.getD []) ∧
      (sl.vals.Sorted (· < ·) → (h.tmpSet.getD []).Nodup → r.Sorted (· < ·)) := by
  obtain ⟨r, hr, hmem, hsort⟩ := mergeSparse_spec h sl hsl
  rw [hr] at hm
  cases hm
  exact ⟨r, rfl, hmem, hsort⟩

/-- The function `toNormal` on a sparse sketch whose containers hold encoded
hashes leaves every register at most `64 - p + 1`. -/
theorem toNormal_regInv (h h' : Plus) (hinv : Inv h) (hsp : SparseInv h) (hs : h.sparse = true)
    (hn : toNormal h = some h') : RegInv h' ∧ h'.p = h.p := by
  obtain ⟨hp4, hp18, hpp, _, _, _⟩ := hinv
  obtain ⟨ts, sl, hts, hsl, _, _, _, hets, hesl⟩ := hsp hs
  unfold toNormal at hn
  split at hn
  · cases hn
  · rename_i h1 hpre
    have h1facts : h1.p = h.p ∧ h1.pp = h.pp ∧
        ∃ sl1, h1.sparseList = some sl1 ∧ ∀ k ∈ sl1.vals, IsEncoded h k := by
      by_cases hlen : (h.tmpSet.getD []).length > 0
      · rw [if_pos hlen] at hpre
        obtain ⟨r, hr, hmem, _⟩ := mergeSparse_eq h h1 sl hsl hpre
        rw [hr]
        refine ⟨rfl, rfl, ⟨r⟩, rfl, ?_⟩
        intro k hk
        rcases (hmem k).mp hk with h2 | h2
        · exact hesl k h2
        · rw [hts] at h2
          exact hets k h2
      · rw [if_neg hlen] at hpre
        cases hpre
        exact ⟨rfl, rfl, sl, hsl, hesl⟩
    obtain ⟨hp1, hpp1, sl1, hsl1, henc1⟩ := h1facts
    rw [hsl1] at hn
    dsimp only at hn
    split at hn
    · cases hn
    · rename_i d hd
      cases hn
      refine ⟨?_, hp1⟩
      have hb := foldlM_regMax_le (64 - h.p + 1) _ _ d ?_ ?_ hd
      · intro r hr
        show r ≤ 64 - h1.p + 1
        rw [hp1]
        exact hb r hr
      · intro r hr
        rw [List.mem_replicate] at hr
        rw [hr.2]
        exact Nat.zero_le _
      · intro ir hir
        obtain ⟨k, hk, hkir⟩ := List.mem_map.mp hir
        rw [← hkir, decodeHash_congr h h1 k hp1 hpp1]
        exact (IsEncoded_rank_le h k hp4 hp18 hpp (henc1 k hk)).2.2

/-! ## The invariants through the operations -/

theorem NewPlus_good (p : Nat) (h : Plus) (hnew : NewPlus p = .ok h) : Good h := by
  obtain ⟨hinv, _, _, hts, hsl⟩ := NewPlus_inv p h hnew
  refine ⟨hinv, ?_, ?_⟩
  · intro _
    refine ⟨[], ⟨[]⟩, hts, hsl, List.nodup_nil, Nat.zero_le _, List.sorted_nil, ?_, ?_⟩
    · intro k hk
      cases hk
    · intro k hk
      cases hk
  · intro r hr
    have hd := (hinv.2.2.2.2.1 (NewPlus_inv p h hnew).2.2.1).2.2
    rw [hd] at hr
    cases hr

theorem mergeSparse_keeps (h h' : Plus) (ts : set) (sl : compressedList) (hinv : Inv h)
    (hs : h.sparse = true) (hts : h.tmpSet = some ts) (hsl : h.sparseList = some sl)
    (hnd : ts.Nodup) (hsorted : sl.vals.Sorted (· < ·)) (hets : ∀ k ∈ ts, IsEncoded h k)
    (hesl : ∀ k ∈ sl.vals, IsEncoded h k) (hreg : RegInv h) (hm : mergeSparse h = some h') :
    Good h' ∧ h'.sparse = true ∧ h'.p = h.p ∧ h'.tmpSet = some [] ∧
      ∃ r, h'.sparseList = some ⟨r⟩ ∧ ∀ v, v ∈ r ↔ v ∈ sl.vals ∨ v ∈ ts := by
  obtain ⟨r, hr, hmem, hsort⟩ := mergeSparse_eq h h' sl hsl hm
  obtain ⟨h'', hm', hinv', _, _⟩ := mergeSparse_inv h hinv hs
  rw [hm] at hm'
  cases hm'
  rw [hts] at hmem hsort
  rw [hr]
  rw [hr] at hinv'
  refine ⟨⟨hinv', ?_, hreg⟩, hs, rfl, rfl, r, rfl, hmem⟩
  intro _
  refine ⟨[], ⟨r⟩, rfl, rfl, List.nodup_nil, Nat.zero_le _, hsort hsorted hnd, ?_, ?_⟩
  · intro k hk
    cases hk
  · intro k hk
    rcases (hmem k).mp hk with h1 | h1
    · exact hesl k h1
    · exact hets k h1

theorem mergeSparse_good (h h' : Plus) (hg : Good h) (hs : h.sparse = true)
    (hm : mergeSparse h = some h') :
    Good h' ∧ h'.sparse = true ∧ h'.p = h.p ∧ h'.tmpSet = some [] := by
  obtain ⟨hinv, hsp, hreg⟩ := hg
  obtain ⟨ts, sl, hts, hsl, hnd, _, hsorted, hets, hesl⟩ := hsp hs
  obtain ⟨a1, a2, a3, a4, _⟩ :=
    mergeSparse_keeps h h' ts sl hinv hs hts hsl hnd hsorted hets hesl hreg hm
  exact ⟨a1, a2, a3, a4⟩

theorem set_add_mem (s : set) (v k : Nat) (hk : k ∈ set.add s v) : k ∈ s ∨ k = v := by
  unfold set.add at hk
  split at hk
  · exact Or.inl hk
  · rcases List.mem_append.mp hk with h1 | h1
    · exact Or.inl h1
    · exact Or.inr (List.mem_singleton.mp h1)

theorem set_add_length (s : set) (v : Nat) : (set.add s v).length ≤ s.length + 1 := by
  unfold set.add
  split
  · omega
  · simp

theorem m_le (h : Plus) (hinv : Inv h) : h.m ≤ 2 ^ 18 := by
  obtain ⟨_, hp18, _, hm, _, _⟩ := hinv
  rw [hm]
  exact Nat.pow_le_pow_right (by norm_num) hp18

theorem rank_le (p x : Nat) (hp4 : 4 ≤ p) (hp18 : p ≤ 18) :
    1 ≤ rank p x ∧ rank p x ≤ 64 - p + 1 := by
  have h1 := rank_eq_denseWord p x (by omega) (by omega)
  have hlt := denseWord_lt p x (by omega) (by omega)
  have hpos : 2 ^ (p - 1) ≤ 2 ^ p * (x % 2 ^ (64 - p)) + 2 ^ (p - 1) := Nat.le_add_left _ _
  have hc := clz_le_of_le _ (p - 1) hpos hlt
  omega

/-- The call `Add` keeps the three invariants. -/
theorem Add_good (h h' : Plus) (x : Nat) (hg : Good h) (hx : x < 2 ^ 64)
    (hadd : Add h x = some h') : Good h' := by
  obtain ⟨hinv, hsp, hreg⟩ := hg
  obtain ⟨h'', hadd', hinv', hp', _⟩ := Add_inv h x hinv hx
  rw [hadd] at hadd'
  cases hadd'
  have hm18 := m_le h hinv
  by_cases hs : h.sparse = true
  · obtain ⟨ts, sl, hts, hsl, hnd, hlen, hsorted, hets, hesl⟩ := hsp hs
    have hnd1 := set_add_nodup ts (encodeHash h x) hnd
    have hlen1 := set_add_length ts (encodeHash h x)
    have henc1 : ∀ k ∈ set.add ts (encodeHash h x), IsEncoded h k := by
      intro k hk
      rcases set_add_mem ts _ k hk with h1 | h1
      · exact hets k h1
      · exact ⟨x, hx, h1⟩
    have hinv1 : Inv { h with tmpSet := some (set.add ts (encodeHash h x)) } := by
      obtain ⟨hp4, hp18, hpp, hm, hspi, _⟩ := hinv
      exact ⟨hp4, hp18, hpp, hm, fun _ => ⟨⟨_, rfl⟩, ⟨sl, hsl⟩, (hspi hs).2.2⟩,
        fun hc => by rw [hs] at hc; cases hc⟩
    unfold Add at hadd
    rw [if_pos hs] at hadd
    simp only [hts] at hadd
    split at hadd
    · cases hms : mergeSparse { h with tmpSet := some (set.add ts (encodeHash h x)) } with
      | none =>
        rw [hms] at hadd
        cases hadd
      | some h2 =>
        rw [hms] at hadd
        obtain ⟨hg2, hs2, hp2, _, r, hsl2, _⟩ := mergeSparse_keeps _ h2 _ sl hinv1 hs rfl hsl
          hnd1 hsorted henc1 hesl hreg hms
        simp only [hsl2] at hadd
        split at hadd
        · obtain ⟨hr3, _⟩ := toNormal_regInv h2 h' hg2.1 hg2.2.1 hs2 hadd
          have hs3 := (toNormal_cases h2 h' hadd).1
          have hsp3 : SparseInv h' := fun hc => by rw [hs3] at hc; cases hc
          exact ⟨hinv', hsp3, hr3⟩
        · cases hadd
          exact hg2
    · rename_i hc
      cases hadd
      refine ⟨hinv1, ?_, hreg⟩
      intro _
      refine ⟨_, sl, rfl, hsl, hnd1, ?_, hsorted, henc1, hesl⟩
      show (set.add ts (encodeHash h x)).length * 100 ≤ h.m
      unfold u32 at hc
      omega
  · have hs' : h.sparse = false := by simpa using hs
    obtain ⟨v, hv, hadd2⟩ := Add_dense h x (inv_denseShape h hinv hs') hx
    rw [hadd] at hadd2
    cases hadd2
    refine ⟨hinv', ?_, ?_⟩
    · intro hc
      exact absurd hc hs
    · intro r hr
      show r ≤ 64 - h.p + 1
      rcases List.mem_or_eq_of_mem_set hr with h1 | h1
      · exact hreg r h1
      · have hvm : v ∈ h.denseList := by
          obtain ⟨hi, hvi⟩ := List.getElem?_eq_some.mp hv
          rw [← hvi]
          exact List.getElem_mem hi
        have h2 := hreg v hvm
        have h3 := (rank_le h.p x hinv.1 hinv.2.1).2
        rw [h1]
        exact max_le h2 h3

/-- The call `Count` keeps the three invariants. -/
theorem Count_good (h h' : Plus) (hg : Good h) (hc : Count h = some h') : Good h' := by
  unfold Count at hc
  by_cases hs : h.sparse = true
  · rw [if_pos hs] at hc
    exact (mergeSparse_good h h' hg hs hc).1
  · rw [if_neg hs] at hc
    cases hc
    exact hg

theorem regOf_le (B : Nat) (us : List (Nat × Nat)) (j : Nat) (hus : ∀ ir ∈ us, ir.2 ≤ B) :
    regOf us j ≤ B := by
  induction us with
  | nil => simp [regOf_nil]
  | cons u us ih =>
    obtain ⟨i, r⟩ := u
    rw [regOf_cons]
    have h1 : r ≤ B := hus (i, r) (List.mem_cons_self _ _)
    have h2 := ih (fun ir hir => hus ir (List.mem_cons_of_mem _ hir))
    split
    · exact max_le h1 h2
    · exact h2

theorem mergeUpdates_rank_le (o : Plus) (hgo : Good o) :
    ∀ ir ∈ mergeUpdates o, ir.2 ≤ 64 - o.p + 1 := by
  obtain ⟨hinv, hsp, hreg⟩ := hgo
  obtain ⟨hp4, hp18, hpp, _, _, _⟩ := hinv
  intro ir hir
  unfold mergeUpdates at hir
  by_cases hs : o.sparse = true
  · obtain ⟨ts, sl, hts, hsl, _, _, _, hets, hesl⟩ := hsp hs
    rw [if_pos hs, hts, hsl] at hir
    simp only [Option.getD_some] at hir
    rcases List.mem_append.mp hir with h1 | h1
    · obtain ⟨k, hk, hkir⟩ := List.mem_map.mp h1
      rw [← hkir]
      exact (IsEncoded_rank_le o k hp4 hp18 hpp (hets k hk)).2.2
    · obtain ⟨k, hk, hkir⟩ := List.mem_map.mp h1
      rw [← hkir]
      exact (IsEncoded_rank_le o k hp4 hp18 hpp (hesl k hk)).2.2
  · rw [if_neg hs] at hir
    exact hreg ir.2 (List.snd_mem_of_mem_enumFrom hir)

/-- The call `Merge` keeps the three invariants of the receiver. -/
theorem Merge_good (h o h' o' : Plus) (e : Option Err) (hg : Good h) (hgo : Good o)
    (hm : Merge h o = some (h', o', e)) : Good h' := by
  by_cases hp : h.p = o.p
  · have hdense : ∀ h1 : Plus, Good h1 → h1.sparse = false → h1.p = h.p →
        Merge h1 o = some (h', o', e) → Good h' := by
      intro h1 hg1 hs1 hp1 hm1
      obtain ⟨d, hmd, hlen, hregs⟩ :=
        Merge_dense h1 o (inv_denseShape h1 hg1.1 hs1) hgo.1 (hp1.trans hp)
      rw [hm1] at hmd
      simp only [Option.some.injEq, Prod.mk.injEq] at hmd
      obtain ⟨e1, _, _⟩ := hmd
      rw [e1]
      refine ⟨inv_setDense h1 d hg1.1 hs1 hlen, ?_, ?_⟩
      · intro hc
        rw [show ({ h1 with denseList := d } : Plus).sparse = h1.sparse from rfl, hs1] at hc
        cases hc
      · intro r hr
        show r ≤ 64 - h1.p + 1
        obtain ⟨j, hj, hrj⟩ := List.getElem_of_mem hr
        have hj1 : j < h1.denseList.length := by rw [← hlen]; exact hj
        have h2 := hregs j hj1
        rw [List.getElem?_eq_getElem hj, List.getElem?_eq_getElem hj1] at h2
        simp only [Option.some.injEq, Option.getD_some] at h2
        rw [← hrj, h2]
        have h3 := hg1.2.2 _ (List.getElem_mem hj1)
        have h4 := regOf_le (64 - o.p + 1) (mergeUpdates o) j (mergeUpdates_rank_le o hgo)
        rw [← hp, ← hp1] at h4
        exact max_le h3 h4
    by_cases hs : h.sparse = true
    · obtain ⟨h1, hn, hinv1, hp1, hs1⟩ := toNormal_inv h hg.1 hs
      obtain ⟨hr1, _⟩ := toNormal_regInv h h1 hg.1 hg.2.1 hs hn
      have hsp1 : SparseInv h1 := fun hc => by rw [hs1] at hc; cases hc
      rw [Merge_sparse h o h1 hs hp hn hs1 hp1] at hm
      exact hdense h1 ⟨hinv1, hsp1, hr1⟩ hs1 hp1 hm
    · exact hdense h hg (by simpa using hs) rfl hm
  · rw [Merge_mismatch h o hp] at hm
    simp only [Option.some.injEq, Prod.mk.injEq] at hm
    rw [← hm.1]
    exact hg

/-- Every reachable state satisfies the three invariants. -/
theorem reachable_good (h : Plus) (hr : Reachable h) : Good h := by
  induction hr with
  | new p h hnew => exact NewPlus_good p h hnew
  | add h x h' _ hx hadd ih => exact Add_good h h' x ih hx hadd
  | count h h' _ hc ih => exact Count_good h h' ih hc
  | merge h o h' o' e _ _ hm ih iho => exact Merge_good h o h' o' e ih iho hm

/-! ## Ranks without wrap-around -/

theorem clz_zero : clz 0 = 64 := by decide

theorem decodeWord_clz (h : Plus) (k : Nat) :
    32 ≤ clz (decodeWord h k) ∧ clz (decodeWord h k) ≤ 64 := by
  refine ⟨?_, clz_le _⟩
  have hlt : decodeWord h k < 2 ^ 32 := Nat.mod_lt _ (by norm_num)
  by_cases h0 : decodeWord h k = 0
  · rw [h0, clz_zero]
    norm_num
  · have := clz_ge_of_lt _ 32 (Nat.pos_of_ne_zero h0) hlt (by norm_num)
    omega

/-- The rank that `decodeHash` returns is the rank computed over the integers:
neither the 8-bit additions and subtractions nor the 64-bit subtraction wrap. -/
theorem decodeRank_exact (h : Plus) (k : Nat) (hp18 : h.p ≤ 18) (hpp : h.pp = 25) :
    ((decodeHash h k).2 : Int) = decodeRankExact h k := by
  unfold decodeHash decodeRankExact
  simp only []
  by_cases hk : k &&& 1 = 1
  · rw [if_pos hk, if_pos hk, hpp]
    have hz := eb32_lt k 7 1
    have e : sub8 7 1 = 6 := by decide
    rw [e] at hz
    unfold sub8 u8
    omega
  · rw [if_neg hk, if_neg hk]
    obtain ⟨c1, c2⟩ := decodeWord_clz h k
    have e : clz (shl32 k (sub8 (u8 (sub8 32 h.pp + h.p)) 1)) = clz (decodeWord h k) := rfl
    rw [e]
    generalize clz (decodeWord h k) = c at c1 c2 ⊢
    unfold u8 sub64
    omega

/-! ## What a sparse sketch holds after a run of `Add` -/

theorem set_add_mem_iff (s : set) (v k : Nat) : k ∈ set.add s v ↔ k ∈ s ∨ k = v := by
  constructor
  · exact set_add_mem s v k
  · intro hk
    unfold set.add
    split
    · rename_i hv
      rcases hk with h1 | h1
      · exact h1
      · rw [h1]
        exact hv
    · rcases hk with h1 | h1
      · exact List.mem_append_left _ h1
      · rw [h1]
        exact List.mem_append_right _ (List.mem_singleton_self v)

theorem nodup_subset_length (r l : List Nat) (hr : r.Nodup) (hsub : ∀ v ∈ r, v ∈ l) :
    r.length ≤ l.length :=
  (List.subperm_of_subset hr hsub).length_le

theorem addAll_stays_dense (xs : List Nat) : ∀ (h h' : Plus), Inv h → h.sparse = false →
    (∀ x ∈ xs, x < 2 ^ 64) → addAll h xs = some h' → h'.sparse = false := by
  induction xs with
  | nil =>
    intro h h' _ hs _ hrun
    cases hrun
    exact hs
  | cons x xs ih =>
    intro h h' hinv hs hxs hrun
    unfold addAll at hrun
    rw [List.foldlM_cons] at hrun
    obtain ⟨h1, hadd, hinv1, _, hkeep⟩ := Add_inv h x hinv (hxs x (List.mem_cons_self _ _))
    rw [hadd] at hrun
    exact ih h1 h' hinv1 (hkeep hs) (fun y hy => hxs y (List.mem_cons_of_mem _ hy)) hrun

/-- An `Add` that leaves the sketch sparse adds the encoded hash to what the
sketch holds. -/
theorem Add_holds (h h' : Plus) (x : Nat) (S : List Nat) (hg : Good h) (hs : h.sparse = true)
    (hh : SparseHolds h S) (hx : x < 2 ^ 64) (hadd : Add h x = some h')
    (hs' : h'.sparse = true) : SparseHolds h' (S ++ [encodeHash h x]) := by
  obtain ⟨hinv, hsp, hreg⟩ := hg
  have hm18 := m_le h hinv
  obtain ⟨ts, sl, hts, hsl, hnd, hlen, hsorted, hets, hesl⟩ := hsp hs
  obtain ⟨ts0, sl0, hts0, hsl0, hsllen, hmp, hmem⟩ := hh
  rw [hts] at hts0
  rw [hsl] at hsl0
  cases hts0
  cases hsl0
  have hnd1 := set_add_nodup ts (encodeHash h x) hnd
  have hlen1 := set_add_length ts (encodeHash h x)
  have henc1 : ∀ k ∈ set.add ts (encodeHash h x), IsEncoded h k := by
    intro k hk
    rcases set_add_mem ts _ k hk with h1 | h1
    · exact hets k h1
    · exact ⟨x, hx, h1⟩
  have hinv1 : Inv { h with tmpSet := some (set.add ts (encodeHash h x)) } := by
    obtain ⟨hp4, hp18, hpp, hm, hspi, _⟩ := hinv
    exact ⟨hp4, hp18, hpp, hm, fun _ => ⟨⟨_, rfl⟩, ⟨sl, hsl⟩, (hspi hs).2.2⟩,
      fun hc => by rw [hs] at hc; cases hc⟩
  have hmem1 : ∀ v, (v ∈ sl.vals ∨ v ∈ set.add ts (encodeHash h x))
      ↔ v ∈ S ++ [encodeHash h x] := by
    intro v
    rw [set_add_mem_iff, List.mem_append, List.mem_singleton, ← hmem v]
    tauto
  unfold Add at hadd
  rw [if_pos hs] at hadd
  simp only [hts] at hadd
  split at hadd
  · cases hms : mergeSparse { h with tmpSet := some (set.add ts (encodeHash h x)) } with
    | none =>
      rw [hms] at hadd
      cases hadd
    | some h2 =>
      rw [hms] at hadd
      obtain ⟨r, hr2, hmemr, hsortr⟩ :=
        mergeSparse_eq { h with tmpSet := some (set.add ts (encodeHash h x)) } h2 sl hsl hms
      simp only [Option.getD_some] at hmemr hsortr
      have hrn : r.Nodup := (hsortr hsorted hnd1).nodup
      have hrlen : r.length ≤ sl.vals.length + (set.add ts (encodeHash h x)).length := by
        have := nodup_subset_length r (sl.vals ++ set.add ts (encodeHash h x)) hrn (by
          intro v hv
          exact List.mem_append.mpr ((hmemr v).mp hv))
        simpa using this
      rw [hr2] at hadd
      simp only [] at hadd
      split at hadd
      · have hd := (toNormal_cases _ h' hadd).1
        rw [hd] at hs'
        cases hs'
      · rename_i hc
        cases hadd
        refine ⟨[], ⟨r⟩, rfl, rfl, ?_, hmp, ?_⟩
        · show r.length ≤ h.m
          have hc' : ¬ (u32 r.length > h.m) := hc
          unfold u32 at hc'
          omega
        · intro v
          rw [← hmem1 v, hmemr v]
          simp
  · cases hadd
    exact ⟨_, sl, rfl, hsl, hsllen, hmp, hmem1⟩

theorem addAll_good (xs : List Nat) : ∀ (h : Plus), Good h → (∀ x ∈ xs, x < 2 ^ 64) →
    ∃ h', addAll h xs = some h' ∧ Good h' ∧ h'.p = h.p := by
  induction xs with
  | nil =>
    intro h hg _
    exact ⟨h, rfl, hg, rfl⟩
  | cons x xs ih =>
    intro h hg hxs
    have hx := hxs x (List.mem_cons_self _ _)
    obtain ⟨h1, hadd, _, hp1, _⟩ := Add_inv h x hg.1 hx
    obtain ⟨h', hrun, hg', hp'⟩ := ih h1 (Add_good h h1 x hg hx hadd)
      (fun y hy => hxs y (List.mem_cons_of_mem _ hy))
    refine ⟨h', ?_, hg', by rw [hp', hp1]⟩
    unfold addAll at hrun ⊢
    rw [List.foldlM_cons, hadd]
    exact hrun

/-- A run of `Add`s that leaves the sketch sparse adds the encoded hashes to
what the sketch holds. -/
theorem addAll_holds (xs : List Nat) : ∀ (h h' : Plus) (S : List Nat), Good h →
    h.sparse = true → SparseHolds h S → (∀ x ∈ xs, x < 2 ^ 64) → addAll h xs = some h' →
    h'.sparse = true → SparseHolds h' (S ++ xs.map (encodeHash h)) := by
  induction xs with
  | nil =>
    intro h h' S _ _ hh _ hrun _
    cases hrun
    simpa using hh
  | cons x xs ih =>
    intro h h' S hg hs hh hxs hrun hs'
    have hx := hxs x (List.mem_cons_self _ _)
    have hxs' : ∀ y ∈ xs, y < 2 ^ 64 := fun y hy => hxs y (List.mem_cons_of_mem _ hy)
    obtain ⟨h1, hadd, hinv1, hp1, _⟩ := Add_inv h x hg.1 hx
    have hg1 := Add_good h h1 x hg hx hadd
    unfold addAll at hrun
    rw [List.foldlM_cons, hadd] at hrun
    have hs1 : h1.sparse = true := by
      by_cases hc : h1.sparse = true
      · exact hc
      · have := addAll_stays_dense xs h1 h' hinv1 (by simpa using hc) hxs' hrun
        rw [this] at hs'
        cases hs'
    have hh1 := Add_holds h h1 x S hg hs hh hx hadd hs1
    have hrec := ih h1 h' (S ++ [encodeHash h x]) hg1 hs1 hh1 hxs' hrun hs'
    have henc : encodeHash h1 = encodeHash h := by
      funext y
      exact encodeHash_congr h h1 y hp1 (by rw [hinv1.2.2.1, hg.1.2.2.1])
    rw [henc] at hrec
    simpa using hrec

theorem NewPlus_holds (p : Nat) (h : Plus) (hnew : NewPlus p = .ok h) : SparseHolds h [] := by
  obtain ⟨hinv, hp, _, hts, hsl⟩ := NewPlus_inv p h hnew
  have hmp : h.mp = 2 ^ 25 := by
    rw [NewPlus_ok p (by rw [← hp]; exact hinv.1) (by rw [← hp]; exact hinv.2.1)] at hnew
    cases hnew
    rfl
  refine ⟨[], ⟨[]⟩, hts, hsl, Nat.zero_le _, hmp, ?_⟩
  intro v
  simp

theorem dedup_length_of_mem (l : List Nat) (k : Nat) (hk : k ∈ l) :
    ((l ++ [k]).dedup).length = (l.dedup).length := by
  apply List.Perm.length_eq
  rw [List.perm_ext_iff_of_nodup (List.nodup_dedup _) (List.nodup_dedup _)]
  intro v
  simp only [List.mem_dedup, List.mem_append, List.mem_singleton]
  constructor
  · rintro (h1 | h1)
    · exact h1
    · rw [h1]
      exact hk
  · exact Or.inl

/-- The sparse `Count` on a sketch that holds the encoded hashes `S`: the
buffer is flushed, `sparseList.Count` is the number of distinct values of `S`
and the value returned is that of `linearCount(mp, mp - n)`. -/
theorem CountSparse_holds (fl : Float64Ops) (h : Plus) (S : List Nat) (hg : Good h)
    (hs : h.sparse = true) (hh : SparseHolds h S) :
    ∃ h' sl, Count h = some h' ∧ h'.sparse = true ∧ h'.tmpSet = some [] ∧
      h'.sparseList = some sl ∧ sl.Count = S.dedup.length ∧ S.dedup.length < 2 ^ 25 ∧
      CountSparse fl h
        = some (h', fl.toUInt64 (linearCount fl (2 ^ 25) (2 ^ 25 - S.dedup.length))) := by
  obtain ⟨hinv, hsp, hreg⟩ := hg
  have hm18 := m_le h hinv
  obtain ⟨ts, sl, hts, hsl, hnd, hlen, hsorted, hets, hesl⟩ := hsp hs
  obtain ⟨ts0, sl0, hts0, hsl0, hsllen, hmp, hmem⟩ := hh
  rw [hts] at hts0
  rw [hsl] at hsl0
  cases hts0
  cases hsl0
  obtain ⟨r, hr, hmemr, hsortr⟩ := mergeSparse_spec h sl hsl
  rw [hts] at hmemr hsortr
  simp only [Option.getD_some] at hmemr hsortr
  have hrn : r.Nodup := (hsortr hsorted hnd).nodup
  have hrlen : r.length = S.dedup.length := by
    apply List.Perm.length_eq
    rw [List.perm_ext_iff_of_nodup hrn (List.nodup_dedup _)]
    intro v
    rw [List.mem_dedup, hmemr v, hmem v]
  have hrle : r.length ≤ sl.vals.length + ts.length := by
    have := nodup_subset_length r (sl.vals ++ ts) hrn (by
      intro v hv
      exact List.mem_append.mpr ((hmemr v).mp hv))
    simpa using this
  have hn : S.dedup.length < 2 ^ 25 := by
    rw [← hrlen]
    omega
  refine ⟨{ h with sparseList := some ⟨r⟩, tmpSet := some [] }, ⟨r⟩, ?_, hs, rfl, rfl, hrlen,
    hn, ?_⟩
  · unfold Count
    rw [if_pos hs]
    exact hr
  · unfold CountSparse
    rw [hr]
    simp only []
    have e : sub32 h.mp (u32 (compressedList.Count ⟨r⟩)) = 2 ^ 25 - S.dedup.length := by
      rw [hmp]
      show sub32 (2 ^ 25) (u32 r.length) = 2 ^ 25 - S.dedup.length
      rw [hrlen]
      unfold sub32 u32
      omega
    rw [e, hmp]

/-! ## The bias interpolation away from the first table value -/

theorem biasIndex_le (l : List ℚ) (est : ℚ) : biasIndex l est ≤ l.length := by
  induction l with
  | nil => simp [biasIndex]
  | cons e es ih =>
    simp only [biasIndex, List.length_cons]
    split <;> omega

theorem biasIndex_before (l : List ℚ) (est : ℚ) :
    ∀ j e, j < biasIndex l est → l[j]? = some e → e < est := by
  induction l with
  | nil =>
    intro j e hj
    simp [biasIndex] at hj
  | cons a es ih =>
    intro j e hj hget
    simp only [biasIndex] at hj
    by_cases ha : a < est
    · rw [if_pos ha] at hj
      cases j with
      | zero =>
        simp at hget
        rw [← hget]
        exact ha
      | succ j =>
        simp at hget
        exact ih j e (by omega) hget
    · rw [if_neg ha] at hj
      omega

theorem biasIndex_at (l : List ℚ) (est e : ℚ) (hget : l[biasIndex l est]? = some e) :
    ¬ e < est := by
  induction l with
  | nil => simp at hget
  | cons a es ih =>
    simp only [biasIndex] at hget
    by_cases ha : a < est
    · rw [if_pos ha] at hget
      simp at hget
      exact ih hget
    · rw [if_neg ha] at hget
      simp at hget
      rw [← hget]
      exact ha

theorem biasIndex_lt_length (l : List ℚ) (est e : ℚ) (he : e ∈ l) (hge : ¬ e < est) :
    biasIndex l est < l.length := by
  induction l with
  | nil => cases he
  | cons a es ih =>
    simp only [biasIndex, List.length_cons]
    by_cases ha : a < est
    · rw [if_pos ha]
      rcases List.mem_cons.mp he with h1 | h1
      · rw [h1] at hge
        exact absurd ha hge
      · have := ih h1
        omega
    · rw [if_neg ha]
      omega

/-- For `est` above the first table value and not above the last one,
`estimateBias` returns the interpolation between the neighbours of the first
index `i` with `estTable[i] ≥ est`; `i - 1` and `i` are valid indices. -/
theorem estimateBias_interior (estTable biasTable : List ℚ) (est e0 eLast : ℚ)
    (hlen : estTable.length = biasTable.length) (h0 : estTable[0]? = some e0)
    (hl : estTable[estTable.length - 1]? = some eLast) (hfirst : e0 < est)
    (hlast : est ≤ eLast) :
    ∃ e1 b1 e2 b2, 0 < biasIndex estTable est ∧ biasIndex estTable est < estTable.length ∧
      estTable[biasIndex estTable est - 1]? = some e1 ∧
      biasTable[biasIndex estTable est - 1]? = some b1 ∧
      estTable[biasIndex estTable est]? = some e2 ∧
      biasTable[biasIndex estTable est]? = some b2 ∧ e1 < est ∧ est ≤ e2 ∧
      estimateBias estTable biasTable est
        = some (b1 * (1 - (est - e1) / (e2 - e1)) + b2 * ((est - e1) / (e2 - e1))) := by
  have hpos : 0 < biasIndex estTable est := by
    cases estTable with
    | nil => simp at h0
    | cons a es =>
      simp at h0
      simp only [biasIndex]
      rw [h0, if_pos hfirst]
      omega
  have hmemLast : eLast ∈ estTable := List.getElem?_mem hl
  have hlt := biasIndex_lt_length estTable est eLast hmemLast (not_lt.mpr hlast)
  have hi1 : biasIndex estTable est - 1 < estTable.length := by omega
  have g1 := List.getElem?_eq_getElem hi1
  have g2 := List.getElem?_eq_getElem hlt
  have g3 := List.getElem?_eq_getElem (show biasIndex estTable est - 1 < biasTable.length by omega)
  have g4 := List.getElem?_eq_getElem (show biasIndex estTable est < biasTable.length by omega)
  have hb1 := biasIndex_before estTable est _ _ (by omega) g1
  have hb2 := biasIndex_at estTable est _ g2
  refine ⟨_, _, _, _, hpos, hlt, g1, g3, g2, g4, hb1, not_lt.mp hb2, ?_⟩
  unfold estimateBias
  rw [h0]
  simp only []
  rw [if_neg (not_lt.mpr (le_of_lt hfirst)), hl]
  simp only []
  rw [if_neg (not_lt.mpr hlast), if_neg (by omega), g1, g2, g3, g4]

/-- When `est` is a table value other than the first, reached from a smaller
neighbour, the interpolation is the aligned bias value. -/
theorem interpolation_at_table_value (e1 e2 b1 b2 : ℚ) (h12 : e1 < e2) :
    b1 * (1 - (e2 - e1) / (e2 - e1)) + b2 * ((e2 - e1) / (e2 - e1)) = b2 := by
  have hne : e2 - e1 ≠ 0 := sub_ne_zero.mpr (ne_of_gt h12)
  rw [div_self hne]
  ring

/-! ## The raw estimate for registers below 32 -/

theorem eDenominators_small (h : Plus) (hsmall : ∀ r ∈ h.denseList, r < 32) :
    eDenominators h = h.denseList.map (fun r => 2 ^ r) := by
  unfold eDenominators
  apply List.map_congr_left
  intro r hr
  exact shl32_one r (hsmall r hr)

theorem eCount_foldl (l : List Nat) : ∀ c, c + l.length < 2 ^ 32 →
    l.foldl (fun count val => if val = 0 then u32 (count + 1) else count) c
      = c + l.count 0 := by
  induction l with
  | nil =>
    intro c _
    simp
  | cons a l ih =>
    intro c hc
    simp only [List.length_cons] at hc
    rw [List.foldl_cons]
    by_cases ha : a = 0
    · rw [if_pos ha, ha, List.count_cons_self]
      have e : u32 (c + 1) = c + 1 := by
        unfold u32
        omega
      rw [e, ih (c + 1) (by omega)]
      omega
    · rw [if_neg ha, List.count_cons_of_ne (Ne.symm ha), ih c (by omega)]

/-- The second result of `e()` is the number of registers equal to 0. -/
theorem eCount_eq (h : Plus) (hlen : h.denseList.length < 2 ^ 32) :
    eCount h = h.denseList.count 0 := by
  unfold eCount
  rw [eCount_foldl _ 0 (by omega)]
  omega

theorem merged4_reachable : Reachable merged4 :=
  Reachable.merge new4 one4 merged4 one4 none new4_reachable one4_reachable (by decide)

theorem Add_flush (h h' : Plus) (x : Nat) (ts : set) (hg : Good h) (hs : h.sparse = true)
    (hts : h.tmpSet = some ts) (hx : x < 2 ^ 64) (hadd : Add h x = some h')
    (hfull : (set.add ts (encodeHash h x)).length * 100 > h.m) :
    h'.sparse = false ∨ h'.tmpSet = some [] := by
  obtain ⟨hinv, hsp, hreg⟩ := hg
  have hm18 := m_le h hinv
  obtain ⟨ts0, sl, hts0, hsl, hnd, hlen, hsorted, hets, hesl⟩ := hsp hs
  rw [hts] at hts0
  cases hts0
  have hnd1 := set_add_nodup ts (encodeHash h x) hnd
  have hlen1 := set_add_length ts (encodeHash h x)
  have henc1 : ∀ k ∈ set.add ts (encodeHash h x), IsEncoded h k := by
    intro k hk
    rcases set_add_mem ts _ k hk with h1 | h1
    · exact hets k h1
    · exact ⟨x, hx, h1⟩
  have hinv1 : Inv { h with tmpSet := some (set.add ts (encodeHash h x)) } := by
    obtain ⟨hp4, hp18, hpp, hm, hspi, _⟩ := hinv
    exact ⟨hp4, hp18, hpp, hm, fun _ => ⟨⟨_, rfl⟩, ⟨sl, hsl⟩, (hspi hs).2.2⟩,
      fun hc => by rw [hs] at hc; cases hc⟩
  unfold Add at hadd
  rw [if_pos hs] at hadd
  simp only [hts] at hadd
  split at hadd
  · cases hms : mergeSparse { h with tmpSet := some (set.add ts (encodeHash h x)) } with
    | none =>
      rw [hms] at hadd
      cases hadd
    | some h2 =>
      rw [hms] at hadd
      obtain ⟨_, _, _, hts2, r, hsl2, _⟩ := mergeSparse_keeps _ h2 _ sl hinv1 hs rfl hsl
        hnd1 hsorted henc1 hesl hreg hms
      simp only [hsl2] at hadd
      split at hadd
      · exact Or.inl (toNormal_cases h2 h' hadd).1
      · cases hadd
        exact Or.inr hts2
  · rename_i hc
    unfold u32 at hc
    omega

/-! ## The value returned by `Count` -/

theorem mergeSparse_mp (h h' : Plus) (hm : mergeSparse h = some h') : h'.mp = h.mp := by
  unfold mergeSparse at hm
  split at hm
  · cases hm
  · dsimp only at hm
    split at hm
    · cases hm
    · cases hm
      rfl

theorem toNormal_mp (h h' : Plus) (hn : toNormal h = some h') : h'.mp = h.mp := by
  unfold toNormal at hn
  split at hn
  · cases hn
  · rename_i h1 hpre
    have hm1 : h1.mp = h.mp := by
      by_cases hlen : (h.tmpSet.getD []).length > 0
      · rw [if_pos hlen] at hpre
        exact mergeSparse_mp h h1 hpre
      · rw [if_neg hlen] at hpre
        cases hpre
        rfl
    split at hn
    · cases hn
    · split at hn
      · cases hn
      · cases hn
        exact hm1

theorem Add_mp (h h' : Plus) (x : Nat) (hadd : Add h x = some h') : h'.mp = h.mp := by
  unfold Add at hadd
  by_cases hs : h.sparse = true
  · rw [if_pos hs] at hadd
    split at hadd
    · cases hadd
    · rename_i ts hts
      dsimp only at hadd
      split at hadd
      · split at hadd
        · cases hadd
        · rename_i h2 hh2
          have e2 := mergeSparse_mp _ h2 hh2
          split at hadd
          · cases hadd
          · split at hadd
            · rw [toNormal_mp h2 h' hadd, e2]
            · cases hadd
              exact e2
      · cases hadd
        rfl
  · rw [if_neg hs] at hadd
    split at hadd
    · cases hadd
    · cases hadd
      rfl

theorem Merge_mp (h o h' o' : Plus) (e : Option Err) (hm : Merge h o = some (h', o', e)) :
    h'.mp = h.mp := by
  obtain ⟨_, hc⟩ := Merge_cases h o h' o' e hm
  rcases hc with ⟨_, _, e1⟩ | ⟨_, _, h1, d, hpre, e1, _⟩
  · rw [e1]
  · rw [e1]
    show h1.mp = h.mp
    by_cases hs : h.sparse = true
    · rw [if_pos hs] at hpre
      exact toNormal_mp h h1 hpre
    · rw [if_neg hs] at hpre
      cases hpre
      rfl

theorem NewPlus_mp (p : Nat) (h : Plus) (hnew : NewPlus p = .ok h) : h.mp = 2 ^ 25 := by
  obtain ⟨hinv, hp, _, _, _⟩ := NewPlus_inv p h hnew
  rw [NewPlus_ok p (by rw [← hp]; exact hinv.1) (by rw [← hp]; exact hinv.2.1)] at hnew
  cases hnew
  rfl

/-- Every reachable sketch has `mp = 2^25`. -/
theorem reachable_mp (h : Plus) (hr : Reachable h) : h.mp = 2 ^ 25 := by
  induction hr with
  | new p h hnew => exact NewPlus_mp p h hnew
  | add h x h' _ _ hadd ih => rw [Add_mp h h' x hadd, ih]
  | count h h' _ hc ih =>
    unfold Count at hc
    by_cases hs : h.sparse = true
    · rw [if_pos hs] at hc
      rw [mergeSparse_mp h h' hc, ih]
    · rw [if_neg hs] at hc
      cases hc
      exact ih
  | merge h o h' o' e _ _ hm ih _ => rw [Merge_mp h o h' o' e hm, ih]

theorem addAll_reachable (xs : List Nat) : ∀ (h h' : Plus), Reachable h →
    (∀ x ∈ xs, x < 2 ^ 64) → addAll h xs = some h' → Reachable h' := by
  induction xs with
  | nil =>
    intro h h' hr _ hrun
    cases hrun
    exact hr
  | cons x xs ih =>
    intro h h' hr hxs hrun
    unfold addAll at hrun
    rw [List.foldlM_cons] at hrun
    cases hadd : Add h x with
    | none =>
      rw [hadd] at hrun
      cases hrun
    | some h1 =>
      rw [hadd] at hrun
      exact ih h1 h' (Reachable.add h x h1 hr (hxs x (List.mem_cons_self _ _)) hadd)
        (fun y hy => hxs y (List.mem_cons_of_mem _ hy)) hrun

theorem count_zero_set_le (d : List Nat) : ∀ (i v : Nat) (hi : i < d.length), d[i] ≤ v →
    (d.set i v).count 0 ≤ d.count 0 := by
  induction d with
  | nil =>
    intro i v hi
    cases hi
  | cons a d ih =>
    intro i v hi hv
    cases i with
    | zero =>
      simp only [List.set_cons_zero, List.getElem_cons_zero] at hv ⊢
      by_cases hv0 : v = 0
      · have ha : a = 0 := by omega
        rw [hv0, ha]
      · rw [List.count_cons_of_ne (Ne.symm hv0)]
        exact List.count_le_count_cons _ _ _
    | succ i =>
      simp only [List.set_cons_succ, List.getElem_cons_succ, List.length_cons] at hv hi ⊢
      have := ih i v (by omega) hv
      simp only [List.count_cons]
      omega

theorem ratOps_laws : ratOps.LogOneLaws := by
  refine ⟨(1 : ℚ), (0 : ℚ), ?_, ?_, ?_, ?_⟩
  · intro n hn _
    show (n : ℚ) / (n : ℚ) = 1
    have : (n : ℚ) ≠ 0 := by
      exact_mod_cast Nat.pos_iff_ne_zero.mp hn
    exact div_self this
  · show (1 : ℚ) - 1 = 0
    norm_num
  · intro n _
    show (n : ℚ) * 0 = 0
    norm_num
  · show ⌊(0 : ℚ)⌋.toNat = 0
    simp

theorem ratOps_monotone : ratOps.LinearMonotone := by
  intro m v w hw hwv _ _
  show ⌊(m : ℚ) * ((m : ℚ) / (v : ℚ) - 1)⌋.toNat ≤ ⌊(m : ℚ) * ((m : ℚ) / (w : ℚ) - 1)⌋.toNat
  apply Int.toNat_le_toNat
  apply Int.floor_mono
  have hw0 : (0 : ℚ) < (w : ℚ) := by exact_mod_cast hw
  have hwv0 : (w : ℚ) ≤ (v : ℚ) := by exact_mod_cast hwv
  have hm0 : (0 : ℚ) ≤ (m : ℚ) := Nat.cast_nonneg m
  have hdiv : (m : ℚ) / (v : ℚ) ≤ (m : ℚ) / (w : ℚ) := div_le_div_of_nonneg_left hm0 hw0 hwv0
  apply mul_le_mul_of_nonneg_left _ hm0
  linarith

theorem sub32_count (n : Nat) (hn : n < 2 ^ 25) : sub32 (2 ^ 25) (u32 n) = 2 ^ 25 - n := by
  unfold sub32 u32
  omega

/-- The sparse `Count` on a sketch with the invariants: the buffer is merged
into a list `r` without repetition that holds what `sparseList` and `tmpSet`
held, and the value returned is that of `linearCount(mp, mp - len(r))`. -/
theorem CountSparse_value (fl : Float64Ops) (h : Plus) (ts : set) (sl : compressedList)
    (hg : Good h) (hs : h.sparse = true) (hts : h.tmpSet = some ts)
    (hsl : h.sparseList = some sl) :
    ∃ r, mergeSparse h = some { h with sparseList := some ⟨r⟩, tmpSet := some [] } ∧
      r.Nodup ∧ (∀ v, v ∈ r ↔ v ∈ sl.vals ∨ v ∈ ts) ∧
      CountSparse fl h = some ({ h with sparseList := some ⟨r⟩, tmpSet := some [] },
        fl.toUInt64 (linearCount fl h.mp (sub32 h.mp (u32 r.length)))) := by
  obtain ⟨hinv, hsp, hreg⟩ := hg
  obtain ⟨ts0, sl0, hts0, hsl0, hnd, hlen, hsorted, hets, hesl⟩ := hsp hs
  rw [hts] at hts0
  rw [hsl] at hsl0
  cases hts0
  cases hsl0
  obtain ⟨r, hr, hmemr, hsortr⟩ := mergeSparse_spec h sl hsl
  rw [hts] at hmemr hsortr
  simp only [Option.getD_some] at hmemr hsortr
  refine ⟨r, hr, (hsortr hsorted hnd).nodup, hmemr, ?_⟩
  unfold CountSparse
  rw [hr]
  rfl

/-- An `Add` that leaves the sketch sparse keeps every entry of `sparseList`. -/
theorem Add_sparse_superset (h h' : Plus) (x : Nat) (sl : compressedList) (hg : Good h)
    (hs : h.sparse = true) (hsl : h.sparseList = some sl) (hx : x < 2 ^ 64)
    (hadd : Add h x = some h') (hs' : h'.sparse = true) :
    ∃ sl', h'.sparseList = some sl' ∧ ∀ v ∈ sl.vals, v ∈ sl'.vals := by
  obtain ⟨hinv, hsp, hreg⟩ := hg
  obtain ⟨ts, sl0, hts, hsl0, hnd, hlen, hsorted, hets, hesl⟩ := hsp hs
  rw [hsl] at hsl0
  cases hsl0
  have hnd1 := set_add_nodup ts (encodeHash h x) hnd
  have henc1 : ∀ k ∈ set.add ts (encodeHash h x), IsEncoded h k := by
    intro k hk
    rcases set_add_mem ts _ k hk with h1 | h1
    · exact hets k h1
    · exact ⟨x, hx, h1⟩
  have hinv1 : Inv { h with tmpSet := some (set.add ts (encodeHash h x)) } := by
    obtain ⟨hp4, hp18, hpp, hm, hspi, _⟩ := hinv
    exact ⟨hp4, hp18, hpp, hm, fun _ => ⟨⟨_, rfl⟩, ⟨sl, hsl⟩, (hspi hs).2.2⟩,
      fun hc => by rw [hs] at hc; cases hc⟩
  unfold Add at hadd
  rw [if_pos hs] at hadd
  simp only [hts] at hadd
  split at hadd
  · cases hms : mergeSparse { h with tmpSet := some (set.add ts (encodeHash h x)) } with
    | none =>
      rw [hms] at hadd
      cases hadd
    | some h2 =>
      rw [hms] at hadd
      obtain ⟨_, _, _, hts2, r, hsl2, hmem2⟩ := mergeSparse_keeps _ h2 _ sl hinv1 hs rfl hsl
        hnd1 hsorted henc1 hesl hreg hms
      simp only [hsl2] at hadd
      split at hadd
      · have := (toNormal_cases h2 h' hadd).1
        rw [this] at hs'
        cases hs'
      · cases hadd
        exact ⟨⟨r⟩, hsl2, fun v hv => (hmem2 v).mpr (Or.inl hv)⟩
  · cases hadd
    exact ⟨sl, hsl, fun v hv => hv⟩

theorem ratOps_linearFormula (m v : Nat) :
    linearFormula ratOps m v = ⌊(m : ℚ) * ((m : ℚ) / (v : ℚ) - 1)⌋.toNat := rfl

theorem ratOps_count_five : countFormula ratOps 5 = 5 := by
  unfold countFormula
  rw [ratOps_linearFormula]
  have e : ⌊((2 ^ 25 : ℕ) : ℚ) * (((2 ^ 25 : ℕ) : ℚ) / ((2 ^ 25 - 5 : ℕ) : ℚ) - 1)⌋ = 5 := by
    rw [Int.floor_eq_iff]
    norm_num
  rw [e]
  rfl

theorem CountValue_sparse (fl : Float64Ops) (le : fl.F → fl.F → Bool) (thr : fl.F)
    (est : Plus → Option fl.F) (h : Plus) (hs : h.sparse = true) :
    CountValue fl le thr est h = CountSparse fl h := by
  unfold CountValue
  rw [if_pos hs]

/-- The dense `Count` when the estimate is computed, a register is zero and
the linear count is within the threshold: the linear count is returned. -/
theorem CountValue_linear (fl : Float64Ops) (le : fl.F → fl.F → Bool) (thr : fl.F)
    (est : Plus → Option fl.F) (h : Plus) (e : fl.F) (hs : h.sparse = false)
    (hest : est h = some e) (hz : 0 < eCount h)
    (hle : le (linearCount fl h.m (eCount h)) thr = true) :
    CountValue fl le thr est h = some (h, linearFormula fl h.m (eCount h)) := by
  unfold CountValue
  simp only [hs, Bool.false_eq_true, if_false, hest]
  rw [if_pos hz, if_pos hle]
  rfl

/-- A dense `Count` that returns, returns the sketch unchanged. -/
theorem CountValue_dense_state (fl : Float64Ops) (le : fl.F → fl.F → Bool) (thr : fl.F)
    (est : Plus → Option fl.F) (h h1 : Plus) (v : Nat) (hs : h.sparse = false)
    (hc : CountValue fl le thr est h = some (h1, v)) : ∃ e, est h = some e := by
  unfold CountValue at hc
  simp only [hs, Bool.false_eq_true, if_false] at hc
  cases he : est h with
  | none =>
    rw [he] at hc
    cases hc
  | some e => exact ⟨e, rfl⟩

theorem sparse16_reachable : Reachable sparse16 :=
  addAll_reachable run16 new4 sparse16 new4_reachable (by decide) (by decide)

theorem sparse16_count (fl : Float64Ops) :
    CountSparse fl sparse16 = some (sparse16, countFormula fl 16) := by
  have hm : mergeSparse sparse16 = some sparse16 := by decide
  unfold CountSparse
  rw [hm]
  rfl

theorem ratOps_count_sixteen : countFormula ratOps 16 = 16 := by
  unfold countFormula
  rw [ratOps_linearFormula]
  have e : ⌊((2 ^ 25 : ℕ) : ℚ) * (((2 ^ 25 : ℕ) : ℚ) / ((2 ^ 25 - 16 : ℕ) : ℚ) - 1)⌋ = 16 := by
    rw [Int.floor_eq_iff]
    norm_num
  rw [e]
  rfl

theorem ratOps_linear_sixteen : linearFormula ratOps 16 15 = 1 := by
  rw [ratOps_linearFormula]
  have e : ⌊((16 : ℕ) : ℚ) * (((16 : ℕ) : ℚ) / ((15 : ℕ) : ℚ) - 1)⌋ = 1 := by
    rw [Int.floor_eq_iff]
    norm_num
  rw [e]
  rfl

theorem ratOps_below_ten : ratLe (linearCount ratOps 16 15) (10 : ℚ) = true := by
  show decide ((((16 : ℕ) : ℚ) * (((16 : ℕ) : ℚ) / ((15 : ℕ) : ℚ) - 1)) ≤ 10) = true
  rw [decide_eq_true_iff]
  norm_num

/-- The drop of `Count` at the switch from sparse to dense, for any `float64`
operations: if `uint64(mp * ln(mp / (mp - 16)))` is 16, `16 * ln(16 / 15)` is
within the threshold and converts to 1, then `Count` returns 16 on `sparse16`
and 1 on `dense17`. -/
theorem switch_values (fl : Float64Ops) (le : fl.F → fl.F → Bool) (thr : fl.F)
    (est : Plus → Option fl.F) (e : fl.F) (hest : est dense17 = some e)
    (h16 : countFormula fl 16 = 16) (hle : le (linearCount fl 16 15) thr = true)
    (h1 : linearFormula fl 16 15 = 1) :
    CountValue fl le thr est sparse16 = some (sparse16, 16) ∧
    CountValue fl le thr est dense17 = some (dense17, 1) := by
  constructor
  · rw [CountValue_sparse fl le thr est sparse16 rfl, sparse16_count, h16]
  · have hz : eCount dense17 = 15 := by decide
    have hm : dense17.m = 16 := rfl
    rw [CountValue_linear fl le thr est dense17 e rfl hest (by rw [hz]; decide)
      (by rw [hz, hm]; exact hle), hz, hm, h1]

theorem countFormula_mono (fl : Float64Ops) (hm : fl.LinearMonotone) (a b : Nat) (hab : a ≤ b)
    (hb : b < 2 ^ 25) : countFormula fl a ≤ countFormula fl b := by
  unfold countFormula
  exact hm (2 ^ 25) (2 ^ 25 - a) (2 ^ 25 - b) (by omega) (by omega) (by omega) (by norm_num)

/-- The dense `Add` does not raise the number of zero registers. -/
theorem Add_dense_zeros (h h' : Plus) (x : Nat) (hinv : Inv h) (hs : h.sparse = false)
    (hx : x < 2 ^ 64) (hadd : Add h x = some h') :
    h'.sparse = false ∧ h'.m = h.m ∧ eCount h' ≤ eCount h ∧ eCount h ≤ h.m := by
  have hm18 := m_le h hinv
  have hlen : h.denseList.length = h.m := (hinv.2.2.2.2.2 hs).2.2
  obtain ⟨v, hv, hadd'⟩ := Add_dense h x (inv_denseShape h hinv hs) hx
  rw [hadd] at hadd'
  cases hadd'
  have hi : topBits h.p x < h.denseList.length := by
    by_contra hc
    rw [List.getElem?_eq_none (Nat.le_of_not_lt hc)] at hv
    cases hv
  rw [List.getElem?_eq_getElem hi] at hv
  cases hv
  refine ⟨hs, rfl, ?_, ?_⟩
  · rw [eCount_eq _ (by simp only [List.length_set]; omega), eCount_eq h (by omega)]
    exact count_zero_set_le h.denseList _ _ hi (le_max_left _ _)
  · rw [eCount_eq h (by omega), ← hlen]
    exact List.count_le_length _ _

theorem six16_reachable : Reachable six16 :=
  addAll_reachable [0x00010fffffffffff, 0x00020fffffffffff, 0x00030fffffffffff,
    0x00040fffffffffff, 0x00050fffffffffff, 0x00050fffffffffff] new16 six16
    (Reachable.new 16 new16 rfl) (by decide) (by decide)

theorem dense17_reachable : Reachable dense17 :=
  Reachable.add sparse16 (17 <<< 39) dense17 sparse16_reachable (by decide) (by decide)

theorem ratOps_count_six : countFormula ratOps 6 = 6 := by
  unfold countFormula
  rw [ratOps_linearFormula]
  have e : ⌊((2 ^ 25 : ℕ) : ℚ) * (((2 ^ 25 : ℕ) : ℚ) / ((2 ^ 25 - 6 : ℕ) : ℚ) - 1)⌋ = 6 := by
    rw [Int.floor_eq_iff]
    norm_num
  rw [e]
  rfl

theorem ratOps_linear_fourteen : linearFormula ratOps 16 14 = 2 := by
  rw [ratOps_linearFormula]
  have e : ⌊((16 : ℕ) : ℚ) * (((16 : ℕ) : ℚ) / ((14 : ℕ) : ℚ) - 1)⌋ = 2 := by
    rw [Int.floor_eq_iff]
    norm_num
  rw [e]
  rfl

theorem ratOps_below_ten_fourteen : ratLe (linearCount ratOps 16 14) (10 : ℚ) = true := by
  show decide ((((16 : ℕ) : ℚ) * (((16 : ℕ) : ℚ) / ((14 : ℕ) : ℚ) - 1)) ≤ 10) = true
  rw [decide_eq_true_iff]
  norm_num

/-! ## Claims, continued -/

/-- C11: the sparse-state invariant.  In every reachable state that is still
sparse `tmpSet` holds fewer than `m/100 + 1` keys, that is `|tmpSet| * 100 ≤ m`,
and `sparseList` is a strictly ascending sequence of values below `2^32`; an
`Add` that brings the buffer to `|tmpSet| * 100 > m` returns with the buffer
flushed (or the sketch made dense). -/
theorem sparse_state_invariant (h : Plus) (hr : Reachable h) (hs : h.sparse = true) :
    ∃ ts sl, h.tmpSet = some ts ∧ h.sparseList = some sl ∧
      ts.length < h.m / 100 + 1 ∧ ts.length * 100 ≤ h.m ∧
      sl.vals.Sorted (· < ·) ∧ (∀ v ∈ sl.vals, v < 2 ^ 32) ∧
      ∀ x h', x < 2 ^ 64 → Add h x = some h' →
        (set.add ts (encodeHash h x)).length * 100 > h.m →
        h'.sparse = false ∨ h'.tmpSet = some [] := by
  have hg := reachable_good h hr
  obtain ⟨ts, sl, hts, hsl, _, hlen, hsorted, _, hesl⟩ := hg.2.1 hs
  obtain ⟨hp4, hp18, hpp, _, _, _⟩ := hg.1
  refine ⟨ts, sl, hts, hsl, by omega, hlen, hsorted, ?_, ?_⟩
  · intro v hv
    exact (IsEncoded_rank_le h v hp4 hp18 hpp (hesl v hv)).1
  · intro x h' hx hadd hfull
    exact Add_flush h h' x ts hg hs hts hx hadd hfull

/-- C11 on `pending7`, a sparse sketch of 128 registers with one pending key. -/
theorem sparse_state_invariant_witness :
    (Reachable pending7 ∧ pending7.sparse = true) ∧
    ∃ ts sl, pending7.tmpSet = some ts ∧ pending7.sparseList = some sl ∧
      ts.length < pending7.m / 100 + 1 ∧ ts.length * 100 ≤ pending7.m ∧
      sl.vals.Sorted (· < ·) ∧ (∀ v ∈ sl.vals, v < 2 ^ 32) ∧
      ∀ x h', x < 2 ^ 64 → Add pending7 x = some h' →
        (set.add ts (encodeHash pending7 x)).length * 100 > pending7.m →
        h'.sparse = false ∨ h'.tmpSet = some [] :=
  ⟨⟨pending7_reachable, rfl⟩, sparse_state_invariant pending7 pending7_reachable rfl⟩

/-- C14: short-form hashes recover the dense rank exactly.  For a precision in
[4,18] (`pp = 25`) and a 64-bit hash whose bits `[64-pp, 64-p)` are not all
zero, `encodeHash` takes its short branch, the encoded hash has low bit 0 and
is the top `pp` bits of the hash shifted left once, and `decodeHash` of it
returns the top `p` bits and the rank `clz((x << p) | (1 << (p-1))) + 1`,
which lies in `[1, pp - p]`. -/
theorem short_form_recovers_rank (h : Plus) (x : Nat) (hp4 : 4 ≤ h.p) (hp18 : h.p ≤ 18)
    (hpp : h.pp = 25) (hx : x < 2 ^ 64)
    (hbits : (x / 2 ^ (64 - h.pp)) % 2 ^ (h.pp - h.p) ≠ 0) :
    bextr x (sub8 64 h.pp) (sub8 h.pp h.p) ≠ 0 ∧
      encodeHash h x &&& 1 = 0 ∧ encodeHash h x = (x / 2 ^ (64 - h.pp)) <<< 1 ∧
      decodeHash h (encodeHash h x) = (topBits h.p x, rank h.p x) ∧
      1 ≤ rank h.p x ∧ rank h.p x ≤ h.pp - h.p := by
  have hb : (x / 2 ^ 39) % 2 ^ (25 - h.p) ≠ 0 := by
    rw [hpp] at hbits
    exact hbits
  obtain ⟨hdec, _, hr1, hr2⟩ := decodeHash_short h x hp4 hp18 hpp hx hb
  have henc := encodeHash_short h x hp4 hp18 hpp hx hb
  refine ⟨?_, ?_, ?_, ?_, hr1, ?_⟩
  · rw [between_eq h x hp4 hp18 hpp]
    exact hb
  · rw [henc, Nat.and_one_is_mod]
    omega
  · rw [henc, hpp, Nat.shiftLeft_eq]
    omega
  · rw [henc]
    exact hdec
  · rw [hpp]
    exact hr2

/-- C14 at precision 8 on the hash `0xffffff8000000000`. -/
theorem short_form_recovers_rank_witness :
    (4 ≤ new8.p ∧ new8.p ≤ 18 ∧ new8.pp = 25 ∧ 0xffffff8000000000 < 2 ^ 64 ∧
      (0xffffff8000000000 / 2 ^ (64 - new8.pp)) % 2 ^ (new8.pp - new8.p) ≠ 0) ∧
    (bextr 0xffffff8000000000 (sub8 64 new8.pp) (sub8 new8.pp new8.p) ≠ 0 ∧
      encodeHash new8 0xffffff8000000000 &&& 1 = 0 ∧
      encodeHash new8 0xffffff8000000000 = (0xffffff8000000000 / 2 ^ (64 - new8.pp)) <<< 1 ∧
      decodeHash new8 (encodeHash new8 0xffffff8000000000)
        = (topBits new8.p 0xffffff8000000000, rank new8.p 0xffffff8000000000) ∧
      1 ≤ rank new8.p 0xffffff8000000000 ∧
      rank new8.p 0xffffff8000000000 ≤ new8.pp - new8.p) :=
  ⟨⟨by decide, by decide, rfl, by decide, by decide⟩,
    short_form_recovers_rank new8 0xffffff8000000000 (by decide) (by decide) rfl (by decide)
      (by decide)⟩

theorem CountSparse_new (fl : Float64Ops) (p : Nat) (h0 : Plus) (hnew : NewPlus p = .ok h0) :
    CountSparse fl h0 = some (h0, fl.toUInt64 (linearCount fl (2 ^ 25) (2 ^ 25))) := by
  obtain ⟨hinv, hp, _, _, _⟩ := NewPlus_inv p h0 hnew
  rw [NewPlus_ok p (by rw [← hp]; exact hinv.1) (by rw [← hp]; exact hinv.2.1)] at hnew
  cases hnew
  have e : sub32 (2 ^ 25) (u32 0) = 2 ^ 25 := by decide
  simp only [CountSparse, mergeSparse, Option.getD_some, List.insertionSort, List.length_nil,
    compressedList.Count, compressedList.Iter, newCompressedList, mergeSparseLoop, e]

theorem linearCount_self (fl : Float64Ops) (hl : fl.LogOneLaws) :
    fl.toUInt64 (linearCount fl (2 ^ 25) (2 ^ 25)) = 0 := by
  obtain ⟨one, zero, h1, h2, h3, h4⟩ := hl
  unfold linearCount
  rw [h1 (2 ^ 25) (by norm_num) (by norm_num), h2, h3 (2 ^ 25) (by norm_num), h4]

/-- C12: the sparse `Count` depends only on the number of distinct encoded
hashes.  For a precision in [4,18] and 64-bit hashes `xs` added to
`NewPlus(p)`: every `Add` returns, and if the sketch is still sparse, `Count`
leaves `tmpSet` empty and `sparseList.Count = n`, the number of distinct
values `encodeHash(x)` over `xs`, with `n < 2^25`, and returns
`uint64(mp * ln(mp / (mp - n)))` for `mp = 2^25` (`countFormula`, the
`float64` operations being parameters).  A new sketch returns the value for
`n = 0`, which is 0 for `float64` operations satisfying `LogOneLaws`, and
adding a hash already in `xs` once more does not change `n`. -/
theorem sparse_count_distinct (fl : Float64Ops) (p : Nat) (hp4 : 4 ≤ p) (hp18 : p ≤ 18)
    (xs : List Nat) (hxs : ∀ x ∈ xs, x < 2 ^ 64) :
    ∃ h0 h : Plus, NewPlus p = .ok h0 ∧ addAll h0 xs = some h ∧
      (h.sparse = true → ∃ h' sl, Count h = some h' ∧ h'.tmpSet = some [] ∧
        h'.sparseList = some sl ∧ sl.Count = distinctEncoded h0 xs ∧
        distinctEncoded h0 xs < 2 ^ 25 ∧
        CountSparse fl h = some (h', countFormula fl (distinctEncoded h0 xs))) ∧
      CountSparse fl h0 = some (h0, countFormula fl 0) ∧
      (fl.LogOneLaws → CountSparse fl h0 = some (h0, 0)) ∧
      (∀ x ∈ xs, distinctEncoded h0 (xs ++ [x]) = distinctEncoded h0 xs) := by
  have hnew := NewPlus_ok p hp4 hp18
  have hg0 := NewPlus_good p _ hnew
  obtain ⟨h, hrun, hg, _⟩ := addAll_good xs _ hg0 hxs
  refine ⟨_, h, hnew, hrun, ?_, CountSparse_new fl p _ hnew, ?_, ?_⟩
  · intro hs
    have hh := addAll_holds xs _ h [] hg0 rfl (NewPlus_holds p _ hnew) hxs hrun hs
    rw [List.nil_append] at hh
    obtain ⟨h', sl, a1, _, a3, a4, a5, a6, a7⟩ := CountSparse_holds fl h _ hg hs hh
    exact ⟨h', sl, a1, a3, a4, a5, a6, a7⟩
  · intro hl
    rw [CountSparse_new fl p _ hnew, linearCount_self fl hl]
  · intro x hx
    unfold distinctEncoded
    rw [List.map_append, List.map_singleton]
    exact dedup_length_of_mem _ _ (List.mem_map_of_mem _ hx)

/-- C12 on the run of `TestHLLPPCount`, at precision 16 with five distinct
hashes and one repeat, in rational arithmetic: the six `Add`s lead to
`six16`, `n` is 5, `Count` flushes the five pending entries and returns 5,
and the new sketch counts 0. -/
theorem sparse_count_distinct_witness :
    (4 ≤ 16 ∧ 16 ≤ 18 ∧
      (∀ x ∈ [0x00010fffffffffff, 0x00020fffffffffff, 0x00030fffffffffff, 0x00040fffffffffff,
        0x00050fffffffffff, 0x00050fffffffffff], x < 2 ^ 64) ∧ ratOps.LogOneLaws) ∧
    distinctEncoded new16 [0x00010fffffffffff, 0x00020fffffffffff, 0x00030fffffffffff,
      0x00040fffffffffff, 0x00050fffffffffff, 0x00050fffffffffff] = 5 ∧
    countFormula ratOps 5 = 5 ∧
    ∃ h' sl, NewPlus 16 = .ok new16 ∧
      addAll new16 [0x00010fffffffffff, 0x00020fffffffffff, 0x00030fffffffffff,
        0x00040fffffffffff, 0x00050fffffffffff, 0x00050fffffffffff] = some six16 ∧
      six16.sparse = true ∧ Count six16 = some h' ∧ h'.tmpSet = some [] ∧
      h'.sparseList = some sl ∧ sl.Count = 5 ∧
      CountSparse ratOps six16 = some (h', 5) ∧ CountSparse ratOps new16 = some (new16, 0) := by
  have hd : distinctEncoded new16 [0x00010fffffffffff, 0x00020fffffffffff, 0x00030fffffffffff,
      0x00040fffffffffff, 0x00050fffffffffff, 0x00050fffffffffff] = 5 := by decide
  have hrun6 : addAll new16 [0x00010fffffffffff, 0x00020fffffffffff, 0x00030fffffffffff,
      0x00040fffffffffff, 0x00050fffffffffff, 0x00050fffffffffff] = some six16 := by decide
  obtain ⟨h0, h, hnew, hrun, hsp, _, hzero, _⟩ := sparse_count_distinct ratOps 16 (by decide)
    (by decide) [0x00010fffffffffff, 0x00020fffffffffff, 0x00030fffffffffff,
      0x00040fffffffffff, 0x00050fffffffffff, 0x00050fffffffffff] (by decide)
  have e0 : h0 = new16 := by
    have hn : NewPlus 16 = .ok new16 := rfl
    rw [hn] at hnew
    cases hnew
    rfl
  rw [e0] at hrun hsp hzero
  rw [hrun6] at hrun
  cases hrun
  obtain ⟨h', sl, a1, a2, a3, a4, _, a6⟩ := hsp rfl
  rw [hd] at a4 a6
  rw [ratOps_count_five] at a6
  exact ⟨⟨by decide, by decide, by decide, ratOps_laws⟩, hd, ratOps_count_five, h', sl, rfl,
    hrun6, rfl, a1, a2, a3, a4, a6, hzero ratOps_laws⟩

/-- C13 fails at the switch from sparse to dense.  The sketch `sparse16` is
reachable (`NewPlus(4)` and sixteen `Add`s) and holds sixteen entries; `Count`
leaves it as it is and returns 16; `Add` of the hash `17 << 39` makes it the
dense sketch `dense17`, whose fifteen zero registers give the linear count
`16 * ln(16 / 15)`, and `Count` returns 1.  This is so for all `float64`
operations, comparison, threshold and dense estimate under which
`uint64(mp * ln(mp / (mp - 16)))` is 16 and `16 * ln(16 / 15)` is within the
threshold and converts to 1, and in particular in rational arithmetic with
threshold 10. -/
theorem count_decreases_at_switch :
    Reachable sparse16 ∧ Count sparse16 = some sparse16 ∧
    Add sparse16 (17 <<< 39) = some dense17 ∧
    (∀ (fl : Float64Ops) (le : fl.F → fl.F → Bool) (thr : fl.F) (est : Plus → Option fl.F)
      (e : fl.F), est dense17 = some e → countFormula fl 16 = 16 →
      le (linearCount fl 16 15) thr = true → linearFormula fl 16 15 = 1 →
      CountValue fl le thr est sparse16 = some (sparse16, 16) ∧
      CountValue fl le thr est dense17 = some (dense17, 1)) ∧
    (∀ (est : Plus → Option ℚ) (e : ℚ), est dense17 = some e →
      CountValue ratOps ratLe (10 : ℚ) est sparse16 = some (sparse16, 16) ∧
      CountValue ratOps ratLe (10 : ℚ) est dense17 = some (dense17, 1)) ∧
    ¬ (16 ≤ 1) :=
  ⟨sparse16_reachable, by decide, by decide, switch_values,
    fun est e hest => switch_values ratOps ratLe (10 : ℚ) est e hest
      ratOps_count_sixteen ratOps_below_ten ratOps_linear_sixteen,
    by decide⟩

/-- C13, amended: `Count` does not decrease across an `Add` that leaves the
representation as it was, as far as the linear count decides it.  For every
sketch `h` reachable from `NewPlus(p)` and every 64-bit hash `x`, `Count`
returns a sketch `h1` and `Add` of `x` to it a sketch `h2`.  If `h2` is
sparse, both `Count`s return a value, `sparseList.Count` after the second is
at least what it was after the first, and when it is below `2^25` the two
values are `uint64(mp * ln(mp / (mp - n)))` for these two numbers and the
second is not smaller.  If `h` is dense, `h2` is dense, the number of zero
registers has not increased, and when both `Count`s return with the linear
count within the threshold and a zero register is left, the second value is
not smaller.  The `float64` operations are parameters under which
`uint64(m * ln(m / v))` does not decrease as `v` decreases. -/
theorem count_monotone_without_switch (fl : Float64Ops) (le : fl.F → fl.F → Bool)
    (thr : fl.F) (est : Plus → Option fl.F) (h : Plus) (x : Nat) (hm : fl.LinearMonotone)
    (hr : Reachable h) (hx : x < 2 ^ 64) :
    ∃ h1 h2, Count h = some h1 ∧ Add h1 x = some h2 ∧
      (h2.sparse = true → ∃ v w h3 sl1 sl3,
        CountValue fl le thr est h = some (h1, v) ∧
        CountValue fl le thr est h2 = some (h3, w) ∧
        h1.sparseList = some sl1 ∧ h3.sparseList = some sl3 ∧ sl1.Count ≤ sl3.Count ∧
        (sl3.Count < 2 ^ 25 →
          v = countFormula fl sl1.Count ∧ w = countFormula fl sl3.Count ∧ v ≤ w)) ∧
      (h.sparse = false → h1 = h ∧ h2.sparse = false ∧ eCount h2 ≤ eCount h ∧
        ∀ v w h3, CountValue fl le thr est h = some (h1, v) →
          CountValue fl le thr est h2 = some (h3, w) → 0 < eCount h2 →
          le (linearCount fl h.m (eCount h)) thr = true →
          le (linearCount fl h2.m (eCount h2)) thr = true → v ≤ w) := by
  have hg := reachable_good h hr
  obtain ⟨h1, hcount, hinv1, _, hs1⟩ := Count_inv h hg.1
  have hr1 : Reachable h1 := Reachable.count h h1 hr hcount
  obtain ⟨h2, hadd, _, _, hkeep⟩ := Add_inv h1 x hinv1 hx
  have hr2 : Reachable h2 := Reachable.add h1 x h2 hr1 hx hadd
  have hg2 := reachable_good h2 hr2
  refine ⟨h1, h2, hcount, hadd, ?_, ?_⟩
  · intro hs2
    have hsp1 : h1.sparse = true := by
      by_cases hc : h1.sparse = true
      · exact hc
      · rw [hkeep (by simpa using hc)] at hs2
        cases hs2
    have hs : h.sparse = true := by rw [← hs1, hsp1]
    obtain ⟨ts, sl, hts, hsl, _⟩ := hg.2.1 hs
    obtain ⟨r, hmerge, hnd, hmem, hval⟩ := CountSparse_value fl h ts sl hg hs hts hsl
    have e1 : h1 = { h with sparseList := some ⟨r⟩, tmpSet := some [] } := by
      unfold Count at hcount
      rw [if_pos hs, hmerge] at hcount
      cases hcount
      rfl
    have hsl1 : h1.sparseList = some ⟨r⟩ := by rw [e1]
    obtain ⟨sl2, hsl2, hsub⟩ := Add_sparse_superset h1 h2 x ⟨r⟩ (reachable_good h1 hr1) hsp1
      hsl1 hx hadd hs2
    obtain ⟨ts2, sl2', hts2, hsl2', _⟩ := hg2.2.1 hs2
    rw [hsl2] at hsl2'
    cases hsl2'
    obtain ⟨r3, _, _, hmem3, hval3⟩ := CountSparse_value fl h2 ts2 sl2 hg2 hs2 hts2 hsl2
    have hlen : r.length ≤ r3.length :=
      nodup_subset_length r r3 hnd (fun v hv => (hmem3 v).mpr (Or.inl (hsub v hv)))
    have hmp := reachable_mp h hr
    have hmp2 := reachable_mp h2 hr2
    refine ⟨fl.toUInt64 (linearCount fl h.mp (sub32 h.mp (u32 r.length))),
      fl.toUInt64 (linearCount fl h2.mp (sub32 h2.mp (u32 r3.length))),
      { h2 with sparseList := some ⟨r3⟩, tmpSet := some [] }, ⟨r⟩, ⟨r3⟩, ?_, ?_,
      hsl1, rfl, hlen, ?_⟩
    · rw [CountValue_sparse fl le thr est h hs, hval, e1]
    · rw [CountValue_sparse fl le thr est h2 hs2]
      exact hval3
    · intro hlt
      have hlt3 : r3.length < 2 ^ 25 := hlt
      have ev : fl.toUInt64 (linearCount fl h.mp (sub32 h.mp (u32 r.length)))
          = countFormula fl r.length := by
        rw [hmp, sub32_count r.length (by omega)]
        rfl
      have ew : fl.toUInt64 (linearCount fl h2.mp (sub32 h2.mp (u32 r3.length)))
          = countFormula fl r3.length := by
        rw [hmp2, sub32_count r3.length hlt3]
        rfl
      refine ⟨ev, ew, ?_⟩
      rw [ev, ew]
      exact countFormula_mono fl hm _ _ hlen hlt3
  · intro hs
    have e1 : h1 = h := by
      unfold Count at hcount
      simp only [hs, Bool.false_eq_true, if_false] at hcount
      cases hcount
      rfl
    rw [e1] at hadd
    obtain ⟨hs2, hm2, hz, hzm⟩ := Add_dense_zeros h h2 x hg.1 hs hx hadd
    refine ⟨e1, hs2, hz, ?_⟩
    intro v w h3 hv hw hpos hle hle2
    rw [e1] at hv
    obtain ⟨e, he⟩ := CountValue_dense_state fl le thr est h h v hs hv
    obtain ⟨e2, he2⟩ := CountValue_dense_state fl le thr est h2 h3 w hs2 hw
    rw [CountValue_linear fl le thr est h e hs he (by omega) hle] at hv
    rw [CountValue_linear fl le thr est h2 e2 hs2 he2 hpos hle2] at hw
    cases hv
    cases hw
    rw [hm2]
    have hm18 := m_le h hg.1
    exact hm h.m (eCount h) (eCount h2) hpos hz hzm (by omega)

/-- The amended C13 in rational arithmetic with threshold 10.  Sparse: on
`six16`, which holds five entries, `Count` returns 5 and leaves `counted16`,
`Add` of the hash `0x00060fffffffffff` leaves the sparse sketch `pending16`
and `Count` returns 6.  Dense: on `dense17`, with fifteen zero registers,
`Count` returns 1, `Add` of the hash `0x1000000000000000` leaves `dense18`
with fourteen and `Count` returns 2. -/
theorem count_monotone_without_switch_witness :
    (ratOps.LinearMonotone ∧ Reachable six16 ∧ 0x00060fffffffffff < 2 ^ 64 ∧
      Reachable dense17 ∧ 0x1000000000000000 < 2 ^ 64) ∧
    (∃ h3, Count six16 = some counted16 ∧ Add counted16 0x00060fffffffffff = some pending16 ∧
      pending16.sparse = true ∧
      CountValue ratOps ratLe (10 : ℚ) (fun _ => none) six16 = some (counted16, 5) ∧
      CountValue ratOps ratLe (10 : ℚ) (fun _ => none) pending16 = some (h3, 6) ∧ 5 ≤ 6) ∧
    (Count dense17 = some dense17 ∧ Add dense17 0x1000000000000000 = some dense18 ∧
      dense18.sparse = false ∧ eCount dense17 = 15 ∧ eCount dense18 = 14 ∧
      CountValue ratOps ratLe (10 : ℚ) (fun _ => some (0 : ℚ)) dense17 = some (dense17, 1) ∧
      CountValue ratOps ratLe (10 : ℚ) (fun _ => some (0 : ℚ)) dense18 = some (dense18, 2) ∧
      1 ≤ 2) := by
  refine ⟨⟨ratOps_monotone, six16_reachable, by decide, dense17_reachable, by decide⟩, ?_, ?_⟩
  · obtain ⟨h1, h2, hc, ha, hsp, _⟩ := count_monotone_without_switch ratOps ratLe
      (10 : ℚ) (fun _ => none) six16 0x00060fffffffffff ratOps_monotone six16_reachable
      (by decide)
    have hc1 : Count six16 = some counted16 := by decide
    rw [hc1] at hc
    cases hc
    have ha1 : Add counted16 0x00060fffffffffff = some pending16 := by decide
    rw [ha1] at ha
    cases ha
    obtain ⟨v, w, h3, sl1, sl3, cv1, cv2, hsl1, hsl3, _, himp⟩ := hsp rfl
    cases hsl1
    have hm3 : mergeSparse pending16
        = some { pending16 with tmpSet := some [], sparseList := some ⟨[1086, 2110, 3134, 4158, 5182, 6206]⟩ } := by
      decide
    have cv2c := cv2
    rw [CountValue_sparse ratOps ratLe (10 : ℚ) (fun _ => none) _ rfl] at cv2c
    unfold CountSparse at cv2c
    rw [hm3] at cv2c
    simp only [Option.some.injEq, Prod.mk.injEq] at cv2c
    obtain ⟨e3, _⟩ := cv2c
    rw [← e3] at hsl3
    cases hsl3
    obtain ⟨ev, ew, hvw⟩ := himp (by decide)
    have ev5 : v = 5 := by
      rw [ev]
      exact ratOps_count_five
    have ew6 : w = 6 := by
      rw [ew]
      exact ratOps_count_six
    rw [ev5] at cv1 hvw
    rw [ew6] at cv2 hvw
    exact ⟨h3, hc1, ha1, rfl, cv1, cv2, hvw⟩
  · obtain ⟨h1, h2, hc, ha, _, hd⟩ := count_monotone_without_switch ratOps ratLe
      (10 : ℚ) (fun _ => some (0 : ℚ)) dense17 0x1000000000000000 ratOps_monotone
      dense17_reachable (by decide)
    obtain ⟨e1, hs2, _, hmono⟩ := hd rfl
    rw [e1] at ha hmono
    have ha1 : Add dense17 0x1000000000000000 = some dense18 := by decide
    rw [ha1] at ha
    cases ha
    have hz : eCount dense17 = 15 := by decide
    have hz2 : eCount dense18 = 14 := by decide
    have em : dense17.m = 16 := rfl
    have em2 : dense18.m = 16 := rfl
    have hle1 : ratLe (linearCount ratOps dense17.m (eCount dense17)) (10 : ℚ) = true := by
      rw [hz, em]
      exact ratOps_below_ten
    have hle2 : ratLe (linearCount ratOps dense18.m (eCount dense18)) (10 : ℚ) = true := by
      rw [hz2, em2]
      exact ratOps_below_ten_fourteen
    have cv1 := CountValue_linear ratOps ratLe (10 : ℚ) (fun _ => some (0 : ℚ)) dense17
      (0 : ℚ) rfl rfl (by rw [hz]; decide) hle1
    have cv2 := CountValue_linear ratOps ratLe (10 : ℚ) (fun _ => some (0 : ℚ)) dense18
      (0 : ℚ) rfl rfl (by rw [hz2]; decide) hle2
    rw [hz, em, ratOps_linear_sixteen] at cv1
    rw [hz2, em2, ratOps_linear_fourteen] at cv2
    have hle := hmono 1 2 _ cv1 cv2 (by rw [hz2]; decide) hle1 hle2
    exact ⟨rfl, ha1, rfl, hz, hz2, cv1, cv2, hle⟩

/-- C15: sparse-to-dense conversion against dense insertion, evaluated at
precision 4 on the single hash `0xf000004000000000`.  Adding the hash to the
fresh sparse sketch gives `one4`, and `toNormal` of it has register 15 equal
to 61; `toNormal` of the fresh sketch followed by the dense `Add` of the same
hash has register 15 equal to 22.  The two register arrays differ. -/
theorem toNormal_dense_add_differ :
    NewPlus 4 = .ok new4 ∧ addAll new4 [0xf000004000000000] = some one4 ∧
    toNormal one4 = some merged4 ∧ merged4.denseList[15]? = some 61 ∧
    toNormal new4 = some dense4 ∧
    addAll dense4 [0xf000004000000000] =
      some { dense4 with denseList := (List.replicate 16 0).set 15 22 } ∧
    merged4.denseList ≠ (List.replicate 16 0).set 15 22 := by
  refine ⟨rfl, ?_, ?_, rfl, ?_, ?_, ?_⟩ <;> decide

/-- C16: `estimateBias` at the first table value, evaluated on the tables
`[1, 2]` and `[10, 20]` with `est = 1`.  Neither guard fires, the loop stops
at `i = 0`, and the read of `estTable[i-1]` is out of range: the call panics
instead of returning the aligned bias 10. -/
theorem estimateBias_first_panics :
    ¬ ((1 : ℚ) > 1) ∧ ¬ ((2 : ℚ) < 1) ∧ biasIndex [1, 2] 1 = 0 ∧
    estimateBias [1, 2] [10, 20] 1 = none := by
  refine ⟨?_, ?_, ?_, ?_⟩ <;> decide

/-- C17: the denominators of the raw estimate, evaluated on `rank61`, the
dense sketch of precision 4 whose register 3 holds 61 = 64 - 4 + 1 after the
dense `Add` of `0x3000000000000000`.  The denominator `uint32(1)<<61` that
`e()` computes for that register is 0, not `2^61`; so is `uint32(1)<<r` for
every `r` from 32 on.  The count of zero registers is 15. -/
theorem e_denominator_wraps :
    toNormal new4 = some dense4 ∧ addAll dense4 [0x3000000000000000] = some rank61 ∧
    (∀ r ∈ rank61.denseList, r ≤ 64 - rank61.p + 1) ∧
    rank61.denseList[3]? = some 61 ∧ (eDenominators rank61)[3]? = some 0 ∧
    shl32 1 61 ≠ 2 ^ 61 ∧ (∀ r, 32 ≤ r → shl32 1 r = 0) ∧ eCount rank61 = 15 := by
  refine ⟨by decide, by decide, by decide, rfl, by decide, by decide, ?_, by decide⟩
  intro r hr
  unfold shl32
  rw [Nat.one_shiftLeft]
  have e : r = 32 + (r - 32) := by omega
  rw [e, Nat.pow_add]
  exact Nat.mul_mod_right _ _

/-- C18: the register range invariant.  In every reachable state each entry of
the dense register array is at most `64 - p + 1`.  The ranks that feed the
registers are in range and computed without 8-bit wrap-around: the rank of the
dense `Add` is `clz(w) + 1`, the rank `decodeHash` returns is the rank computed
over the integers, and the ranks decoded from encoded hashes, in particular
from the entries of `tmpSet` and `sparseList` that `toNormal` and `Merge`
read, lie between 1 and `64 - p + 1`. -/
theorem register_range_invariant (h : Plus) (hr : Reachable h) :
    (∀ r ∈ h.denseList, r ≤ 64 - h.p + 1) ∧
    (∀ x, x < 2 ^ 64 →
      denseRho h x = clz (denseWord h x) + 1 ∧ denseRho h x ≤ 64 - h.p + 1) ∧
    (∀ k, ((decodeHash h k).2 : Int) = decodeRankExact h k) ∧
    (∀ x, x < 2 ^ 64 → 1 ≤ (decodeHash h (encodeHash h x)).2 ∧
      (decodeHash h (encodeHash h x)).2 ≤ 64 - h.p + 1) ∧
    (∀ k, k ∈ h.tmpSet.getD [] ∨ k ∈ (h.sparseList.getD ⟨[]⟩).vals →
      (decodeHash h k).2 ≤ 64 - h.p + 1) := by
  obtain ⟨hinv, hsp, hreg⟩ := reachable_good h hr
  obtain ⟨hp4, hp18, hpp, _, _, hdn⟩ := hinv
  refine ⟨hreg, ?_, ?_, ?_, ?_⟩
  · intro x _
    obtain ⟨a, _, _, _, b⟩ := denseRho_bounds h x hp4 hp18
    exact ⟨a, b⟩
  · intro k
    exact decodeRank_exact h k hp18 hpp
  · intro x hx
    obtain ⟨_, _, a, b⟩ := decodeHash_encodeHash h x hp4 hp18 hpp hx
    exact ⟨a, b⟩
  · intro k hk
    by_cases hs : h.sparse = true
    · obtain ⟨ts, sl, hts, hsl, _, _, _, hets, hesl⟩ := hsp hs
      rw [hts, hsl] at hk
      simp only [Option.getD_some] at hk
      rcases hk with h1 | h1
      · exact (IsEncoded_rank_le h k hp4 hp18 hpp (hets k h1)).2.2
      · exact (IsEncoded_rank_le h k hp4 hp18 hpp (hesl k h1)).2.2
    · obtain ⟨h1, h2, _⟩ := hdn (by simpa using hs)
      rw [h1, h2] at hk
      simp at hk

/-- C18 on `merged4`, the dense sketch left by `new4.Merge(one4)`, whose
register 15 holds 61 = 64 - 4 + 1. -/
theorem register_range_invariant_witness :
    Reachable merged4 ∧ merged4.denseList[15]? = some 61 ∧
    (∀ r ∈ merged4.denseList, r ≤ 64 - merged4.p + 1) :=
  ⟨merged4_reachable, rfl, (register_range_invariant merged4 merged4_reachable).1⟩

/-- C19: `clz` is never applied to 0.  For a precision in [4,18] and a 64-bit
hash `x`: the word of the dense `Add` is non-zero, `clz` of it is at most
`64 - p` and the rank `clz + 1` at least 1; the word of the long-form branch
of `encodeHash` is non-zero; the word of the short-form branch of `decodeHash`
is non-zero whenever that branch is taken on `encodeHash(x)`; and the rank
decoded from `encodeHash(x)` is at least 1. -/
theorem clz_never_zero (h : Plus) (x : Nat) (hp4 : 4 ≤ h.p) (hp18 : h.p ≤ 18)
    (hpp : h.pp = 25) (hx : x < 2 ^ 64) :
    (denseRho h x = u8 (u8 (clz (denseWord h x)) + 1) ∧ denseWord h x ≠ 0 ∧
      clz (denseWord h x) ≤ 64 - h.p ∧ 1 ≤ denseRho h x) ∧
    ((bextr x (sub8 64 h.pp) (sub8 h.pp h.p) = 0 →
        encodeHash h x = shl32 (u32 (bextr x (sub8 64 h.pp) h.pp)) 7 |||
          u32 (shl64 (u64 (clz (encodeWord h x) + 1)) 1) ||| 1) ∧
      encodeWord h x ≠ 0) ∧
    (¬ (encodeHash h x &&& 1 = 1) →
      (decodeHash h (encodeHash h x)).2
          = u8 (sub64 (clz (decodeWord h (encodeHash h x))) 31) ∧
        decodeWord h (encodeHash h x) ≠ 0) ∧
    1 ≤ (decodeHash h (encodeHash h x)).2 := by
  obtain ⟨_, d2, d3, d4, _⟩ := denseRho_bounds h x hp4 hp18
  refine ⟨⟨rfl, d2, d3, d4⟩, ⟨?_, ?_⟩, ?_,
    (decodeHash_encodeHash h x hp4 hp18 hpp hx).2.2.1⟩
  · intro hb
    unfold encodeHash encodeWord
    simp only []
    rw [if_pos hb]
  · unfold encodeWord
    rw [hpp, encodeWord_eq]
    omega
  · intro hk
    constructor
    · unfold decodeHash
      simp only []
      rw [if_neg hk]
      rfl
    · by_cases hb : (x / 2 ^ 39) % 2 ^ (25 - h.p) = 0
      · exfalso
        obtain ⟨zeros, _, _, _, henc⟩ := encodeHash_long h x hp4 hp18 hpp hx hb
        apply hk
        rw [henc, Nat.and_one_is_mod]
        omega
      · rw [encodeHash_short h x hp4 hp18 hpp hx hb]
        exact (decodeHash_short h x hp4 hp18 hpp hx hb).2.1

/-- C19 at precision 8 on the hash `0xff00000000000000`, whose bits below the
index are all zero. -/
theorem clz_never_zero_witness :
    (4 ≤ new8.p ∧ new8.p ≤ 18 ∧ new8.pp = 25 ∧ 0xff00000000000000 < 2 ^ 64) ∧
    denseWord new8 0xff00000000000000 ≠ 0 ∧ encodeWord new8 0xff00000000000000 ≠ 0 ∧
    1 ≤ (decodeHash new8 (encodeHash new8 0xff00000000000000)).2 :=
  have hc := clz_never_zero new8 0xff00000000000000 (by decide) (by decide) rfl (by decide)
  ⟨⟨by decide, by decide, rfl, by decide⟩, hc.1.2.1, hc.2.1.2, hc.2.2.2⟩

/-- C20: register accesses are always in bounds.  For a precision in [4,18],
every 64-bit `x` and every `k`, valid encoding or not, the index of the dense
`Add` and the index that `getIndex` and `decodeHash` return are below
`m = 2^p`.  In a reachable state a dense register array has length exactly
`m`, and `Add`, `toNormal` (on a sparse sketch) and `Merge` with a reachable
argument return: no register read or write of theirs is out of range. -/
theorem register_access_in_bounds (h : Plus) (hp4 : 4 ≤ h.p) (hp18 : h.p ≤ 18)
    (hpp : h.pp = 25) :
    ((∀ x, x < 2 ^ 64 → bextr x (sub8 64 h.p) h.p < 2 ^ h.p ∧ denseIndex h x < 2 ^ h.p) ∧
      (∀ k, getIndex h k < 2 ^ h.p ∧ (decodeHash h k).1 < 2 ^ h.p)) ∧
    (Reachable h →
      h.m = 2 ^ h.p ∧ (h.sparse = false → h.denseList.length = h.m) ∧
      (∀ x, x < 2 ^ 64 → ∃ h', Add h x = some h') ∧
      (h.sparse = true → ∃ h', toNormal h = some h' ∧ h'.denseList.length = h.m) ∧
      (∀ o, Reachable o → ∃ h' e, Merge h o = some (h', o, e)) ∧
      (∀ o, Reachable o → h.p = o.p → o.sparse = false →
        o.denseList.length = h.m ∧ ∃ h', Merge h o = some (h', o, none))) := by
  refine ⟨⟨?_, ?_⟩, ?_⟩
  · intro x hx
    have h1 : denseIndex h x < 2 ^ h.p := by
      rw [denseIndex_eq h x (by omega) hx]
      exact topBits_lt h.p x (by omega) hx
    exact ⟨h1, h1⟩
  · intro k
    exact ⟨getIndex_lt h k hp4 hp18 hpp, decodeHash_fst_lt h k hp4 hp18 hpp⟩
  · intro hr
    have hinv := reachable_inv h hr
    refine ⟨hinv.2.2.2.1, fun hs => (hinv.2.2.2.2.2 hs).2.2, ?_, ?_, ?_, ?_⟩
    · intro x hx
      obtain ⟨h', hadd, _⟩ := Add_inv h x hinv hx
      exact ⟨h', hadd⟩
    · intro hs
      obtain ⟨h', hn, _, _, _, _, _, _, _, hlen⟩ := toNormal_spec h hinv hs
      exact ⟨h', hn, hlen⟩
    · intro o ho
      obtain ⟨h', e, hm, _⟩ := Merge_inv h o hinv (reachable_inv o ho)
      exact ⟨h', e, hm⟩
    · intro o ho hp hso
      have hinvo := reachable_inv o ho
      obtain ⟨h', e, hm, _, _, _, heq, _⟩ := Merge_inv h o hinv hinvo
      obtain ⟨he, _, _⟩ := heq hp
      subst he
      refine ⟨?_, h', hm⟩
      rw [(hinvo.2.2.2.2.2 hso).2.2, hinvo.2.2.2.1, hinv.2.2.2.1, hp]

/-- C20 on the dense `merged4` with the dense argument `merged4`. -/
theorem register_access_in_bounds_witness :
    (4 ≤ merged4.p ∧ merged4.p ≤ 18 ∧ merged4.pp = 25 ∧ Reachable merged4) ∧
    merged4.denseList.length = merged4.m ∧
    (∀ x, x < 2 ^ 64 → ∃ h', Add merged4 x = some h') ∧
    (∀ o, Reachable o → ∃ h' e, Merge merged4 o = some (h', o, e)) :=
  have hc := (register_access_in_bounds merged4 (by decide) (by decide) rfl).2 merged4_reachable
  ⟨⟨by decide, by decide, rfl, merged4_reachable⟩, hc.2.1 rfl, hc.2.2.1, hc.2.2.2.2.1⟩

end hll
